import Mathlib

/-!
# Order book of the market-data engine

Shallow embedding of `engine::OrderBook` (`src/engine/order_book.cpp`,
`include/engine/order_book.hpp`).

* `std::map<int64_t, std::deque<uint64_t>, Cmp>` is a list of `(price, queue)`
  pairs kept in the order of the comparator (`std::greater` for bids,
  `std::less` for asks); a `std::deque<uint64_t>` is a `List Nat`.
* `std::unordered_map<uint64_t, Order>` is a list of `(order_id, Order)` pairs
  kept in increasing id order.  The code never iterates over the index, so its
  iteration order is not observable and the sorted list is a canonical form.
* `int64_t` and `int32_t` values are `Int`: signed overflow is undefined in
  C++, so the model is exact wherever the code is defined.  `uint64_t` ids and
  `size_t` counts are `Nat`; the one narrowing conversion of the code, the
  `(uint32_t)` cast of a queue size, is kept as `% 4294967296`.
* The map functions do not require their input to be ordered; `MapOrdered`
  states the ordering and separate lemmas show that it is preserved.  A book
  state is a value satisfying `OrderBook.WF`; `wf_apply_events` shows that
  every state reached by `on_event` is one.
-/

namespace engine

/-! ## Data model (`order_book.hpp`) -/

/-- The event kinds of `enum class EventKind`. -/
inductive EventKind where
  | Add
  | Modify
  | Cancel
  | Trade
  | Clear
deriving DecidableEq

/-- The sides of `enum class Side`. -/
inductive Side where
  | Bid
  | Ask
deriving DecidableEq

/-- One decoded event, `struct MboEvent`. -/
structure MboEvent where
  kind : EventKind
  side : Side
  order_id : Nat
  price : Int
  qty : Int
  new_price : Int
  new_qty : Int
  match_id : Nat
  ts_ns : Nat
deriving DecidableEq

/-- One aggregated level of a snapshot, `struct LevelView`. -/
structure LevelView where
  price : Int
  total_qty : Int
  orders : Nat
deriving DecidableEq

/-- Both sides of a snapshot, `struct BookSnapshot`. -/
structure BookSnapshot where
  bids : List LevelView
  asks : List LevelView
deriving DecidableEq

/-- A resident order, `struct OrderBook::Order`. -/
structure Order where
  price : Int
  qty : Int
  side : Side
deriving DecidableEq

/-- The private state of `class OrderBook`: the two level maps and the index. -/
structure OrderBook where
  bids_ : List (Int × List Nat)
  asks_ : List (Int × List Nat)
  orders_ : List (Nat × Order)
deriving DecidableEq

/-- A default-constructed `OrderBook`. -/
def OrderBook.empty : OrderBook := ⟨[], [], []⟩

/-! ## Ordered maps -/

/-- Comparator of `bids_`, `std::greater<int64_t>`. -/
def px_greater (a b : Int) : Bool := decide (b < a)

/-- Comparator of `asks_`, `std::less<int64_t>`. -/
def px_less (a b : Int) : Bool := decide (a < b)

/-- Canonical order of the index keys. -/
def id_less (a b : Nat) : Bool := decide (a < b)

/-- The value found under key `k`, as `find(k)` does. -/
def map_find {K V : Type} [DecidableEq K] : List (K × V) → K → Option V
  | [], _ => none
  | (k', v) :: rest, k => if k' = k then some v else map_find rest k

/-- Insert or assign, as `m[k] = v` does, keeping the comparator order. -/
def map_put {K V : Type} [DecidableEq K] (lt : K → K → Bool) :
    List (K × V) → K → V → List (K × V)
  | [], k, v => [(k, v)]
  | (k', v') :: rest, k, v =>
    if k' = k then (k, v) :: rest
    else if lt k k' then (k, v) :: (k', v') :: rest
    else (k', v') :: map_put lt rest k v

/-- Remove the element found under key `k`, as `erase` does. -/
def map_erase {K V : Type} [DecidableEq K] : List (K × V) → K → List (K × V)
  | [], _ => []
  | (k', v) :: rest, k => if k' = k then rest else (k', v) :: map_erase rest k

/-- Update in place the element found under key `k` (a write through the
iterator returned by `find`). -/
def map_adjust {K V : Type} [DecidableEq K] (f : V → V) : List (K × V) → K → List (K × V)
  | [], _ => []
  | (k', v) :: rest, k => if k' = k then (k', f v) :: rest else (k', v) :: map_adjust f rest k

/-- The queue that `m[px]` denotes: the stored queue, or the default-constructed
empty one that `operator[]` inserts when the level is absent. -/
def level_at (m : List (Int × List Nat)) (px : Int) : List Nat :=
  (map_find m px).getD []

/-! ## Operations (`order_book.cpp`) -/

/-- Remove the first occurrence of `id`, if any: `std::find` then `erase`. -/
def erase_from_queue (dq : List Nat) (id : Nat) : List Nat := dq.erase id

/-- The statement `m[px].push_back(id)`. -/
def level_push (lt : Int → Int → Bool) (m : List (Int × List Nat)) (px : Int) (id : Nat) :
    List (Int × List Nat) :=
  map_put lt m px (level_at m px ++ [id])

/-- The two statements `erase_from_queue(m[px], id); if (m[px].empty()) m.erase(px);`. -/
def level_remove (lt : Int → Int → Bool) (m : List (Int × List Nat)) (px : Int) (id : Nat) :
    List (Int × List Nat) :=
  let m1 := map_put lt m px (erase_from_queue (level_at m px) id)
  if (level_at m1 px).isEmpty then map_erase m1 px else m1

/-- The method `OrderBook::add_order`. -/
def add_order (ob : OrderBook) (id : Nat) (s : Side) (px : Int) (qty : Int) : OrderBook :=
  let orders := map_put id_less ob.orders_ id ⟨px, qty, s⟩
  match s with
  | Side.Bid => { ob with orders_ := orders, bids_ := level_push px_greater ob.bids_ px id }
  | Side.Ask => { ob with orders_ := orders, asks_ := level_push px_less ob.asks_ px id }

/-- The method `OrderBook::cancel_order`. -/
def cancel_order (ob : OrderBook) (id : Nat) : OrderBook :=
  match map_find ob.orders_ id with
  | none => ob
  | some o =>
    match o.side with
    | Side.Bid =>
      { ob with bids_ := level_remove px_greater ob.bids_ o.price id,
                orders_ := map_erase ob.orders_ id }
    | Side.Ask =>
      { ob with asks_ := level_remove px_less ob.asks_ o.price id,
                orders_ := map_erase ob.orders_ id }

/-- The method `OrderBook::modify_order`. -/
def modify_order (ob : OrderBook) (id : Nat) (new_px : Int) (new_qty : Int) : OrderBook :=
  match map_find ob.orders_ id with
  | none => ob
  | some o =>
    let ob1 : OrderBook :=
      if new_px ≠ o.price then
        match o.side with
        | Side.Bid =>
          { ob with
            bids_ := level_push px_greater (level_remove px_greater ob.bids_ o.price id) new_px id,
            orders_ := map_adjust (fun r => { r with price := new_px }) ob.orders_ id }
        | Side.Ask =>
          { ob with
            asks_ := level_push px_less (level_remove px_less ob.asks_ o.price id) new_px id,
            orders_ := map_adjust (fun r => { r with price := new_px }) ob.orders_ id }
      else ob
    if 0 ≤ new_qty then
      { ob1 with orders_ := map_adjust (fun r => { r with qty := new_qty }) ob1.orders_ id }
    else ob1

/-- The method `OrderBook::trade_order`. The subtraction `qty -= fill_qty` is the exact
integer subtraction; it is the `int32_t` subtraction of the source as long as the result is
a value of `int32_t` (`trade_in_range`), and beyond that the source overflows, which is
undefined. -/
def trade_order (ob : OrderBook) (id : Nat) (fill_qty : Int) : OrderBook :=
  match map_find ob.orders_ id with
  | none => ob
  | some o =>
    let ob1 : OrderBook :=
      { ob with orders_ := map_adjust (fun r => { r with qty := r.qty - fill_qty }) ob.orders_ id }
    if o.qty - fill_qty ≤ 0 then cancel_order ob1 id else ob1

/-- The method `OrderBook::on_event`. -/
def on_event (ob : OrderBook) (ev : MboEvent) : OrderBook :=
  match ev.kind with
  | EventKind.Add => add_order ob ev.order_id ev.side ev.price ev.qty
  | EventKind.Modify =>
    modify_order ob ev.order_id
      (if ev.new_price ≠ 0 then ev.new_price else ev.price)
      (if ev.new_qty ≠ 0 then ev.new_qty else ev.qty)
  | EventKind.Cancel => cancel_order ob ev.order_id
  | EventKind.Trade => trade_order ob ev.order_id ev.qty
  | EventKind.Clear => { ob with bids_ := [], asks_ := [], orders_ := [] }

/-- The inner loop of `snapshot_top_n`: the `int64_t sum` over the ids of one
queue, skipping ids that the index does not hold. The additions are exact; they are the
`int64_t` additions of the source as long as the running sum is a value of `int64_t`
(`sum_in_range`), and beyond that the source overflows, which is undefined. -/
def level_sum (orders : List (Nat × Order)) (q : List Nat) : Int :=
  q.foldl (fun sum id =>
    match map_find orders id with
    | some o => sum + o.qty
    | none => sum) 0

/-- The entry pushed for one level:
`{it->first, sum, (uint32_t)it->second.size()}`. -/
def level_view (orders : List (Nat × Order)) (e : Int × List Nat) : LevelView :=
  { price := e.1, total_qty := level_sum orders e.2, orders := e.2.length % 4294967296 }

/-- One outer loop of `snapshot_top_n`: walk the levels in map order while the
output holds fewer than `n` entries, appending one `LevelView` per level. -/
def snapshot_loop (orders : List (Nat × Order)) :
    List (Int × List Nat) → Nat → List LevelView → List LevelView
  | [], _, out => out
  | (px, q) :: rest, n, out =>
    if out.length < n then snapshot_loop orders rest n (out ++ [level_view orders (px, q)])
    else out

/-- The method `OrderBook::snapshot_top_n`. -/
def snapshot_top_n (ob : OrderBook) (n : Nat) : BookSnapshot :=
  { bids := snapshot_loop ob.orders_ ob.bids_ n [],
    asks := snapshot_loop ob.orders_ ob.asks_ n [] }

/-- The method `OrderBook::snapshot_full`: `snapshot_top_n(SIZE_MAX)`. -/
def snapshot_full (ob : OrderBook) : BookSnapshot :=
  snapshot_top_n ob 18446744073709551615

/-- Apply a sequence of events in order, one `on_event` call each. -/
def apply_events (ob : OrderBook) (evs : List MboEvent) : OrderBook :=
  evs.foldl on_event ob

/-! ## Event builders (`tests_book.cpp`) -/

/-- The value-initialised `MboEvent e{}`. -/
def MboEvent.zero : MboEvent :=
  ⟨EventKind.Add, Side.Bid, 0, 0, 0, 0, 0, 0, 0⟩

/-- The test helper `mk_add`. -/
def mk_add (ts : Nat) (side : Side) (oid : Nat) (px : Int) (qty : Int) : MboEvent :=
  { MboEvent.zero with kind := EventKind.Add, ts_ns := ts, side := side, order_id := oid,
                       price := px, qty := qty }

/-- The test helper `mk_mod`. -/
def mk_mod (ts : Nat) (oid : Nat) (new_px : Int) (new_qty : Int) : MboEvent :=
  { MboEvent.zero with kind := EventKind.Modify, ts_ns := ts, order_id := oid,
                       new_price := new_px, new_qty := new_qty }

/-- The test helper `mk_cxl`. -/
def mk_cxl (ts : Nat) (oid : Nat) : MboEvent :=
  { MboEvent.zero with kind := EventKind.Cancel, ts_ns := ts, order_id := oid }

/-- The test helper `mk_trd`. -/
def mk_trd (ts : Nat) (oid : Nat) (fill_qty : Int) (hit_side : Side) : MboEvent :=
  { MboEvent.zero with kind := EventKind.Trade, ts_ns := ts, order_id := oid,
                       qty := fill_qty, side := hit_side }

/-- The test helper `mk_clr`. -/
def mk_clr (ts : Nat) : MboEvent :=
  { MboEvent.zero with kind := EventKind.Clear, ts_ns := ts }

/-! ## Specification vocabulary -/

/-- The levels of one side. -/
def levels_of (ob : OrderBook) (s : Side) : List (Int × List Nat) :=
  match s with
  | Side.Bid => ob.bids_
  | Side.Ask => ob.asks_

/-- The comparator of the level map of one side. -/
def cmp_of (s : Side) : Int → Int → Bool :=
  match s with
  | Side.Bid => px_greater
  | Side.Ask => px_less

/-- The keys of a map are in strict comparator order (so they are distinct). -/
def MapOrdered {K V : Type} (lt : K → K → Bool) (m : List (K × V)) : Prop :=
  m.Pairwise (fun a b => lt a.1 b.1 = true)

instance {K V : Type} (lt : K → K → Bool) (m : List (K × V)) : Decidable (MapOrdered lt m) := by
  unfold MapOrdered; infer_instance

/-- A comparator that is a strict total order. -/
structure StrictCmp {K : Type} (lt : K → K → Bool) : Prop where
  irrefl : ∀ a, lt a a = false
  trans : ∀ a b c, lt a b = true → lt b c = true → lt a c = true
  total : ∀ a b, a ≠ b → lt a b = false → lt b a = true

/-- The representation invariant of the three containers: bid prices strictly
decreasing, ask prices strictly increasing, index keys distinct. -/
def OrderBook.WF (ob : OrderBook) : Prop :=
  MapOrdered px_greater ob.bids_ ∧ MapOrdered px_less ob.asks_ ∧ MapOrdered id_less ob.orders_

instance (ob : OrderBook) : Decidable ob.WF := by
  unfold OrderBook.WF; infer_instance

/-- Every order id held by a level queue, bids first. -/
def queue_ids (ob : OrderBook) : List Nat :=
  ((ob.bids_ ++ ob.asks_).map Prod.snd).flatten

/-- The keys of the order index. -/
def index_ids (ob : OrderBook) : List Nat :=
  ob.orders_.map Prod.fst

/-- Index/queue consistency: the ids in the queues are keys of the index, and
the keys of the index occur in the queues. -/
def IndexQueueConsistent (ob : OrderBook) : Prop :=
  (∀ id ∈ queue_ids ob, id ∈ index_ids ob) ∧ (∀ id ∈ index_ids ob, id ∈ queue_ids ob)

instance (ob : OrderBook) : Decidable (IndexQueueConsistent ob) := by
  unfold IndexQueueConsistent; infer_instance

/-- No `Add` of the sequence names an order id that is resident when the `Add`
is applied (starting from `ob`). -/
def no_dup_add : OrderBook → List MboEvent → Bool
  | _, [] => true
  | ob, ev :: rest =>
    (if ev.kind = EventKind.Add then (map_find ob.orders_ ev.order_id).isNone else true)
      && no_dup_add (on_event ob ev) rest

/-- The representation invariant together with strong consistency, stated over
the level maps `L` (one per side) and the index `O`: the maps are ordered, a
resident id occurs exactly once in the queue of its own side and price, and
every id of a queue is resident with the side and the price of that queue. -/
def Coherent (L : Side → List (Int × List Nat)) (O : List (Nat × Order)) : Prop :=
  (∀ s, MapOrdered (cmp_of s) (L s)) ∧ MapOrdered id_less O ∧
  (∀ id o, map_find O id = some o → (level_at (L o.side) o.price).count id = 1) ∧
  (∀ s, ∀ e ∈ L s, ∀ id ∈ e.2, ∃ o, map_find O id = some o ∧ o.side = s ∧ o.price = e.1)

/-- Coherence of a book state. -/
def BookCoherent (ob : OrderBook) : Prop :=
  Coherent (levels_of ob) ob.orders_

/-- The resident orders of side `s` at price `px`. -/
def resident_at (ob : OrderBook) (s : Side) (px : Int) : List (Nat × Order) :=
  ob.orders_.filter (fun e => decide (e.2.side = s ∧ e.2.price = px))

/-- The sum of `qty` over the resident orders of side `s` at price `px`. -/
def resident_qty (ob : OrderBook) (s : Side) (px : Int) : Int :=
  ((resident_at ob s px).map (fun e => e.2.qty)).sum

/-- The number of resident orders of side `s` at price `px`. -/
def resident_count (ob : OrderBook) (s : Side) (px : Int) : Nat :=
  (resident_at ob s px).length

/-- The quantity that the index holds for `id`, 0 when the id is not resident: the amount
that one iteration of the summing loop adds. -/
def qty_of (O : List (Nat × Order)) (id : Nat) : Int :=
  match map_find O id with
  | some o => o.qty
  | none => 0

/-- The event list `Add(Bid,0,100,1), ..., Add(Bid,N-1,100,1)`. -/
def adds_at_100 (N : Nat) : List MboEvent :=
  (List.range N).map (fun i => mk_add 0 Side.Bid i 100 1)

/-- Each resident id occurs exactly once in the queue of its own side and price. -/
def OwnQueueOnce (ob : OrderBook) : Prop :=
  ∀ e ∈ ob.orders_, (level_at (levels_of ob e.2.side) e.2.price).count e.1 = 1

instance (ob : OrderBook) : Decidable (OwnQueueOnce ob) := by
  unfold OwnQueueOnce; infer_instance

/-- No level of either side has an empty queue. -/
def NoEmptyLevel (ob : OrderBook) : Prop :=
  ∀ e ∈ ob.bids_ ++ ob.asks_, e.2 ≠ []

instance (ob : OrderBook) : Decidable (NoEmptyLevel ob) := by
  unfold NoEmptyLevel; infer_instance

/-! ## Latency histograms (`engine.hpp`, `engine.cpp`)

The counters are `std::atomic<uint64_t>`; `fetch_add` wraps modulo 2^64.  An
array access outside the array is undefined behaviour and is modelled by
`none`.  The `(int)` conversion of a `uint64_t` keeps the low 32 bits as a
two's-complement value. -/

/-- The constant `LAT_BIN_US`. -/
def LAT_BIN_US : Nat := 1

/-- The constant `LAT_BINS`. -/
def LAT_BINS : Nat := 5000

/-- The constant `E2E_BIN_US`. -/
def E2E_BIN_US : Nat := 1

/-- The constant `E2E_BINS`. -/
def E2E_BINS : Nat := 100000

/-- One histogram: the bin array (`lat_bins_` or `e2e_bins_`), the sample count
(`lat_samples_`, `e2e_samples_`) and the running sum (`lat_sum_us_`, `e2e_sum_us_`). -/
structure Histogram where
  bins : List Nat
  samples : Nat
  sum_us : Nat
deriving DecidableEq

/-- A zero-initialised histogram with `nbins + 1` bins. -/
def Histogram.fresh (nbins : Nat) : Histogram :=
  { bins := List.replicate (nbins + 1) 0, samples := 0, sum_us := 0 }

/-- The conversion `(int)x` of a `uint64_t` value. -/
def to_int32 (x : Nat) : Int :=
  if x % 4294967296 < 2147483648 then (x % 4294967296 : Nat) else (x % 4294967296 : Nat) - 4294967296

/-- The common body of `record_latency_us` and `record_e2e_latency_us` for a
histogram of `nbins + 1` bins of width `bin_us`:
`int bin = (int)(us / BIN_US); if (bin > BINS) bin = BINS; bins[bin]++; samples++; sum += us`. -/
def record_us (nbins bin_us : Nat) (h : Histogram) (us : Nat) : Option Histogram :=
  let bin0 : Int := to_int32 (us / bin_us)
  let bin : Int := if (nbins : Int) < bin0 then (nbins : Int) else bin0
  if 0 ≤ bin ∧ bin.toNat < h.bins.length then
    some { bins := h.bins.set bin.toNat ((h.bins.getD bin.toNat 0 + 1) % 18446744073709551616),
           samples := (h.samples + 1) % 18446744073709551616,
           sum_us := (h.sum_us + us) % 18446744073709551616 }
  else none

/-- The method `EngineApp::record_latency_us`. -/
def record_latency_us (h : Histogram) (us : Nat) : Option Histogram :=
  record_us LAT_BINS LAT_BIN_US h us

/-- The method `EngineApp::record_e2e_latency_us`. -/
def record_e2e_latency_us (h : Histogram) (us : Nat) : Option Histogram :=
  record_us E2E_BINS E2E_BIN_US h us

/-- Record a sequence of samples in order; `none` as soon as one call is undefined. -/
def record_all (nbins bin_us : Nat) (h : Histogram) (samples : List Nat) : Option Histogram :=
  samples.foldlM (record_us nbins bin_us) h

/-- The number of low bits of `n` that do not fit in a 53-bit significand: the
least `r` with `n / 2^r < 2^53` (the first argument bounds the search). -/
def shift_of : Nat → Nat → Nat
  | 0, _ => 0
  | f + 1, n => if n < 9007199254740992 then 0 else shift_of f (n / 2) + 1

/-- Round a natural number to 53 significant bits, to nearest, ties to even:
the binary64 rounding of an integer-valued quantity. -/
def round53 (n : Nat) : Nat :=
  let r := shift_of n n
  let q := n / 2 ^ r
  let rem := n % 2 ^ r
  if r = 0 then n
  else if 2 ^ (r - 1) < rem ∨ (rem = 2 ^ (r - 1) ∧ q % 2 = 1) then (q + 1) * 2 ^ r
  else q * 2 ^ r

/-- The binary64 constant `0.50` is `P50 * 2^-53`. -/
def P50 : Nat := 4503599627370496

/-- The binary64 constant `0.95` is `P95 * 2^-53`. -/
def P95 : Nat := 8556839292003942

/-- The binary64 constant `0.99` is `P99 * 2^-53`. -/
def P99 : Nat := 8917127262193582

/-- The expression `(uint64_t)std::ceil(p * total)` for the binary64 constant
`p = M * 2^-53`: `total` is converted to binary64 (`round53 total`), the product
`M * round53 total * 2^-53` is rounded to binary64 (`round53 (M * round53 total) * 2^-53`,
rounding commutes with the scaling by a power of two), and the ceiling is taken. -/
def quant_need (M total : Nat) : Nat :=
  (round53 (M * round53 total) + 9007199254740991) / 9007199254740992

/-- The scan of the lambda `quant`: starting at bin index `i` with running sum
`acc`, add each bin and return the index of the first bin at which
`acc >= need`; `none` when the loop ends without returning. -/
def quant_scan : List Nat → Nat → Nat → Nat → Option Nat
  | [], _, _, _ => none
  | b :: rest, i, acc, need =>
    if need ≤ (acc + b) % 18446744073709551616 then some i
    else quant_scan rest (i + 1) ((acc + b) % 18446744073709551616) need

/-- The lambda `quant` (or `quantE`) for a histogram with `nbins + 1` bins of
width `bin_us`: the scan result times the bin width, or the fallback
`BINS * BIN_US` after the loop. -/
def quant (nbins bin_us : Nat) (h : Histogram) (M : Nat) : Nat :=
  match quant_scan h.bins 0 0 (quant_need M h.samples) with
  | some i => i * bin_us
  | none => nbins * bin_us

/-- The numbers printed by one branch of `dump_latency_stats`. -/
structure LatencyReport where
  samples : Nat
  mean : Nat
  p50 : Nat
  p95 : Nat
  p99 : Nat
deriving DecidableEq

/-- One branch of `EngineApp::dump_latency_stats`: `none` stands for the
"no samples" line, otherwise `mean = sum / total` in `uint64_t` and the three
quantiles. -/
def dump_stats (nbins bin_us : Nat) (h : Histogram) : Option LatencyReport :=
  if h.samples = 0 then none
  else some { samples := h.samples, mean := h.sum_us / h.samples,
              p50 := quant nbins bin_us h P50, p95 := quant nbins bin_us h P95,
              p99 := quant nbins bin_us h P99 }

/-- The cumulative count of the bins `0 .. i`. -/
def cum (bins : List Nat) (i : Nat) : Nat :=
  (bins.take (i + 1)).sum

/-! ## Wire decoding (`engine.cpp`) -/

/-- The C function `isspace` in the "C" locale: space, `\t`, `\n`, `\v`, `\f`, `\r`. -/
def isspace (c : Char) : Bool :=
  c = ' ' || c = '\t' || c = '\n' || c = '\x0b' || c = '\x0c' || c = '\r'

/-- The C function `isdigit`. -/
def isdigit (c : Char) : Bool :=
  decide (48 ≤ c.toNat ∧ c.toNat ≤ 57)

/-- The value of a decimal digit character. -/
def digit_value (c : Char) : Nat :=
  c.toNat - 48

/-- The value of a run of decimal digits, most significant first. -/
def digits_value (ds : List Char) : Nat :=
  ds.foldl (fun acc c => 10 * acc + digit_value c) 0

/-- The optional sign read by `strtol` and its relatives: whether the number is negated,
and the text after the sign. -/
def read_sign : List Char → Bool × List Char
  | '-' :: r => (true, r)
  | '+' :: r => (false, r)
  | s => (false, s)

/-- The common front end of `strtoull`, `strtoll` and `strtol` in base 10: skip leading
white space, read an optional sign, then the longest run of digits; whatever follows the
digits is ignored. The result is the sign and the magnitude, or `none` when there is no
digit (`std::invalid_argument` in the `std::sto*` wrappers). -/
def strto_prefix (s : List Char) : Option (Bool × Nat) :=
  let signed := read_sign (s.dropWhile isspace)
  let ds := signed.2.takeWhile isdigit
  if ds = [] then none else some (signed.1, digits_value ds)

/-- The function `std::stoull`: `none` stands for a thrown `std::invalid_argument` or
`std::out_of_range`; a negated value wraps around in the unsigned type. -/
def stoull (s : List Char) : Option Nat :=
  match strto_prefix s with
  | none => none
  | some (neg, m) =>
    if 18446744073709551615 < m then none
    else some (if neg then (18446744073709551616 - m) % 18446744073709551616 else m)

/-- The constant `LLONG_MIN`. -/
def LLONG_MIN : Int := -9223372036854775808

/-- The constant `LLONG_MAX`. -/
def LLONG_MAX : Int := 9223372036854775807

/-- The constant `INT_MIN`. -/
def INT_MIN : Int := -2147483648

/-- The constant `INT_MAX`. -/
def INT_MAX : Int := 2147483647

/-- The signed value read by `strtoll`/`strtol` before the range check. -/
def signed_value (neg : Bool) (m : Nat) : Int :=
  if neg then -(m : Int) else (m : Int)

/-- The function `std::stoll`: `none` stands for a thrown exception. -/
def stoll (s : List Char) : Option Int :=
  match strto_prefix s with
  | none => none
  | some (neg, m) =>
    if LLONG_MIN ≤ signed_value neg m ∧ signed_value neg m ≤ LLONG_MAX
    then some (signed_value neg m) else none

/-- The function `std::stoi`: `none` stands for a thrown exception. -/
def stoi (s : List Char) : Option Int :=
  match strto_prefix s with
  | none => none
  | some (neg, m) =>
    if INT_MIN ≤ signed_value neg m ∧ signed_value neg m ≤ INT_MAX
    then some (signed_value neg m) else none

/-- The loop of `split_csv`: `std::getline(ss, item, ',')` repeated on the rest of the
stream; `cur` is the item being read. At the end of the stream `getline` succeeds only
when it has extracted at least one character. -/
def split_csv_go : List Char → List Char → List (List Char)
  | [], cur => if cur = [] then [] else [cur]
  | c :: rest, cur =>
    if c = ',' then cur :: split_csv_go rest [] else split_csv_go rest (cur ++ [c])

/-- The function `split_csv`. -/
def split_csv (s : List Char) : List (List Char) :=
  split_csv_go s []

/-- The method `std::string::find(ch, pos)`: the index of the first `ch` at or after
`pos`, `none` for `npos`. -/
def str_find (s : List Char) (ch : Char) (pos : Nat) : Option Nat :=
  if (s.drop pos).indexOf ch < (s.drop pos).length then some (pos + (s.drop pos).indexOf ch)
  else none

/-- The method `std::string::substr(pos, n)`: `none` stands for the `std::out_of_range`
thrown when `pos` is past the end. -/
def substr (s : List Char) (pos n : Nat) : Option (List Char) :=
  if pos ≤ s.length then some ((s.drop pos).take n) else none

/-- The method `std::string::substr(pos)`. -/
def substr_from (s : List Char) (pos : Nat) : Option (List Char) :=
  if pos ≤ s.length then some (s.drop pos) else none

/-- The optional end-to-end stamp of `handle_line`: for a line `@<digits>,rest` the pair
`(send_wall_ns, start_pos)`; `(0, 0)` when there is no `@`, no comma, or `stoull` throws
(the `catch (...)` resets both). The outer `none` stands for an exception that is not
caught (from `substr`). -/
def parse_stamp (line : List Char) : Option (Nat × Nat) :=
  match line with
  | '@' :: _ =>
    match str_find line ',' 1 with
    | some comma =>
      match substr line 1 (comma - 1) with
      | none => none
      | some digits =>
        match stoull digits with
        | some t => some (t, comma + 1)
        | none => some (0, 0)
    | none => some (0, 0)
  | _ => some (0, 0)

/-- The `try` block of `handle_line`: decode the fields by kind into a value-initialised
`MboEvent`. `none` stands for both `return` statements: the unknown-line branch and the
`catch (...)` of a conversion that throws. -/
def decode (fields : List (List Char)) : Option MboEvent :=
  let kind := fields.getD 0 []
  if kind = ['A', 'D', 'D'] ∧ 6 ≤ fields.length then
    match stoull (fields.getD 1 []) with
    | none => none
    | some ts =>
      match stoull (fields.getD 3 []) with
      | none => none
      | some oid =>
        match stoll (fields.getD 4 []) with
        | none => none
        | some px =>
          match stoi (fields.getD 5 []) with
          | none => none
          | some qty =>
            some { MboEvent.zero with
                   kind := EventKind.Add, ts_ns := ts,
                   side := if fields.getD 2 [] = ['B'] then Side.Bid else Side.Ask,
                   order_id := oid, price := px, qty := qty }
  else if kind = ['M', 'O', 'D'] ∧ 5 ≤ fields.length then
    match stoull (fields.getD 1 []) with
    | none => none
    | some ts =>
      match stoull (fields.getD 2 []) with
      | none => none
      | some oid =>
        match stoll (fields.getD 3 []) with
        | none => none
        | some px =>
          match stoi (fields.getD 4 []) with
          | none => none
          | some qty =>
            some { MboEvent.zero with
                   kind := EventKind.Modify, ts_ns := ts, order_id := oid,
                   new_price := px, new_qty := qty }
  else if kind = ['C', 'X', 'L'] ∧ 3 ≤ fields.length then
    match stoull (fields.getD 1 []) with
    | none => none
    | some ts =>
      match stoull (fields.getD 2 []) with
      | none => none
      | some oid =>
        some { MboEvent.zero with kind := EventKind.Cancel, ts_ns := ts, order_id := oid }
  else if kind = ['T', 'R', 'D'] ∧ 4 ≤ fields.length then
    match stoull (fields.getD 1 []) with
    | none => none
    | some ts =>
      match stoull (fields.getD 2 []) with
      | none => none
      | some oid =>
        match stoi (fields.getD 3 []) with
        | none => none
        | some qty =>
          some { MboEvent.zero with
                 kind := EventKind.Trade, ts_ns := ts, order_id := oid, qty := qty }
  else if kind = ['C', 'L', 'R'] ∧ 2 ≤ fields.length then
    match stoull (fields.getD 1 []) with
    | none => none
    | some ts => some { MboEvent.zero with kind := EventKind.Clear, ts_ns := ts }
  else none

/-- What one call of `handle_line` leaves behind: the book, the event it applied (if
any) and the stamp `send_wall_ns` it retained. -/
structure LineResult where
  book : OrderBook
  applied : Option MboEvent
  send_wall_ns : Nat
deriving DecidableEq

/-- The method `EngineApp::handle_line` up to and including the update of the book:
strip the stamp, split, decode, apply. A result with `applied := none` is one of the
`return` statements that drop the line; the function ends there. A result with
`applied := some ev` is the state after `book_.on_event(ev)`; the statements that follow
in the source (snapshot output, latency bookkeeping, CSV row) read the clock and are not
part of this function: the histograms are modelled by `record_latency_us` and
`record_e2e_latency_us`, the CSV row by `csv_row`. The outer `none` stands for an
exception that escapes before the update. -/
def handle_line (book : OrderBook) (line : List Char) : Option LineResult :=
  if line = [] then some { book := book, applied := none, send_wall_ns := 0 }
  else
    match parse_stamp line with
    | none => none
    | some (send_wall_ns, start_pos) =>
      match substr_from line start_pos with
      | none => none
      | some payload =>
        if split_csv payload = [] then
          some { book := book, applied := none, send_wall_ns := send_wall_ns }
        else
          match decode (split_csv payload) with
          | none => some { book := book, applied := none, send_wall_ns := send_wall_ns }
          | some ev =>
            some { book := on_event book ev, applied := some ev,
                   send_wall_ns := send_wall_ns }

/-! ## The TCP read loop (`EngineApp::run`) -/

/-- The inner `while (true)` of the read loop on the accumulation buffer: hand over the
lines found from `pos` on, then `buf.erase(0, pos)`. The result is the buffer left behind
and the lines passed to `handle_line`, in order; `none` when the fuel runs out. -/
def extract_lines : Nat → List Char → Nat → List (List Char) →
    Option (List Char × List (List Char))
  | 0, _, _, _ => none
  | fuel + 1, buf, pos, out =>
    match str_find buf '\n' pos with
    | none => some (buf.drop pos, out)
    | some nl => extract_lines fuel buf (nl + 1) (out ++ [(buf.drop pos).take (nl - pos)])

/-- One iteration of the read loop that received the bytes `chunk`:
`buf.append(chunk)`, then the line extraction from position 0. -/
def on_chunk (buf chunk : List Char) : Option (List Char × List (List Char)) :=
  extract_lines ((buf ++ chunk).length + 1) (buf ++ chunk) 0 []

/-- The read loop over the successive results of `recv_some`; an empty result is the
peer closing the connection, which ends the loop, as does the end of the list. The result
is the final accumulation buffer and all lines handed to `handle_line`. -/
def read_loop : List Char → List (List Char) → Option (List Char × List (List Char))
  | buf, [] => some (buf, [])
  | buf, chunk :: rest =>
    if chunk = [] then some (buf, [])
    else
      match on_chunk buf chunk with
      | none => none
      | some (buf1, lines1) =>
        match read_loop buf1 rest with
        | none => none
        | some (buf2, lines2) => some (buf2, lines1 ++ lines2)

/-! ## The spread query (`/spread` handler) -/

/-- The three numbers of the `/spread` response. -/
structure SpreadReport where
  bid : Int
  ask : Int
  spread : Int
deriving DecidableEq

/-- The `/spread` handler on the book: the top-1 snapshot, the sentinels `LLONG_MIN` and
`LLONG_MAX` for an empty side, and -1 printed for a sentinel. The subtraction `ask - bid`
is a `long long` subtraction; `none` stands for its overflow, which is undefined. -/
def spread_query (ob : OrderBook) : Option SpreadReport :=
  let snap := snapshot_top_n ob 1
  let bid : Int := match snap.bids with
    | [] => LLONG_MIN
    | lv :: _ => lv.price
  let ask : Int := match snap.asks with
    | [] => LLONG_MAX
    | lv :: _ => lv.price
  let spread : Option Int :=
    if bid = LLONG_MIN ∨ ask = LLONG_MAX then some (-1)
    else if LLONG_MIN ≤ ask - bid ∧ ask - bid ≤ LLONG_MAX then some (ask - bid)
    else none
  match spread with
  | none => none
  | some sp =>
    some { bid := if bid = LLONG_MIN then -1 else bid,
           ask := if ask = LLONG_MAX then -1 else ask,
           spread := sp }

/-! ## The batched send loop (`Streamer::run`) -/

/-- The loop that translates the bytes written into whole lines: the number `adv` of
leading entries of `lens` that `bytes` covers completely. -/
def whole_lines : List Nat → Nat → Nat
  | [], _ => 0
  | len :: rest, bytes =>
    if bytes = 0 then 0
    else if len ≤ bytes then whole_lines rest (bytes - len) + 1
    else 0

/-- The loop `while (sent < allowed)` on the `sendv` path (the `#else` branch, compiled
when `__linux__` is not defined). Each iteration prepares the
vector from `lines[start + sent ..]` (`allowed - sent` entries), offers it to the
transport, which accepts the first `min r offered` bytes for the next transport result
`r`, and advances `sent` by the number of whole lines covered. The result is `sent`, the
unused transport results and the bytes accepted so far; `none` when the transport results
run out before the loop ends. -/
def send_loop (lines : List (List Char)) (start allowed : Nat) :
    List Nat → Nat → List Char → Option (Nat × List Nat × List Char)
  | [], sent, wire => if sent < allowed then none else some (sent, [], wire)
  | r :: results, sent, wire =>
    if sent < allowed then
      if min r (((lines.drop (start + sent)).take (allowed - sent)).flatten).length = 0 then
        send_loop lines start allowed results sent wire
      else
        send_loop lines start allowed results
          (sent + whole_lines (((lines.drop (start + sent)).take (allowed - sent)).map
              List.length)
            (min r (((lines.drop (start + sent)).take (allowed - sent)).flatten).length))
          (wire ++ (((lines.drop (start + sent)).take (allowed - sent)).flatten).take r)
    else some (sent, r :: results, wire)

/-- The loop `while (sent < allowed)` on the `sendmmsg_batch` path (the `__linux__`
branch). A transport result is a pair `(r, rc)`: the transport accepts the first
`min r offered` bytes of the window and reports `rc` messages as sent; the loop adds `rc`
to `sent` and never looks at the byte counts. The result is `sent`, the unused transport
results and the bytes accepted so far; `none` when the transport results run out before
the loop ends. -/
def send_loop_mmsg (lines : List (List Char)) (start allowed : Nat) :
    List (Nat × Nat) → Nat → List Char → Option (Nat × List (Nat × Nat) × List Char)
  | [], sent, wire => if sent < allowed then none else some (sent, [], wire)
  | (r, rc) :: results, sent, wire =>
    if sent < allowed then
      send_loop_mmsg lines start allowed results (sent + rc)
        (wire ++ (((lines.drop (start + sent)).take (allowed - sent)).flatten).take r)
    else some (sent, (r, rc) :: results, wire)

/-- The loop `while (start < lines.size())` over one batch: `grants` are the successive
results of `rl.grant(remaining, kBatchLines)` (a zero grant sleeps and asks again). The
result is the bytes the transport has accepted when the loop finishes; `none` when the
grants or the transport results run out first. -/
def send_batch (lines : List (List Char)) :
    List Nat → List Nat → Nat → List Char → Option (List Char)
  | [], _, start, wire => if start < lines.length then none else some wire
  | g :: grants, results, start, wire =>
    if start < lines.length then
      if g = 0 then send_batch lines grants results start wire
      else
        match send_loop lines start g results 0 wire with
        | none => none
        | some (sent, results1, wire1) =>
          send_batch lines grants results1 (start + sent) wire1
    else some wire

/-! ## Vocabulary of the wire format -/

/-- The decimal digits of a number, most significant first, prepended to `acc`; the
first argument bounds the number of digits. -/
def decimal_go : Nat → Nat → List Char → List Char
  | 0, _, acc => acc
  | fuel + 1, n, acc =>
    if n < 10 then Char.ofNat (48 + n) :: acc
    else decimal_go fuel (n / 10) (Char.ofNat (48 + n % 10) :: acc)

/-- The decimal text of an unsigned number, as `std::to_string` prints it. -/
def decimal (n : Nat) : List Char :=
  decimal_go (n + 1) n []

/-- The decimal text of a signed number. -/
def decimal_int (z : Int) : List Char :=
  if z < 0 then '-' :: decimal z.natAbs else decimal z.natAbs

/-- The letter of a side on the wire. -/
def side_letter (s : Side) : List Char :=
  match s with
  | Side.Bid => ['B']
  | Side.Ask => ['A']

/-- Fields joined by commas. -/
def join_csv : List (List Char) → List Char
  | [] => []
  | [f] => f
  | f :: g :: rest => f ++ ',' :: join_csv (g :: rest)

/-- The fields of an event on the wire, in the documented order for its kind:
`ADD,ts,B|A,order_id,price,qty`; `MOD,ts,order_id,new_price,new_qty`; `CXL,ts,order_id`;
`TRD,ts,order_id,fill_qty`; `CLR,ts`. -/
def wire_fields (e : MboEvent) : List (List Char) :=
  match e.kind with
  | EventKind.Add =>
    [['A', 'D', 'D'], decimal e.ts_ns, side_letter e.side, decimal e.order_id,
     decimal_int e.price, decimal_int e.qty]
  | EventKind.Modify =>
    [['M', 'O', 'D'], decimal e.ts_ns, decimal e.order_id, decimal_int e.new_price,
     decimal_int e.new_qty]
  | EventKind.Cancel => [['C', 'X', 'L'], decimal e.ts_ns, decimal e.order_id]
  | EventKind.Trade =>
    [['T', 'R', 'D'], decimal e.ts_ns, decimal e.order_id, decimal_int e.qty]
  | EventKind.Clear => [['C', 'L', 'R'], decimal e.ts_ns]

/-- The wire line of an event. -/
def wire_line (e : MboEvent) : List Char :=
  join_csv (wire_fields e)

/-- The comma-separated fields of a line, after its optional stamp. -/
def fields_of (line : List Char) : List (List Char) :=
  match parse_stamp line with
  | some (_, start_pos) => split_csv (line.drop start_pos)
  | none => []

/-- The stamped form of a line, as the streamer emits it (without the newline). -/
def stamped (t : Nat) (line : List Char) : List Char :=
  '@' :: (decimal t ++ ',' :: line)

/-- A text is a decimal integer: an optional minus sign followed by one or more digits
and nothing else. -/
def is_decimal_integer (s : List Char) : Bool :=
  match s with
  | '-' :: r => r ≠ [] && r.all isdigit
  | r => r ≠ [] && r.all isdigit

/-- The number of fields a kind requires, `none` for an unknown kind. -/
def required_fields (kind : List Char) : Option Nat :=
  if kind = ['A', 'D', 'D'] then some 6
  else if kind = ['M', 'O', 'D'] then some 5
  else if kind = ['C', 'X', 'L'] then some 3
  else if kind = ['T', 'R', 'D'] then some 4
  else if kind = ['C', 'L', 'R'] then some 2
  else none

/-- Every required numeric field of the line converts: `stoull` for the time stamp and
the order id, `stoll` for a price, `stoi` for a quantity. -/
def numeric_fields_convert (fields : List (List Char)) : Bool :=
  let f := fun i => fields.getD i []
  if fields.getD 0 [] = ['A', 'D', 'D'] then
    (stoull (f 1)).isSome && (stoull (f 3)).isSome && (stoll (f 4)).isSome
      && (stoi (f 5)).isSome
  else if fields.getD 0 [] = ['M', 'O', 'D'] then
    (stoull (f 1)).isSome && (stoull (f 2)).isSome && (stoll (f 3)).isSome
      && (stoi (f 4)).isSome
  else if fields.getD 0 [] = ['C', 'X', 'L'] then
    (stoull (f 1)).isSome && (stoull (f 2)).isSome
  else if fields.getD 0 [] = ['T', 'R', 'D'] then
    (stoull (f 1)).isSome && (stoull (f 2)).isSome && (stoi (f 3)).isSome
  else if fields.getD 0 [] = ['C', 'L', 'R'] then
    (stoull (f 1)).isSome
  else false

/-- The newline-terminated segments of a stream, each without its newline, and the
unterminated tail; `cur` is the segment being read. -/
def segments_go : List Char → List Char → List (List Char) × List Char
  | [], cur => ([], cur)
  | c :: rest, cur =>
    if c = '\n' then (cur :: (segments_go rest []).1, (segments_go rest []).2)
    else segments_go rest (cur ++ [c])

/-- The newline-terminated segments of a stream, in stream order. -/
def stream_lines (s : List Char) : List (List Char) :=
  (segments_go s []).1

/-- The unterminated tail of a stream. -/
def stream_tail (s : List Char) : List Char :=
  (segments_go s []).2

/-! ## Ranges of the machine integers -/

/-- Every field of the event holds a value of its C++ type (`uint64_t`, `int64_t`,
`int32_t`), as every event decoded from a line does. -/
def event_in_range (ev : MboEvent) : Bool :=
  decide (ev.order_id < 18446744073709551616 ∧
    LLONG_MIN ≤ ev.price ∧ ev.price ≤ LLONG_MAX ∧
    INT_MIN ≤ ev.qty ∧ ev.qty ≤ INT_MAX ∧
    LLONG_MIN ≤ ev.new_price ∧ ev.new_price ≤ LLONG_MAX ∧
    INT_MIN ≤ ev.new_qty ∧ ev.new_qty ≤ INT_MAX ∧
    ev.match_id < 18446744073709551616 ∧ ev.ts_ns < 18446744073709551616)

/-- The subtraction `it->second.qty -= fill_qty` that a Trade event performs on a resident
order stays within `int32_t`. Outside this range the subtraction of the source overflows,
which is undefined, and `trade_order`, which subtracts exactly, no longer describes it. -/
def trade_in_range (ob : OrderBook) (ev : MboEvent) : Bool :=
  match ev.kind with
  | EventKind.Trade =>
    match map_find ob.orders_ ev.order_id with
    | some o => decide (INT_MIN ≤ o.qty - ev.qty ∧ o.qty - ev.qty ≤ INT_MAX)
    | none => true
  | _ => true

/-- Along the sequence applied to `ob`, every event holds values of its field types and no
Trade takes a resident quantity out of the range of `int32_t`: the arithmetic of the
source does not overflow. -/
def no_overflow : OrderBook → List MboEvent → Bool
  | _, [] => true
  | ob, ev :: rest =>
    event_in_range ev && trade_in_range ob ev && no_overflow (on_event ob ev) rest

/-- Every quantity held by the index is a value of `int32_t`. -/
def QtyInRange (ob : OrderBook) : Prop :=
  ∀ e ∈ ob.orders_, INT_MIN ≤ e.2.qty ∧ e.2.qty ≤ INT_MAX

instance (ob : OrderBook) : Decidable (QtyInRange ob) := by
  unfold QtyInRange; infer_instance

/-- The running `int64_t sum` of the inner loop of `snapshot_top_n` over the queue `q`,
started at `sum`, stays within `int64_t` at every step: the loop does not overflow, and
`level_sum`, which adds exactly, is the sum that the source computes. -/
def sum_in_range (orders : List (Nat × Order)) : List Nat → Int → Bool
  | [], _ => true
  | id :: rest, sum =>
    match map_find orders id with
    | some o =>
      decide (LLONG_MIN ≤ sum + o.qty ∧ sum + o.qty ≤ LLONG_MAX)
        && sum_in_range orders rest (sum + o.qty)
    | none => sum_in_range orders rest sum

/-! ## The CSV metrics row (`EngineApp::maybe_log_csv`) -/

/-- The integer columns of one row of the metrics file: best bid price and quantity, best
ask price and quantity, spread, and the order counts of the two best levels. -/
structure CsvRow where
  bid_px : Int
  bid_qty : Int
  ask_px : Int
  ask_qty : Int
  spread : Int
  depth_b : Int
  depth_a : Int
deriving DecidableEq

/-- The row that `maybe_log_csv` computes from the top-1 snapshot when it logs: an empty
side leaves `bid_px` at `numeric_limits<long long>::min()` or `ask_px` at `max()`, and
these values are written as they are; the spread is -1 when either price equals its
sentinel. The subtraction `ask_px - bid_px` is a `long long` subtraction; `none` stands
for its overflow, which is undefined. The column `mid` is a `double` and is left out. -/
def csv_row (ob : OrderBook) : Option CsvRow :=
  let s := snapshot_top_n ob 1
  let bid_px : Int := match s.bids with
    | [] => LLONG_MIN
    | lv :: _ => lv.price
  let bid_qty : Int := match s.bids with
    | [] => 0
    | lv :: _ => lv.total_qty
  let depth_b : Int := match s.bids with
    | [] => 0
    | lv :: _ => (lv.orders : Int)
  let ask_px : Int := match s.asks with
    | [] => LLONG_MAX
    | lv :: _ => lv.price
  let ask_qty : Int := match s.asks with
    | [] => 0
    | lv :: _ => lv.total_qty
  let depth_a : Int := match s.asks with
    | [] => 0
    | lv :: _ => (lv.orders : Int)
  let spread : Option Int :=
    if ask_px = LLONG_MAX ∨ bid_px = LLONG_MIN then some (-1)
    else if LLONG_MIN ≤ ask_px - bid_px ∧ ask_px - bid_px ≤ LLONG_MAX then
      some (ask_px - bid_px)
    else none
  match spread with
  | none => none
  | some sp =>
    some { bid_px := bid_px, bid_qty := bid_qty, ask_px := ask_px, ask_qty := ask_qty,
           spread := sp, depth_b := depth_b, depth_a := depth_a }

/-! ## The rate limiter (`RateLimiter::grant`)

A non-negative finite binary64 value is a whole number of units of 2^-1074; it is
represented by that number. A natural number `x` of units is such a value exactly when it
has at most 53 significant bits, that is when `round53 x = x`, and `round53` is the
binary64 rounding of an exact result given in units. -/

/-- The number of units of 2^-1074 in 1. -/
def DBL_UNIT : Nat := 2 ^ 1074

/-- The conversion of a `size_t` to `double`, in units. -/
def to_double (n : Nat) : Nat :=
  round53 n * DBL_UNIT

/-- The conversion `static_cast<size_t>(x)` of a non-negative `double` given in units:
truncation; `none` when the integer part is not a value of `size_t` (undefined). -/
def to_size_t (x : Nat) : Option Nat :=
  if x / DBL_UNIT < 18446744073709551616 then some (x / DBL_UNIT) else none

/-- The binary64 sum of two non-negative values. -/
def double_add (a b : Nat) : Nat :=
  round53 (a + b)

/-- The binary64 difference `a - b` of two non-negative values with `b ≤ a`. -/
def double_sub (a b : Nat) : Nat :=
  round53 (a - b)

/-- The function `std::min<double>(a, b)`, which returns `(b < a) ? b : a`. -/
def double_min (a b : Nat) : Nat :=
  if b < a then b else a

/-- The method `RateLimiter::grant(want, max_burst)` on the balance `tokens`, where
`refill` is the binary64 value of the product `dt * rate` (the elapsed time is read from
the clock). The result is the number granted and the new balance; `none` stands for the
undefined conversion of a balance that is not a value of `size_t`. -/
def grant (tokens refill want max_burst : Nat) : Option (Nat × Nat) :=
  let tokens1 := double_min (to_double max_burst) (double_add tokens refill)
  match to_size_t tokens1 with
  | none => none
  | some can =>
    if can = 0 then some (0, tokens1)
    else
      some (min want (min can max_burst),
            double_sub tokens1 (to_double (min want (min can max_burst))))

/-! ## Lemmas on ordered maps -/

section MapLemmas

variable {K V : Type} [DecidableEq K]

theorem strictCmp_px_greater : StrictCmp px_greater :=
  ⟨fun a => by simp [px_greater],
   fun a b c h1 h2 => by simp [px_greater] at *; omega,
   fun a b h1 h2 => by simp [px_greater] at *; omega⟩

theorem strictCmp_px_less : StrictCmp px_less :=
  ⟨fun a => by simp [px_less],
   fun a b c h1 h2 => by simp [px_less] at *; omega,
   fun a b h1 h2 => by simp [px_less] at *; omega⟩

theorem strictCmp_id_less : StrictCmp id_less :=
  ⟨fun a => by simp [id_less],
   fun a b c h1 h2 => by simp [id_less] at *; omega,
   fun a b h1 h2 => by simp [id_less] at *; omega⟩

theorem map_find_put_self (lt : K → K → Bool) (m : List (K × V)) (k : K) (v : V) :
    map_find (map_put lt m k v) k = some v := by
  induction m with
  | nil => simp [map_put, map_find]
  | cons e rest ih =>
    obtain ⟨k', v'⟩ := e
    by_cases h : k' = k
    · simp [map_put, map_find, h]
    · by_cases h2 : lt k k' = true
      · simp [map_put, map_find, h, h2]
      · simp [map_put, map_find, h, h2, ih]

theorem map_find_put_ne (lt : K → K → Bool) (m : List (K × V)) (k k2 : K) (v : V)
    (hne : k2 ≠ k) : map_find (map_put lt m k v) k2 = map_find m k2 := by
  have hne' : ¬ k = k2 := fun h => hne h.symm
  induction m with
  | nil => simp [map_put, map_find, hne']
  | cons e rest ih =>
    obtain ⟨k', v'⟩ := e
    by_cases h : k' = k
    · subst h; simp [map_put, map_find, hne']
    · by_cases h2 : lt k k' = true
      · simp [map_put, map_find, h, h2, hne']
      · simp [map_put, map_find, h, h2, ih]

theorem map_find_erase_ne (m : List (K × V)) (k k2 : K) (hne : k2 ≠ k) :
    map_find (map_erase m k) k2 = map_find m k2 := by
  have hne' : ¬ k = k2 := fun h => hne h.symm
  induction m with
  | nil => simp [map_erase, map_find]
  | cons e rest ih =>
    obtain ⟨k', v'⟩ := e
    by_cases h : k' = k
    · subst h; simp [map_erase, map_find, hne']
    · simp [map_erase, map_find, h, ih]

theorem map_find_adjust_self (f : V → V) (m : List (K × V)) (k : K) :
    map_find (map_adjust f m k) k = (map_find m k).map f := by
  induction m with
  | nil => simp [map_adjust, map_find]
  | cons e rest ih =>
    obtain ⟨k', v'⟩ := e
    by_cases h : k' = k
    · simp [map_adjust, map_find, h]
    · simp [map_adjust, map_find, h, ih]

theorem map_find_adjust_ne (f : V → V) (m : List (K × V)) (k k2 : K) (hne : k2 ≠ k) :
    map_find (map_adjust f m k) k2 = map_find m k2 := by
  have hne' : ¬ k = k2 := fun h => hne h.symm
  induction m with
  | nil => simp [map_adjust, map_find]
  | cons e rest ih =>
    obtain ⟨k', v'⟩ := e
    by_cases h : k' = k
    · subst h; simp [map_adjust, map_find, hne']
    · simp [map_adjust, map_find, h, ih]

theorem mem_of_map_find (m : List (K × V)) (k : K) (v : V) (h : map_find m k = some v) :
    (k, v) ∈ m := by
  induction m with
  | nil => simp [map_find] at h
  | cons e rest ih =>
    obtain ⟨k', v'⟩ := e
    by_cases hk : k' = k
    · simp [map_find, hk] at h; simp [hk, h]
    · simp [map_find, hk] at h; simp [ih h]

theorem map_find_isSome_iff (m : List (K × V)) (k : K) :
    (map_find m k).isSome = true ↔ k ∈ m.map Prod.fst := by
  induction m with
  | nil => simp [map_find]
  | cons e rest ih =>
    obtain ⟨k', v'⟩ := e
    by_cases hk : k' = k
    · simp [map_find, hk]
    · have hk' : ¬ k = k' := fun h => hk h.symm
      simp [map_find, hk, hk', ih]

theorem mem_map_put (lt : K → K → Bool) (m : List (K × V)) (k : K) (v : V) (e : K × V)
    (h : e ∈ map_put lt m k v) : e = (k, v) ∨ e ∈ m := by
  induction m with
  | nil => simpa [map_put] using h
  | cons e0 rest ih =>
    obtain ⟨k', v'⟩ := e0
    by_cases hk : k' = k
    · simp [map_put, hk] at h; rcases h with h | h
      · exact Or.inl h
      · exact Or.inr (List.mem_cons_of_mem _ h)
    · by_cases h2 : lt k k' = true
      · simp [map_put, hk, h2] at h; rcases h with h | h | h
        · exact Or.inl h
        · exact Or.inr (by simp [h])
        · exact Or.inr (List.mem_cons_of_mem _ h)
      · simp [map_put, hk, h2] at h; rcases h with h | h
        · exact Or.inr (by simp [h])
        · rcases ih h with h | h
          · exact Or.inl h
          · exact Or.inr (List.mem_cons_of_mem _ h)

theorem mem_map_erase (m : List (K × V)) (k : K) (e : K × V) (h : e ∈ map_erase m k) :
    e ∈ m := by
  induction m with
  | nil => simp [map_erase] at h
  | cons e0 rest ih =>
    obtain ⟨k', v'⟩ := e0
    by_cases hk : k' = k
    · simp [map_erase, hk] at h; exact List.mem_cons_of_mem _ h
    · simp [map_erase, hk] at h; rcases h with h | h
      · simp [h]
      · exact List.mem_cons_of_mem _ (ih h)

theorem mem_map_erase_put (lt : K → K → Bool) (m : List (K × V)) (k : K) (v : V) (e : K × V)
    (h : e ∈ map_erase (map_put lt m k v) k) : e ∈ m := by
  induction m with
  | nil => simp [map_put, map_erase] at h
  | cons e0 rest ih =>
    obtain ⟨k', v'⟩ := e0
    by_cases hk : k' = k
    · simp [map_put, map_erase, hk] at h; exact List.mem_cons_of_mem _ h
    · by_cases h2 : lt k k' = true
      · simpa [map_put, map_erase, hk, h2] using h
      · simp [map_put, map_erase, hk, h2] at h; rcases h with h | h
        · simp [h]
        · exact List.mem_cons_of_mem _ (ih h)

theorem map_erase_adjust (f : V → V) (m : List (K × V)) (k : K) :
    map_erase (map_adjust f m k) k = map_erase m k := by
  induction m with
  | nil => simp [map_adjust, map_erase]
  | cons e rest ih =>
    obtain ⟨k', v'⟩ := e
    by_cases h : k' = k
    · simp [map_adjust, map_erase, h]
    · simp [map_adjust, map_erase, h, ih]

theorem map_adjust_adjust (f g : V → V) (m : List (K × V)) (k : K) :
    map_adjust g (map_adjust f m k) k = map_adjust (fun v => g (f v)) m k := by
  induction m with
  | nil => simp [map_adjust]
  | cons e rest ih =>
    obtain ⟨k', v'⟩ := e
    by_cases h : k' = k
    · simp [map_adjust, h]
    · simp [map_adjust, h, ih]

theorem mapOrdered_put {lt : K → K → Bool} (hc : StrictCmp lt) (m : List (K × V)) (k : K) (v : V)
    (hm : MapOrdered lt m) : MapOrdered lt (map_put lt m k v) := by
  induction m with
  | nil => simp [map_put, MapOrdered]
  | cons e rest ih =>
    obtain ⟨k', v'⟩ := e
    have hm' := hm
    simp only [MapOrdered, List.pairwise_cons] at hm'
    obtain ⟨hhead, htail⟩ := hm'
    by_cases hk : k' = k
    · subst hk
      simp only [map_put, if_true, MapOrdered, List.pairwise_cons]
      exact ⟨hhead, htail⟩
    · by_cases h2 : lt k k' = true
      · simp only [map_put, hk, h2, if_true, if_false, MapOrdered, List.pairwise_cons]
        refine ⟨?_, hhead, htail⟩
        intro x hx
        rcases List.mem_cons.mp hx with hx | hx
        · subst hx; exact h2
        · exact hc.trans _ _ _ h2 (hhead x hx)
      · simp only [map_put, hk, h2, Bool.false_eq_true, if_false, MapOrdered, List.pairwise_cons]
        refine ⟨?_, ih htail⟩
        intro x hx
        rcases mem_map_put lt rest k v x hx with hx | hx
        · subst hx
          exact hc.total k k' (fun h => hk h.symm) (by simpa using h2)
        · exact hhead x hx

theorem mapOrdered_erase {lt : K → K → Bool} (m : List (K × V)) (k : K)
    (hm : MapOrdered lt m) : MapOrdered lt (map_erase m k) := by
  induction m with
  | nil => simp [map_erase, MapOrdered]
  | cons e rest ih =>
    obtain ⟨k', v'⟩ := e
    have hm' := hm
    simp only [MapOrdered, List.pairwise_cons] at hm'
    obtain ⟨hhead, htail⟩ := hm'
    by_cases hk : k' = k
    · simp only [map_erase, hk, if_true]; exact htail
    · simp only [map_erase, hk, if_false, MapOrdered, List.pairwise_cons]
      exact ⟨fun x hx => hhead x (mem_map_erase rest k x hx), ih htail⟩

theorem map_adjust_keys (f : V → V) (m : List (K × V)) (k : K) :
    (map_adjust f m k).map Prod.fst = m.map Prod.fst := by
  induction m with
  | nil => simp [map_adjust]
  | cons e rest ih =>
    obtain ⟨k', v'⟩ := e
    by_cases hk : k' = k
    · simp [map_adjust, hk]
    · simp [map_adjust, hk, ih]

omit [DecidableEq K] in
theorem mapOrdered_iff_keys (lt : K → K → Bool) (m : List (K × V)) :
    MapOrdered lt m ↔ (m.map Prod.fst).Pairwise (fun a b => lt a b = true) := by
  simp [MapOrdered, List.pairwise_map]

theorem mapOrdered_adjust {lt : K → K → Bool} (f : V → V) (m : List (K × V)) (k : K)
    (hm : MapOrdered lt m) : MapOrdered lt (map_adjust f m k) := by
  rw [mapOrdered_iff_keys] at *
  rw [map_adjust_keys]; exact hm

theorem map_find_of_mem {lt : K → K → Bool} (hc : StrictCmp lt) (m : List (K × V))
    (hm : MapOrdered lt m) (e : K × V) (he : e ∈ m) : map_find m e.1 = some e.2 := by
  induction m with
  | nil => simp at he
  | cons e0 rest ih =>
    obtain ⟨k', v'⟩ := e0
    simp only [MapOrdered, List.pairwise_cons] at hm
    obtain ⟨hhead, htail⟩ := hm
    rcases List.mem_cons.mp he with h | h
    · subst h; simp [map_find]
    · have hlt := hhead e h
      have hne : ¬ k' = e.1 := by
        intro hk; rw [hk, hc.irrefl] at hlt; exact Bool.noConfusion hlt
      simp only [map_find, hne, if_false]
      exact ih htail h

theorem map_find_erase_self {lt : K → K → Bool} (hc : StrictCmp lt) (m : List (K × V)) (k : K)
    (hm : MapOrdered lt m) : map_find (map_erase m k) k = none := by
  induction m with
  | nil => simp [map_erase, map_find]
  | cons e0 rest ih =>
    obtain ⟨k', v'⟩ := e0
    simp only [MapOrdered, List.pairwise_cons] at hm
    obtain ⟨hhead, htail⟩ := hm
    by_cases hk : k' = k
    · subst hk
      simp only [map_erase, if_true]
      cases hf : map_find rest k' with
      | none => rfl
      | some v =>
        have hlt := hhead _ (mem_of_map_find rest k' v hf)
        simp [hc.irrefl] at hlt
    · simp [map_erase, map_find, hk, ih htail]

theorem mem_map_put_ordered {lt : K → K → Bool} (hc : StrictCmp lt) (m : List (K × V)) (k : K)
    (v : V) (hm : MapOrdered lt m) (e : K × V) (h : e ∈ map_put lt m k v) :
    e = (k, v) ∨ (e ∈ m ∧ e.1 ≠ k) := by
  by_cases hk : e.1 = k
  · left
    have h1 := map_find_of_mem hc _ (mapOrdered_put hc m k v hm) e h
    rw [hk, map_find_put_self] at h1
    have h2 : v = e.2 := Option.some.inj h1
    exact Prod.ext hk h2.symm
  · right
    rcases mem_map_put lt m k v e h with h1 | h1
    · exact absurd (by rw [h1]) hk
    · exact ⟨h1, hk⟩

theorem mem_map_erase_ordered {lt : K → K → Bool} (hc : StrictCmp lt) (m : List (K × V)) (k : K)
    (hm : MapOrdered lt m) (e : K × V) (h : e ∈ map_erase m k) : e ∈ m ∧ e.1 ≠ k := by
  refine ⟨mem_map_erase m k e h, ?_⟩
  intro hk
  have h1 := map_find_of_mem hc _ (mapOrdered_erase m k hm) e h
  rw [hk, map_find_erase_self hc m k hm] at h1
  exact Option.noConfusion h1

theorem map_put_erase_eq_adjust {lt : K → K → Bool} (hc : StrictCmp lt) (m : List (K × V))
    (k : K) (v w : V) (hm : MapOrdered lt m) (hf : map_find m k = some v) :
    map_put lt (map_erase m k) k w = map_adjust (fun _ => w) m k := by
  induction m with
  | nil => simp [map_find] at hf
  | cons e0 rest ih =>
    obtain ⟨k', v'⟩ := e0
    simp only [MapOrdered, List.pairwise_cons] at hm
    obtain ⟨hhead, htail⟩ := hm
    by_cases hk : k' = k
    · subst hk
      simp only [map_erase, map_adjust, if_true]
      cases rest with
      | nil => simp [map_put]
      | cons e1 rest1 =>
        obtain ⟨k1, v1⟩ := e1
        have hlt : lt k' k1 = true := hhead (k1, v1) (List.mem_cons_self _ _)
        have hne : ¬ k1 = k' := by
          intro h; rw [h, hc.irrefl] at hlt; exact Bool.noConfusion hlt
        simp [map_put, hne, hlt]
    · simp only [map_find, hk, if_false] at hf
      have hlt : lt k' k = true := hhead (k, v) (mem_of_map_find rest k v hf)
      have hnlt : ¬ lt k k' = true := by
        intro h
        have := hc.trans _ _ _ h hlt
        rw [hc.irrefl] at this; exact Bool.noConfusion this
      have hnlt' : lt k k' = false := by simpa using hnlt
      simp only [map_erase, map_adjust, map_put, hk, hnlt', Bool.false_eq_true, if_false]
      rw [ih htail hf]

end MapLemmas

/-! ## Lemmas on level maps -/

theorem strictCmp_cmp_of (s : Side) : StrictCmp (cmp_of s) := by
  cases s
  · exact strictCmp_px_greater
  · exact strictCmp_px_less

theorem level_at_put_self (lt : Int → Int → Bool) (m : List (Int × List Nat)) (px : Int)
    (q : List Nat) : level_at (map_put lt m px q) px = q := by
  simp [level_at, map_find_put_self]

theorem level_at_put_ne (lt : Int → Int → Bool) (m : List (Int × List Nat)) (px px2 : Int)
    (q : List Nat) (h : px2 ≠ px) : level_at (map_put lt m px q) px2 = level_at m px2 := by
  simp [level_at, map_find_put_ne lt m px px2 q h]

theorem mem_level_at (m : List (Int × List Nat)) (px : Int) (id : Nat)
    (h : id ∈ level_at m px) : (px, level_at m px) ∈ m := by
  unfold level_at at *
  cases hf : map_find m px with
  | none => simp [hf] at h
  | some q => simpa using mem_of_map_find m px q hf

theorem level_at_of_mem {lt : Int → Int → Bool} (hc : StrictCmp lt) (m : List (Int × List Nat))
    (hm : MapOrdered lt m) (e : Int × List Nat) (he : e ∈ m) : level_at m e.1 = e.2 := by
  simp [level_at, map_find_of_mem hc m hm e he]

theorem level_at_push_self (lt : Int → Int → Bool) (m : List (Int × List Nat)) (px : Int)
    (id : Nat) : level_at (level_push lt m px id) px = level_at m px ++ [id] := by
  simp [level_push, level_at_put_self]

theorem level_at_push_ne (lt : Int → Int → Bool) (m : List (Int × List Nat)) (px px2 : Int)
    (id : Nat) (h : px2 ≠ px) : level_at (level_push lt m px id) px2 = level_at m px2 := by
  simp [level_push, level_at_put_ne lt m px px2 _ h]

theorem mapOrdered_level_push {lt : Int → Int → Bool} (hc : StrictCmp lt)
    (m : List (Int × List Nat)) (px : Int) (id : Nat) (hm : MapOrdered lt m) :
    MapOrdered lt (level_push lt m px id) :=
  mapOrdered_put hc m px _ hm

theorem mem_level_push {lt : Int → Int → Bool} (hc : StrictCmp lt) (m : List (Int × List Nat))
    (px : Int) (id : Nat) (hm : MapOrdered lt m) (e : Int × List Nat)
    (h : e ∈ level_push lt m px id) :
    e = (px, level_at m px ++ [id]) ∨ (e ∈ m ∧ e.1 ≠ px) :=
  mem_map_put_ordered hc m px _ hm e h

theorem mapOrdered_level_remove {lt : Int → Int → Bool} (hc : StrictCmp lt)
    (m : List (Int × List Nat)) (px : Int) (id : Nat) (hm : MapOrdered lt m) :
    MapOrdered lt (level_remove lt m px id) := by
  unfold level_remove
  simp only
  split
  · exact mapOrdered_erase _ _ (mapOrdered_put hc m px _ hm)
  · exact mapOrdered_put hc m px _ hm

theorem level_at_remove_self {lt : Int → Int → Bool} (hc : StrictCmp lt)
    (m : List (Int × List Nat)) (px : Int) (id : Nat) (hm : MapOrdered lt m) :
    level_at (level_remove lt m px id) px = (level_at m px).erase id := by
  unfold level_remove
  simp only [level_at_put_self, erase_from_queue]
  split
  · rename_i h
    rw [List.isEmpty_iff] at h
    rw [h]
    simp [level_at, map_find_erase_self hc _ px (mapOrdered_put hc m px _ hm)]
  · exact level_at_put_self _ _ _ _

theorem level_at_remove_ne (lt : Int → Int → Bool) (m : List (Int × List Nat)) (px px2 : Int)
    (id : Nat) (h : px2 ≠ px) : level_at (level_remove lt m px id) px2 = level_at m px2 := by
  unfold level_remove
  simp only
  split
  · simp [level_at, map_find_erase_ne _ px px2 h, map_find_put_ne lt m px px2 _ h]
  · exact level_at_put_ne lt m px px2 _ h

theorem mem_level_remove {lt : Int → Int → Bool} (hc : StrictCmp lt) (m : List (Int × List Nat))
    (px : Int) (id : Nat) (hm : MapOrdered lt m) (e : Int × List Nat)
    (h : e ∈ level_remove lt m px id) :
    e = (px, (level_at m px).erase id) ∨ (e ∈ m ∧ e.1 ≠ px) := by
  unfold level_remove at h
  simp only at h
  split at h
  · have h1 := mem_map_erase_ordered hc _ px (mapOrdered_put hc m px _ hm) e h
    rcases mem_map_put_ordered hc m px _ hm e h1.1 with h2 | h2
    · exact absurd (by rw [h2]) h1.2
    · exact Or.inr h2
  · exact mem_map_put_ordered hc m px _ hm e h

theorem level_push_nonempty (lt : Int → Int → Bool) (m : List (Int × List Nat)) (px : Int)
    (id : Nat) (hm : ∀ e ∈ m, e.2 ≠ []) : ∀ e ∈ level_push lt m px id, e.2 ≠ [] := by
  intro e he
  rcases mem_map_put lt m px _ e he with h | h
  · rw [h]; simp
  · exact hm e h

theorem level_remove_nonempty (lt : Int → Int → Bool) (m : List (Int × List Nat)) (px : Int)
    (id : Nat) (hm : ∀ e ∈ m, e.2 ≠ []) : ∀ e ∈ level_remove lt m px id, e.2 ≠ [] := by
  intro e he
  unfold level_remove at he
  simp only at he
  split at he
  · exact hm e (mem_map_erase_put lt m px _ e he)
  · rename_i hne
    rcases mem_map_put lt m px _ e he with h | h
    · rw [h]
      simp only [level_at_put_self] at hne
      intro h0
      exact hne (by simpa using congrArg List.isEmpty h0)
    · exact hm e h

/-! ## Preservation of coherence -/

theorem coherent_add (L : Side → List (Int × List Nat)) (O : List (Nat × Order))
    (h : Coherent L O) (id : Nat) (s : Side) (px qty : Int) (hnew : map_find O id = none) :
    Coherent (Function.update L s (level_push (cmp_of s) (L s) px id))
      (map_put id_less O id ⟨px, qty, s⟩) := by
  obtain ⟨hL, hO, hb, hq⟩ := h
  have hnotin : ∀ s2, ∀ e ∈ L s2, id ∉ e.2 := by
    intro s2 e he hid
    obtain ⟨o, ho, _⟩ := hq s2 e he id hid
    rw [hnew] at ho; cases ho
  refine ⟨?_, mapOrdered_put strictCmp_id_less O id _ hO, ?_, ?_⟩
  · intro s2
    by_cases hs : s2 = s
    · subst hs
      rw [Function.update_same]
      exact mapOrdered_level_push (strictCmp_cmp_of _) _ _ _ (hL _)
    · rw [Function.update_noteq hs]; exact hL s2
  · intro id2 o2 hf
    by_cases hid : id2 = id
    · subst hid
      rw [map_find_put_self] at hf
      cases hf
      simp only [Function.update_same, level_at_push_self, List.count_append]
      have hno : id2 ∉ level_at (L s) px :=
        fun hmem => hnotin s _ (mem_level_at _ _ _ hmem) hmem
      simp [List.count_eq_zero_of_not_mem hno]
    · rw [map_find_put_ne _ _ _ _ _ hid] at hf
      have h1 := hb id2 o2 hf
      by_cases hs : o2.side = s
      · rw [hs] at h1 ⊢
        rw [Function.update_same]
        by_cases hp : o2.price = px
        · rw [hp] at h1 ⊢
          rw [level_at_push_self, List.count_append, h1]
          simp [hid]
        · rw [level_at_push_ne _ _ _ _ _ hp]; exact h1
      · rw [Function.update_noteq hs]; exact h1
  · intro s2 e he id2 hid2
    have key : ∀ e ∈ L s2, id2 ∈ e.2 →
        ∃ o, map_find (map_put id_less O id ⟨px, qty, s⟩) id2 = some o ∧ o.side = s2
          ∧ o.price = e.1 := by
      intro e he hmem
      obtain ⟨o, ho, h2⟩ := hq s2 e he id2 hmem
      have hne : id2 ≠ id := by
        rintro rfl; rw [hnew] at ho; cases ho
      exact ⟨o, by rw [map_find_put_ne _ _ _ _ _ hne]; exact ho, h2⟩
    by_cases hs : s2 = s
    · subst hs
      rw [Function.update_same] at he
      rcases mem_level_push (strictCmp_cmp_of _) _ _ _ (hL _) e he with h1 | h1
      · subst h1
        simp only [List.mem_append, List.mem_singleton] at hid2
        rcases hid2 with h2 | h2
        · obtain ⟨o, ho, h3, h4⟩ := key _ (mem_level_at _ _ _ h2) h2
          exact ⟨o, ho, h3, h4⟩
        · subst h2
          exact ⟨_, map_find_put_self _ _ _ _, rfl, rfl⟩
      · exact key e h1.1 hid2
    · rw [Function.update_noteq hs] at he
      exact key e he hid2

theorem coherent_cancel (L : Side → List (Int × List Nat)) (O : List (Nat × Order))
    (h : Coherent L O) (id : Nat) (o : Order) (hres : map_find O id = some o) :
    Coherent (Function.update L o.side (level_remove (cmp_of o.side) (L o.side) o.price id))
      (map_erase O id) := by
  obtain ⟨hL, hO, hb, hq⟩ := h
  have hcount := hb id o hres
  refine ⟨?_, mapOrdered_erase O id hO, ?_, ?_⟩
  · intro s2
    by_cases hs : s2 = o.side
    · subst hs
      rw [Function.update_same]
      exact mapOrdered_level_remove (strictCmp_cmp_of _) _ _ _ (hL _)
    · rw [Function.update_noteq hs]; exact hL s2
  · intro id2 o2 hf
    have hid : id2 ≠ id := by
      rintro rfl
      rw [map_find_erase_self strictCmp_id_less O id2 hO] at hf; cases hf
    rw [map_find_erase_ne _ _ _ hid] at hf
    have h1 := hb id2 o2 hf
    by_cases hs : o2.side = o.side
    · rw [hs] at h1 ⊢
      rw [Function.update_same]
      by_cases hp : o2.price = o.price
      · rw [hp] at h1 ⊢
        rw [level_at_remove_self (strictCmp_cmp_of _) _ _ _ (hL _),
          List.count_erase_of_ne hid]
        exact h1
      · rw [level_at_remove_ne _ _ _ _ _ hp]; exact h1
    · rw [Function.update_noteq hs]; exact h1
  · intro s2 e he id2 hid2
    have key : ∀ e ∈ L s2, id2 ∈ e.2 → (s2 = o.side → e.1 = o.price → id2 ≠ id) →
        ∃ r, map_find (map_erase O id) id2 = some r ∧ r.side = s2 ∧ r.price = e.1 := by
      intro e he hmem hx
      obtain ⟨r, hr, h2, h3⟩ := hq s2 e he id2 hmem
      have hne : id2 ≠ id := by
        intro heq
        rw [heq, hres] at hr
        cases hr
        exact hx h2.symm h3.symm heq
      exact ⟨r, by rw [map_find_erase_ne _ _ _ hne]; exact hr, h2, h3⟩
    by_cases hs : s2 = o.side
    · subst hs
      rw [Function.update_same] at he
      rcases mem_level_remove (strictCmp_cmp_of _) _ _ _ (hL _) e he with h1 | h1
      · subst h1
        have hmem : id2 ∈ level_at (L o.side) o.price := List.mem_of_mem_erase hid2
        have hne : id2 ≠ id := by
          rintro rfl
          have hz : List.count id2 ((level_at (L o.side) o.price).erase id2) = 0 := by
            rw [List.count_erase_self, hcount]
          exact (List.count_eq_zero.mp hz) hid2
        obtain ⟨r, hr, h2, h3⟩ := key _ (mem_level_at _ _ _ hmem) hmem (fun _ _ => hne)
        exact ⟨r, hr, h2, h3⟩
      · exact key e h1.1 hid2 (fun _ hp => absurd hp h1.2)
    · rw [Function.update_noteq hs] at he
      exact key e he hid2 (fun h0 => absurd h0 hs)

theorem coherent_adjust (L : Side → List (Int × List Nat)) (O : List (Nat × Order))
    (h : Coherent L O) (id : Nat) (f : Order → Order)
    (hf : ∀ r, (f r).side = r.side ∧ (f r).price = r.price) :
    Coherent L (map_adjust f O id) := by
  obtain ⟨hL, hO, hb, hq⟩ := h
  refine ⟨hL, mapOrdered_adjust f O id hO, ?_, ?_⟩
  · intro id2 o2 h2
    by_cases hid : id2 = id
    · subst hid
      rw [map_find_adjust_self] at h2
      cases hr : map_find O id2 with
      | none => rw [hr] at h2; cases h2
      | some r =>
        rw [hr] at h2
        cases h2
        rw [(hf r).1, (hf r).2]
        exact hb id2 r hr
    · rw [map_find_adjust_ne _ _ _ _ hid] at h2
      exact hb id2 o2 h2
  · intro s2 e he id2 hid2
    obtain ⟨r, hr, h2, h3⟩ := hq s2 e he id2 hid2
    by_cases hid : id2 = id
    · subst hid
      refine ⟨f r, ?_, ?_, ?_⟩
      · rw [map_find_adjust_self, hr]; rfl
      · rw [(hf r).1]; exact h2
      · rw [(hf r).2]; exact h3
    · exact ⟨r, by rw [map_find_adjust_ne _ _ _ _ hid]; exact hr, h2, h3⟩

theorem map_adjust_congr {K V : Type} [DecidableEq K] (f g : V → V) (m : List (K × V)) (k : K)
    (v : V) (hf : map_find m k = some v) (hfg : f v = g v) :
    map_adjust f m k = map_adjust g m k := by
  induction m with
  | nil => simp [map_find] at hf
  | cons e rest ih =>
    obtain ⟨k', v'⟩ := e
    by_cases hk : k' = k
    · simp [map_find, hk] at hf
      simp [map_adjust, hk, hf, hfg]
    · simp only [map_find, hk, if_false] at hf
      simp [map_adjust, hk, ih hf]

theorem coherent_move (L : Side → List (Int × List Nat)) (O : List (Nat × Order))
    (h : Coherent L O) (id : Nat) (o : Order) (hres : map_find O id = some o) (new_px : Int) :
    Coherent
      (Function.update L o.side
        (level_push (cmp_of o.side) (level_remove (cmp_of o.side) (L o.side) o.price id) new_px id))
      (map_adjust (fun r => { r with price := new_px }) O id) := by
  have h1 := coherent_cancel L O h id o hres
  have h2 := coherent_add _ _ h1 id o.side new_px o.qty
    (map_find_erase_self strictCmp_id_less O id h.2.1)
  rw [Function.update_same, Function.update_idem,
    map_put_erase_eq_adjust strictCmp_id_less O id o _ h.2.1 hres] at h2
  rw [map_adjust_congr (fun r => { r with price := new_px })
    (fun _ => (⟨new_px, o.qty, o.side⟩ : Order)) O id o hres rfl]
  exact h2

/-! ## Coherence of the book operations -/

theorem levels_of_set_bids (ob : OrderBook) (B : List (Int × List Nat)) (O : List (Nat × Order)) :
    levels_of { ob with bids_ := B, orders_ := O } = Function.update (levels_of ob) Side.Bid B := by
  funext s; cases s <;> simp [levels_of, Function.update]

theorem levels_of_set_asks (ob : OrderBook) (A : List (Int × List Nat)) (O : List (Nat × Order)) :
    levels_of { ob with asks_ := A, orders_ := O } = Function.update (levels_of ob) Side.Ask A := by
  funext s; cases s <;> simp [levels_of, Function.update]

theorem bookCoherent_empty : BookCoherent OrderBook.empty := by
  refine ⟨?_, ?_, ?_, ?_⟩
  · intro s; cases s <;> simp [levels_of, OrderBook.empty, MapOrdered]
  · simp [OrderBook.empty, MapOrdered]
  · intro id o h; simp [OrderBook.empty, map_find] at h
  · intro s e he; cases s <;> simp [levels_of, OrderBook.empty] at he

theorem bookCoherent_add (ob : OrderBook) (h : BookCoherent ob) (id : Nat) (s : Side)
    (px qty : Int) (hnew : map_find ob.orders_ id = none) :
    BookCoherent (add_order ob id s px qty) := by
  have h1 := coherent_add _ _ h id s px qty hnew
  cases s
  · simp only [BookCoherent, add_order, levels_of_set_bids]
    exact h1
  · simp only [BookCoherent, add_order, levels_of_set_asks]
    exact h1

theorem bookCoherent_cancel (ob : OrderBook) (h : BookCoherent ob) (id : Nat) :
    BookCoherent (cancel_order ob id) := by
  unfold cancel_order
  cases hres : map_find ob.orders_ id with
  | none => exact h
  | some o =>
    have h1 := coherent_cancel _ _ h id o hres
    obtain ⟨opx, oq, os⟩ := o
    cases os
    · simp only [BookCoherent, levels_of_set_bids]
      exact h1
    · simp only [BookCoherent, levels_of_set_asks]
      exact h1

theorem bookCoherent_adjust (ob : OrderBook) (h : BookCoherent ob) (id : Nat) (f : Order → Order)
    (hf : ∀ r, (f r).side = r.side ∧ (f r).price = r.price) :
    BookCoherent { ob with orders_ := map_adjust f ob.orders_ id } :=
  coherent_adjust _ _ h id f hf

theorem bookCoherent_modify (ob : OrderBook) (h : BookCoherent ob) (id : Nat)
    (new_px new_qty : Int) : BookCoherent (modify_order ob id new_px new_qty) := by
  unfold modify_order
  cases hres : map_find ob.orders_ id with
  | none => exact h
  | some o =>
    have hmove : BookCoherent
        (if new_px ≠ o.price then
          match o.side with
          | Side.Bid =>
            { ob with
              bids_ := level_push px_greater (level_remove px_greater ob.bids_ o.price id) new_px id,
              orders_ := map_adjust (fun r => { r with price := new_px }) ob.orders_ id }
          | Side.Ask =>
            { ob with
              asks_ := level_push px_less (level_remove px_less ob.asks_ o.price id) new_px id,
              orders_ := map_adjust (fun r => { r with price := new_px }) ob.orders_ id }
        else ob) := by
      split
      · have h1 := coherent_move _ _ h id o hres new_px
        obtain ⟨opx, oq, os⟩ := o
        cases os
        · simp only [BookCoherent, levels_of_set_bids]
          exact h1
        · simp only [BookCoherent, levels_of_set_asks]
          exact h1
      · exact h
    simp only
    split
    · exact bookCoherent_adjust _ hmove id _ (fun r => ⟨rfl, rfl⟩)
    · exact hmove

theorem bookCoherent_trade (ob : OrderBook) (h : BookCoherent ob) (id : Nat) (fill_qty : Int) :
    BookCoherent (trade_order ob id fill_qty) := by
  unfold trade_order
  cases hres : map_find ob.orders_ id with
  | none => exact h
  | some o =>
    have h1 := bookCoherent_adjust ob h id (fun r => { r with qty := r.qty - fill_qty })
      (fun r => ⟨rfl, rfl⟩)
    simp only
    split
    · exact bookCoherent_cancel _ h1 id
    · exact h1

theorem bookCoherent_on_event (ob : OrderBook) (h : BookCoherent ob) (ev : MboEvent)
    (hadd : ev.kind = EventKind.Add → map_find ob.orders_ ev.order_id = none) :
    BookCoherent (on_event ob ev) := by
  unfold on_event
  cases hk : ev.kind
  · exact bookCoherent_add ob h _ _ _ _ (hadd hk)
  · exact bookCoherent_modify ob h _ _ _
  · exact bookCoherent_cancel ob h _
  · exact bookCoherent_trade ob h _ _
  · exact bookCoherent_empty

theorem bookCoherent_apply_events (evs : List MboEvent) (ob : OrderBook) (h : BookCoherent ob)
    (hnd : no_dup_add ob evs = true) : BookCoherent (apply_events ob evs) := by
  induction evs generalizing ob with
  | nil => exact h
  | cons ev rest ih =>
    simp only [no_dup_add, Bool.and_eq_true] at hnd
    simp only [apply_events, List.foldl_cons]
    refine ih (on_event ob ev) (bookCoherent_on_event ob h ev ?_) hnd.2
    intro hk
    have h1 := hnd.1
    simp only [hk, if_true, Option.isNone_iff_eq_none] at h1
    exact h1

theorem mem_queue_ids (ob : OrderBook) (id : Nat) :
    id ∈ queue_ids ob ↔ ∃ s, ∃ e ∈ levels_of ob s, id ∈ e.2 := by
  simp only [queue_ids, List.mem_flatten, List.mem_map, List.mem_append]
  constructor
  · rintro ⟨q, ⟨e, he | he, rfl⟩, hid⟩
    · exact ⟨Side.Bid, e, he, hid⟩
    · exact ⟨Side.Ask, e, he, hid⟩
  · rintro ⟨s, e, he, hid⟩
    cases s
    · exact ⟨e.2, ⟨e, Or.inl he, rfl⟩, hid⟩
    · exact ⟨e.2, ⟨e, Or.inr he, rfl⟩, hid⟩

theorem mem_index_ids (ob : OrderBook) (id : Nat) :
    id ∈ index_ids ob ↔ ∃ o, map_find ob.orders_ id = some o := by
  rw [index_ids, ← map_find_isSome_iff, Option.isSome_iff_exists]

theorem indexQueueConsistent_of_coherent (ob : OrderBook) (h : BookCoherent ob) :
    IndexQueueConsistent ob := by
  obtain ⟨_, _, hb, hq⟩ := h
  constructor
  · intro id hid
    obtain ⟨s, e, he, hmem⟩ := (mem_queue_ids ob id).mp hid
    obtain ⟨o, ho, _⟩ := hq s e he id hmem
    exact (mem_index_ids ob id).mpr ⟨o, ho⟩
  · intro id hid
    obtain ⟨o, ho⟩ := (mem_index_ids ob id).mp hid
    have hc := hb id o ho
    have hmem : id ∈ level_at (levels_of ob o.side) o.price :=
      List.count_pos_iff.mp (by omega)
    exact (mem_queue_ids ob id).mpr ⟨o.side, _, mem_level_at _ _ _ hmem, hmem⟩

theorem map_find_eq_none_of_not_mem_index (ob : OrderBook) (id : Nat) (h : id ∉ index_ids ob) :
    map_find ob.orders_ id = none := by
  cases hf : map_find ob.orders_ id with
  | none => rfl
  | some o => exact absurd ((mem_index_ids ob id).mpr ⟨o, hf⟩) h

theorem noEmptyLevel_iff (ob : OrderBook) :
    NoEmptyLevel ob ↔ ∀ s, ∀ e ∈ levels_of ob s, e.2 ≠ [] := by
  constructor
  · intro h s e he
    cases s
    · exact h e (List.mem_append_left _ he)
    · exact h e (List.mem_append_right _ he)
  · intro h e he
    rcases List.mem_append.mp he with h1 | h1
    · exact h Side.Bid e h1
    · exact h Side.Ask e h1

theorem noEmptyLevel_add (ob : OrderBook) (h : NoEmptyLevel ob) (id : Nat) (s : Side)
    (px qty : Int) : NoEmptyLevel (add_order ob id s px qty) := by
  rw [noEmptyLevel_iff] at *
  intro s2 e he
  cases s <;> cases s2 <;> simp only [add_order, levels_of] at he
  · exact level_push_nonempty _ _ _ _ (h Side.Bid) e he
  · exact h Side.Ask e he
  · exact h Side.Bid e he
  · exact level_push_nonempty _ _ _ _ (h Side.Ask) e he

theorem noEmptyLevel_cancel (ob : OrderBook) (h : NoEmptyLevel ob) (id : Nat) :
    NoEmptyLevel (cancel_order ob id) := by
  unfold cancel_order
  cases hres : map_find ob.orders_ id with
  | none => exact h
  | some o =>
    obtain ⟨opx, oq, os⟩ := o
    rw [noEmptyLevel_iff] at *
    intro s2 e he
    cases os <;> cases s2 <;> simp only [levels_of] at he
    · exact level_remove_nonempty _ _ _ _ (h Side.Bid) e he
    · exact h Side.Ask e he
    · exact h Side.Bid e he
    · exact level_remove_nonempty _ _ _ _ (h Side.Ask) e he

theorem noEmptyLevel_set_orders (ob : OrderBook) (h : NoEmptyLevel ob) (O : List (Nat × Order)) :
    NoEmptyLevel { ob with orders_ := O } := h

theorem noEmptyLevel_modify (ob : OrderBook) (h : NoEmptyLevel ob) (id : Nat)
    (new_px new_qty : Int) : NoEmptyLevel (modify_order ob id new_px new_qty) := by
  unfold modify_order
  cases hres : map_find ob.orders_ id with
  | none => exact h
  | some o =>
    have hmove : NoEmptyLevel
        (if new_px ≠ o.price then
          match o.side with
          | Side.Bid =>
            { ob with
              bids_ := level_push px_greater (level_remove px_greater ob.bids_ o.price id) new_px id,
              orders_ := map_adjust (fun r => { r with price := new_px }) ob.orders_ id }
          | Side.Ask =>
            { ob with
              asks_ := level_push px_less (level_remove px_less ob.asks_ o.price id) new_px id,
              orders_ := map_adjust (fun r => { r with price := new_px }) ob.orders_ id }
        else ob) := by
      split
      · obtain ⟨opx, oq, os⟩ := o
        rw [noEmptyLevel_iff] at *
        intro s2 e he
        cases os <;> cases s2 <;> simp only [levels_of] at he
        · exact level_push_nonempty _ _ _ _
            (level_remove_nonempty _ _ _ _ (h Side.Bid)) e he
        · exact h Side.Ask e he
        · exact h Side.Bid e he
        · exact level_push_nonempty _ _ _ _
            (level_remove_nonempty _ _ _ _ (h Side.Ask)) e he
      · exact h
    simp only
    split
    · exact noEmptyLevel_set_orders _ hmove _
    · exact hmove

theorem noEmptyLevel_trade (ob : OrderBook) (h : NoEmptyLevel ob) (id : Nat) (fill_qty : Int) :
    NoEmptyLevel (trade_order ob id fill_qty) := by
  unfold trade_order
  cases hres : map_find ob.orders_ id with
  | none => exact h
  | some o =>
    simp only
    split
    · exact noEmptyLevel_cancel _ (noEmptyLevel_set_orders ob h _) id
    · exact noEmptyLevel_set_orders ob h _

theorem noEmptyLevel_on_event (ob : OrderBook) (h : NoEmptyLevel ob) (ev : MboEvent) :
    NoEmptyLevel (on_event ob ev) := by
  unfold on_event
  cases hk : ev.kind
  · exact noEmptyLevel_add ob h _ _ _ _
  · exact noEmptyLevel_modify ob h _ _ _
  · exact noEmptyLevel_cancel ob h _
  · exact noEmptyLevel_trade ob h _ _
  · intro e he; simp at he

theorem noEmptyLevel_apply_events (evs : List MboEvent) (ob : OrderBook) (h : NoEmptyLevel ob) :
    NoEmptyLevel (apply_events ob evs) := by
  induction evs generalizing ob with
  | nil => exact h
  | cons ev rest ih =>
    simp only [apply_events, List.foldl_cons]
    exact ih (on_event ob ev) (noEmptyLevel_on_event ob h ev)

/-! ## Further lemmas on snapshots and cancellation -/

theorem snapshot_loop_eq (O : List (Nat × Order)) (m : List (Int × List Nat)) (n : Nat)
    (out : List LevelView) :
    snapshot_loop O m n out = out ++ (m.take (n - out.length)).map (level_view O) := by
  induction m generalizing out with
  | nil => simp [snapshot_loop]
  | cons e rest ih =>
    obtain ⟨px, q⟩ := e
    by_cases h : out.length < n
    · simp only [snapshot_loop, h, if_true]
      rw [ih]
      obtain ⟨k, hk⟩ : ∃ k, n - out.length = k + 1 := ⟨n - out.length - 1, by omega⟩
      have hk2 : n - (out ++ [level_view O (px, q)]).length = k := by
        simp only [List.length_append, List.length_singleton]; omega
      rw [hk, hk2]
      simp
    · simp only [snapshot_loop, h, if_false]
      have hk : n - out.length = 0 := by omega
      simp [hk]

theorem snapshot_bids_eq (ob : OrderBook) (n : Nat) :
    (snapshot_top_n ob n).bids = (ob.bids_.take n).map (level_view ob.orders_) := by
  simp [snapshot_top_n, snapshot_loop_eq]

theorem snapshot_asks_eq (ob : OrderBook) (n : Nat) :
    (snapshot_top_n ob n).asks = (ob.asks_.take n).map (level_view ob.orders_) := by
  simp [snapshot_top_n, snapshot_loop_eq]

theorem mapOrdered_take_drop {K V : Type} (lt : K → K → Bool) (m : List (K × V))
    (hm : MapOrdered lt m) (n : Nat) :
    ((m.take n).map Prod.fst).Pairwise (fun a b => lt a b = true) ∧
    ∀ a ∈ m.take n, ∀ b ∈ m.drop n, lt a.1 b.1 = true := by
  have h := hm
  unfold MapOrdered at h
  rw [← List.take_append_drop n m, List.pairwise_append] at h
  exact ⟨List.pairwise_map.mpr h.1, h.2.2⟩

theorem level_view_price (O : List (Nat × Order)) (l : List (Int × List Nat)) :
    (l.map (level_view O)).map LevelView.price = l.map Prod.fst := by
  simp [List.map_map, Function.comp_def, level_view]

theorem cancel_order_resident (ob : OrderBook) (id : Nat) (o : Order)
    (hres : map_find ob.orders_ id = some o) :
    levels_of (cancel_order ob id) =
        Function.update (levels_of ob) o.side
          (level_remove (cmp_of o.side) (levels_of ob o.side) o.price id) ∧
    (cancel_order ob id).orders_ = map_erase ob.orders_ id := by
  unfold cancel_order
  rw [hres]
  obtain ⟨opx, oq, os⟩ := o
  cases os
  · exact ⟨levels_of_set_bids _ _ _, rfl⟩
  · exact ⟨levels_of_set_asks _ _ _, rfl⟩

theorem map_find_level_remove_self {lt : Int → Int → Bool} (hc : StrictCmp lt)
    (m : List (Int × List Nat)) (px : Int) (id : Nat) (hm : MapOrdered lt m) :
    (map_find (level_remove lt m px id) px).isSome = true ↔ (level_at m px).erase id ≠ [] := by
  unfold level_remove
  simp only [level_at_put_self, erase_from_queue]
  split
  · rename_i h
    rw [List.isEmpty_iff] at h
    simp [h, map_find_erase_self hc _ px (mapOrdered_put hc m px _ hm)]
  · rename_i h
    rw [List.isEmpty_iff] at h
    simp [h, map_find_put_self]

theorem not_mem_erase_of_count_one (q : List Nat) (id : Nat) (h : q.count id = 1) :
    id ∉ q.erase id := by
  have hz : List.count id (q.erase id) = 0 := by rw [List.count_erase_self, h]
  exact List.count_eq_zero.mp hz

theorem wf_levels (ob : OrderBook) (hwf : ob.WF) (s : Side) :
    MapOrdered (cmp_of s) (levels_of ob s) := by
  cases s
  · exact hwf.1
  · exact hwf.2.1

theorem level_sum_eq (O : List (Nat × Order)) (q : List Nat) :
    level_sum O q = (q.map (qty_of O)).sum := by
  unfold level_sum
  have h : ∀ acc : Int,
      q.foldl (fun sum id =>
        match map_find O id with
        | some o => sum + o.qty
        | none => sum) acc = acc + (q.map (qty_of O)).sum := by
    induction q with
    | nil => intro acc; simp
    | cons a rest ih =>
      intro acc
      simp only [List.foldl_cons, List.map_cons, List.sum_cons]
      rw [ih]
      unfold qty_of
      cases map_find O a <;> simp [add_assoc]
  simpa using h 0

theorem index_keys_nodup (O : List (Nat × Order)) (hO : MapOrdered id_less O) :
    (O.map Prod.fst).Nodup := by
  rw [mapOrdered_iff_keys] at hO
  exact hO.imp (fun h => by simp [id_less] at h; omega)

theorem queue_perm_resident (ob : OrderBook) (h : BookCoherent ob) (s : Side)
    (e : Int × List Nat) (he : e ∈ levels_of ob s) :
    List.Perm e.2 ((resident_at ob s e.1).map Prod.fst) := by
  obtain ⟨hL, hO, hb, hq⟩ := h
  have hlev : level_at (levels_of ob s) e.1 = e.2 :=
    level_at_of_mem (strictCmp_cmp_of s) _ (hL s) e he
  refine (List.perm_ext_iff_of_nodup ?_ ?_).mpr ?_
  · rw [List.nodup_iff_count_le_one]
    intro a
    by_cases ha : a ∈ e.2
    · obtain ⟨o, ho, hs, hp⟩ := hq s e he a ha
      have hc := hb a o ho
      rw [hs, hp, hlev] at hc
      omega
    · rw [List.count_eq_zero_of_not_mem ha]; omega
  · exact ((List.filter_sublist _).map Prod.fst).nodup (index_keys_nodup _ hO)
  · intro id
    constructor
    · intro hid
      obtain ⟨o, ho, hs, hp⟩ := hq s e he id hid
      exact List.mem_map.mpr ⟨(id, o), by
        simp [resident_at, List.mem_filter, mem_of_map_find _ _ _ ho, hs, hp], rfl⟩
    · intro hid
      obtain ⟨⟨id2, o⟩, hmem, rfl⟩ := List.mem_map.mp hid
      simp only [resident_at, List.mem_filter, decide_eq_true_eq] at hmem
      obtain ⟨h1, hs, hp⟩ := hmem
      have hf := map_find_of_mem strictCmp_id_less _ hO _ h1
      have hc := hb _ _ hf
      simp only at hs hp hf hc
      rw [hs, hp, hlev] at hc
      exact List.count_pos_iff.mp (by simp only; omega)

theorem level_view_resident (ob : OrderBook) (h : BookCoherent ob) (s : Side)
    (e : Int × List Nat) (he : e ∈ levels_of ob s) :
    (level_view ob.orders_ e).total_qty = resident_qty ob s e.1 ∧
    (level_view ob.orders_ e).orders = resident_count ob s e.1 % 4294967296 := by
  have hperm := queue_perm_resident ob h s e he
  constructor
  · simp only [level_view, level_sum_eq, resident_qty]
    rw [(hperm.map (qty_of ob.orders_)).sum_eq, List.map_map]
    congr 1
    apply List.map_congr_left
    intro a ha
    have ha2 : a ∈ ob.orders_ := (List.mem_filter.mp ha).1
    simp [qty_of, map_find_of_mem strictCmp_id_less _ h.2.1 a ha2]
  · simp only [level_view, resident_count]
    rw [hperm.length_eq, List.length_map]

theorem map_put_last (l : List (Nat × Order)) (k : Nat) (v : Order)
    (h : ∀ e ∈ l, e.1 < k) : map_put id_less l k v = l ++ [(k, v)] := by
  induction l with
  | nil => simp [map_put]
  | cons e rest ih =>
    obtain ⟨k', v'⟩ := e
    have h1 : k' < k := h (k', v') (List.mem_cons_self _ _)
    have h2 : ¬ k' = k := by omega
    have h3 : ¬ k < k' := by omega
    simp only [map_put, h2, id_less, h3, decide_False, Bool.false_eq_true, if_false,
      List.cons_append]
    rw [ih (fun e he => h e (List.mem_cons_of_mem _ he))]

theorem apply_events_append (ob : OrderBook) (l : List MboEvent) (e : MboEvent) :
    apply_events ob (l ++ [e]) = on_event (apply_events ob l) e := by
  simp [apply_events, List.foldl_append]

theorem no_dup_add_append (l : List MboEvent) (ob : OrderBook) (e : MboEvent) :
    no_dup_add ob (l ++ [e]) =
      (no_dup_add ob l &&
        (if e.kind = EventKind.Add then
          (map_find (apply_events ob l).orders_ e.order_id).isNone else true)) := by
  induction l generalizing ob with
  | nil => simp [no_dup_add, apply_events]
  | cons a rest ih =>
    have h := ih (on_event ob a)
    simp only [apply_events] at h ⊢
    rw [List.cons_append]
    simp only [no_dup_add, List.foldl_cons]
    rw [h, Bool.and_assoc]

theorem adds_at_100_succ (N : Nat) :
    adds_at_100 (N + 1) = adds_at_100 N ++ [mk_add 0 Side.Bid N 100 1] := by
  simp [adds_at_100, List.range_succ]

theorem adds_at_100_state (N : Nat) :
    apply_events OrderBook.empty (adds_at_100 N) =
      ⟨if N = 0 then [] else [(100, List.range N)], [],
        (List.range N).map (fun i => (i, (⟨100, 1, Side.Bid⟩ : Order)))⟩ := by
  induction N with
  | zero => simp [adds_at_100, apply_events, OrderBook.empty]
  | succ N ih =>
    rw [adds_at_100_succ, apply_events_append, ih]
    have hput : map_put id_less
        ((List.range N).map (fun i => (i, (⟨100, 1, Side.Bid⟩ : Order)))) N ⟨100, 1, Side.Bid⟩
        = (List.range (N + 1)).map (fun i => (i, (⟨100, 1, Side.Bid⟩ : Order))) := by
      rw [map_put_last, List.range_succ, List.map_append]
      · rfl
      · intro e he
        obtain ⟨i, hi, rfl⟩ := List.mem_map.mp he
        exact List.mem_range.mp hi
    have hpush : level_push px_greater (if N = 0 then [] else [(100, List.range N)]) 100 N
        = [(100, List.range (N + 1))] := by
      by_cases hN : N = 0
      · subst hN; simp [level_push, level_at, map_find, map_put, List.range_succ]
      · simp [hN, level_push, level_at, map_find, map_put, List.range_succ]
    simp only [on_event, mk_add, MboEvent.zero, add_order, hput, hpush]
    simp

theorem adds_at_100_no_dup (N : Nat) : no_dup_add OrderBook.empty (adds_at_100 N) = true := by
  induction N with
  | zero => simp [adds_at_100, no_dup_add]
  | succ N ih =>
    rw [adds_at_100_succ, no_dup_add_append, ih, adds_at_100_state]
    have hnone : map_find ((List.range N).map (fun i => (i, (⟨100, 1, Side.Bid⟩ : Order)))) N
        = none := by
      cases hf : map_find ((List.range N).map (fun i => (i, (⟨100, 1, Side.Bid⟩ : Order)))) N with
      | none => rfl
      | some o =>
        have h1 := mem_of_map_find _ _ _ hf
        obtain ⟨i, hi, h2⟩ := List.mem_map.mp h1
        have h3 : i = N := congrArg Prod.fst h2
        rw [h3] at hi
        exact absurd (List.mem_range.mp hi) (Nat.lt_irrefl N)
    simp [mk_add, MboEvent.zero, hnone]

theorem adds_at_100_facts (N : Nat) (hN : 0 < N) :
    no_dup_add OrderBook.empty (adds_at_100 N) = true ∧
    (snapshot_top_n (apply_events OrderBook.empty (adds_at_100 N)) 1).bids.map
      (fun lv => (lv.price, lv.orders)) = [(100, N % 4294967296)] ∧
    resident_count (apply_events OrderBook.empty (adds_at_100 N)) Side.Bid 100 = N := by
  have hN0 : ¬ N = 0 := by omega
  refine ⟨adds_at_100_no_dup N, ?_, ?_⟩
  · rw [snapshot_bids_eq, adds_at_100_state]
    simp [hN0, level_view]
  · rw [adds_at_100_state]
    simp only [resident_count, resident_at]
    rw [List.filter_eq_self.mpr]
    · simp
    · intro a ha
      obtain ⟨i, _, rfl⟩ := List.mem_map.mp ha
      simp

/-! ## The representation invariant holds in every reachable state -/

theorem wf_add (ob : OrderBook) (h : ob.WF) (id : Nat) (s : Side) (px qty : Int) :
    (add_order ob id s px qty).WF := by
  obtain ⟨hb, ha, ho⟩ := h
  cases s
  · exact ⟨mapOrdered_level_push strictCmp_px_greater _ _ _ hb, ha,
      mapOrdered_put strictCmp_id_less _ _ _ ho⟩
  · exact ⟨hb, mapOrdered_level_push strictCmp_px_less _ _ _ ha,
      mapOrdered_put strictCmp_id_less _ _ _ ho⟩

theorem wf_cancel (ob : OrderBook) (h : ob.WF) (id : Nat) : (cancel_order ob id).WF := by
  obtain ⟨hb, ha, ho⟩ := h
  unfold cancel_order
  cases hres : map_find ob.orders_ id with
  | none => exact ⟨hb, ha, ho⟩
  | some o =>
    obtain ⟨opx, oq, os⟩ := o
    cases os
    · exact ⟨mapOrdered_level_remove strictCmp_px_greater _ _ _ hb, ha,
        mapOrdered_erase _ _ ho⟩
    · exact ⟨hb, mapOrdered_level_remove strictCmp_px_less _ _ _ ha,
        mapOrdered_erase _ _ ho⟩

theorem wf_adjust (ob : OrderBook) (h : ob.WF) (id : Nat) (f : Order → Order) :
    OrderBook.WF { ob with orders_ := map_adjust f ob.orders_ id } :=
  ⟨h.1, h.2.1, mapOrdered_adjust f _ id h.2.2⟩

theorem wf_modify (ob : OrderBook) (h : ob.WF) (id : Nat) (new_px new_qty : Int) :
    (modify_order ob id new_px new_qty).WF := by
  unfold modify_order
  cases hres : map_find ob.orders_ id with
  | none => exact h
  | some o =>
    have hmove : OrderBook.WF
        (if new_px ≠ o.price then
          match o.side with
          | Side.Bid =>
            { ob with
              bids_ := level_push px_greater (level_remove px_greater ob.bids_ o.price id) new_px id,
              orders_ := map_adjust (fun r => { r with price := new_px }) ob.orders_ id }
          | Side.Ask =>
            { ob with
              asks_ := level_push px_less (level_remove px_less ob.asks_ o.price id) new_px id,
              orders_ := map_adjust (fun r => { r with price := new_px }) ob.orders_ id }
        else ob) := by
      split
      · obtain ⟨hb, ha, ho⟩ := h
        obtain ⟨opx, oq, os⟩ := o
        cases os
        · exact ⟨mapOrdered_level_push strictCmp_px_greater _ _ _
            (mapOrdered_level_remove strictCmp_px_greater _ _ _ hb), ha,
            mapOrdered_adjust _ _ id ho⟩
        · exact ⟨hb, mapOrdered_level_push strictCmp_px_less _ _ _
            (mapOrdered_level_remove strictCmp_px_less _ _ _ ha),
            mapOrdered_adjust _ _ id ho⟩
      · exact h
    simp only
    split
    · exact wf_adjust _ hmove id _
    · exact hmove

theorem wf_trade (ob : OrderBook) (h : ob.WF) (id : Nat) (fill_qty : Int) :
    (trade_order ob id fill_qty).WF := by
  unfold trade_order
  cases hres : map_find ob.orders_ id with
  | none => exact h
  | some o =>
    simp only
    split
    · exact wf_cancel _ (wf_adjust ob h id _) id
    · exact wf_adjust ob h id _

theorem wf_on_event (ob : OrderBook) (h : ob.WF) (ev : MboEvent) : (on_event ob ev).WF := by
  unfold on_event
  cases hk : ev.kind
  · exact wf_add ob h _ _ _ _
  · exact wf_modify ob h _ _ _
  · exact wf_cancel ob h _
  · exact wf_trade ob h _ _
  · simp [OrderBook.WF, MapOrdered]

theorem wf_apply_events (evs : List MboEvent) (ob : OrderBook) (h : ob.WF) :
    (apply_events ob evs).WF := by
  induction evs generalizing ob with
  | nil => exact h
  | cons ev rest ih =>
    simp only [apply_events, List.foldl_cons]
    exact ih (on_event ob ev) (wf_on_event ob h ev)

/-! ## Lemmas on binary64 rounding and the latency histograms -/

theorem shift_of_spec (f n : Nat) (hf : n ≤ f) :
    n / 2 ^ shift_of f n < 9007199254740992 ∧
    (0 < shift_of f n → 9007199254740992 ≤ n / 2 ^ (shift_of f n - 1)) := by
  induction f generalizing n with
  | zero =>
    have h0 : n = 0 := by omega
    subst h0; simp [shift_of]
  | succ f ih =>
    by_cases h : n < 9007199254740992
    · simp [shift_of, h]
    · have hrec := ih (n / 2) (by omega)
      have hdiv : ∀ k, n / 2 / 2 ^ k = n / 2 ^ (k + 1) := by
        intro k; rw [Nat.div_div_eq_div_mul, pow_succ, Nat.mul_comm]
      simp only [shift_of, h, if_false]
      refine ⟨by rw [← hdiv]; exact hrec.1, fun _ => ?_⟩
      simp only [Nat.add_sub_cancel]
      by_cases hr : shift_of f (n / 2) = 0
      · rw [hr]; simp; omega
      · have h2 := hrec.2 (by omega)
        rw [hdiv] at h2
        have : shift_of f (n / 2) - 1 + 1 = shift_of f (n / 2) := by omega
        rw [this] at h2; exact h2

theorem shift_of_le (f n j : Nat) (h : n / 2 ^ j < 9007199254740992) : shift_of f n ≤ j := by
  induction f generalizing n j with
  | zero => simp [shift_of]
  | succ f ih =>
    by_cases hn : n < 9007199254740992
    · simp [shift_of, hn]
    · simp only [shift_of, hn, if_false]
      cases j with
      | zero => simp at h; omega
      | succ j =>
        have : n / 2 / 2 ^ j < 9007199254740992 := by
          rw [Nat.div_div_eq_div_mul, Nat.mul_comm, ← pow_succ]; exact h
        have := ih (n / 2) j this
        omega

/-- The shape of `round53 n`: either `n` itself, or one of the two neighbouring multiples
of `P = 2 * H`, chosen on the side of the remainder. -/
theorem round53_shape (n : Nat) :
    (round53 n = n ∧ shift_of n n = 0) ∨
    ∃ H q rem, 2 ^ shift_of n n = 2 * H ∧ 0 < H ∧ n = 2 * H * q + rem ∧ rem < 2 * H ∧
      9007199254740992 * H ≤ n ∧
      ((round53 n = q * (2 * H) ∧ rem ≤ H) ∨ (round53 n = (q + 1) * (2 * H) ∧ H ≤ rem)) := by
  by_cases hr : shift_of n n = 0
  · left; simp [round53, hr]
  · right
    obtain ⟨r, hr'⟩ : ∃ r, shift_of n n = r + 1 := ⟨shift_of n n - 1, by omega⟩
    have hspec := (shift_of_spec n n (le_refl n)).2 (by omega)
    rw [hr'] at hspec
    simp only [Nat.add_sub_cancel] at hspec
    have hP : 2 ^ (r + 1) = 2 * 2 ^ r := by rw [pow_succ, Nat.mul_comm]
    have hHpos : 0 < 2 ^ r := Nat.pow_pos (by norm_num)
    refine ⟨2 ^ r, n / 2 ^ (r + 1), n % 2 ^ (r + 1), by rw [hr', hP], hHpos, ?_, ?_, ?_, ?_⟩
    · rw [← hP]; exact (Nat.div_add_mod n (2 ^ (r + 1))).symm
    · rw [← hP]; exact Nat.mod_lt _ (Nat.pow_pos (by norm_num))
    · have := Nat.mul_le_of_le_div _ _ _ hspec
      omega
    · simp only [round53, hr', Nat.add_sub_cancel]
      simp only [Nat.succ_ne_zero, if_false, ← hP]
      split
      · rename_i hc
        right
        refine ⟨rfl, ?_⟩
        rcases hc with hc | hc
        · omega
        · omega
      · rename_i hc
        left
        refine ⟨rfl, ?_⟩
        by_contra hlt
        exact hc (Or.inl (by omega))

theorem shift_of_small (f n : Nat) (h : n < 9007199254740992) : shift_of f n = 0 := by
  cases f <;> simp [shift_of, h]

theorem round53_small (n : Nat) (h : n < 9007199254740992) : round53 n = n := by
  simp [round53, shift_of_small n n h]

theorem round53_upper (n : Nat) :
    round53 n * 9007199254740992 ≤ n * 9007199254740993 := by
  rcases round53_shape n with ⟨h, _⟩ | ⟨H, q, rem, _, hH, hn, hrem, hbig, hc⟩
  · rw [h]; omega
  · generalize hqH : 2 * H * q = t at hn
    have e1 : q * (2 * H) = t := by rw [← hqH]; ring
    have e2 : (q + 1) * (2 * H) = t + 2 * H := by rw [← hqH]; ring
    rcases hc with ⟨h, h2⟩ | ⟨h, h2⟩
    · rw [h, e1]; omega
    · rw [h, e2]; omega

theorem round53_lower (n : Nat) :
    n * 9007199254740992 ≤ round53 n * 9007199254740992 + n := by
  rcases round53_shape n with ⟨h, _⟩ | ⟨H, q, rem, _, hH, hn, hrem, hbig, hc⟩
  · rw [h]; omega
  · generalize hqH : 2 * H * q = t at hn
    have e1 : q * (2 * H) = t := by rw [← hqH]; ring
    have e2 : (q + 1) * (2 * H) = t + 2 * H := by rw [← hqH]; ring
    rcases hc with ⟨h, h2⟩ | ⟨h, h2⟩
    · rw [h, e1]; omega
    · rw [h, e2]; omega

theorem pow_shift_dvd (n j : Nat) (h : n / 2 ^ j < 9007199254740992) :
    ∃ m, 2 ^ j = m * 2 ^ shift_of n n := by
  have hle := shift_of_le n n j h
  exact ⟨2 ^ (j - shift_of n n), by rw [← pow_add]; congr 1; omega⟩

theorem round53_le_of_le (n d j : Nat) (hj : n / 2 ^ j < 9007199254740992)
    (h : n ≤ d * 2 ^ j) : round53 n ≤ d * 2 ^ j := by
  rcases round53_shape n with ⟨h1, _⟩ | ⟨H, q, rem, hP, hH, hn, hrem, hbig, hc⟩
  · rw [h1]; exact h
  · obtain ⟨m, hm⟩ := pow_shift_dvd n j hj
    rw [hm, hP, ← Nat.mul_assoc] at h ⊢
    rcases hc with ⟨h1, h2⟩ | ⟨h1, h2⟩
    · rw [h1]
      apply Nat.mul_le_mul_right
      by_contra hlt
      have h3 : d * m + 1 ≤ q := by omega
      have h4 := Nat.mul_le_mul_right (2 * H) h3
      have e : 2 * H * q = q * (2 * H) := by ring
      have e2 : (d * m + 1) * (2 * H) = d * m * (2 * H) + 2 * H := by ring
      omega
    · rw [h1]
      apply Nat.mul_le_mul_right
      by_contra hlt
      have h3 : d * m ≤ q := by omega
      have h4 := Nat.mul_le_mul_right (2 * H) h3
      have e : 2 * H * q = q * (2 * H) := by ring
      omega

theorem round53_ge_of_le (n d j : Nat) (hj : n / 2 ^ j < 9007199254740992)
    (h : d * 2 ^ j ≤ n) : d * 2 ^ j ≤ round53 n := by
  rcases round53_shape n with ⟨h1, _⟩ | ⟨H, q, rem, hP, hH, hn, hrem, hbig, hc⟩
  · rw [h1]; exact h
  · obtain ⟨m, hm⟩ := pow_shift_dvd n j hj
    rw [hm, hP, ← Nat.mul_assoc] at h ⊢
    rcases hc with ⟨h1, h2⟩ | ⟨h1, h2⟩
    · rw [h1]
      apply Nat.mul_le_mul_right
      by_contra hlt
      have h3 : q + 1 ≤ d * m := by omega
      have h4 := Nat.mul_le_mul_right (2 * H) h3
      have e : 2 * H * q = q * (2 * H) := by ring
      have e2 : (q + 1) * (2 * H) = q * (2 * H) + 2 * H := by ring
      omega
    · rw [h1]
      apply Nat.mul_le_mul_right
      by_contra hlt
      have h3 : q + 2 ≤ d * m := by omega
      have h4 := Nat.mul_le_mul_right (2 * H) h3
      have e : 2 * H * q = q * (2 * H) := by ring
      have e2 : (q + 2) * (2 * H) = q * (2 * H) + 2 * (2 * H) := by ring
      omega

theorem round53_exact (d j : Nat) (hd : d < 9007199254740992) :
    round53 (d * 2 ^ j) = d * 2 ^ j := by
  have hj : d * 2 ^ j / 2 ^ j < 9007199254740992 := by
    rw [Nat.mul_div_cancel _ (Nat.pow_pos (by norm_num))]; exact hd
  exact Nat.le_antisymm (round53_le_of_le _ d j hj (le_refl _))
    (round53_ge_of_le _ d j hj (le_refl _))

theorem need_bound_aux (C M T total X R : Nat) (hC : 0 < C) (hT : T * C ≤ total * (C + 1))
    (hX : X = M * T) (hR : R * C ≤ X * (C + 1)) (hM : M * (C + 1) * (C + 1) ≤ C * C * C) :
    R ≤ total * C := by
  apply Nat.le_of_mul_le_mul_right (c := C * C) _ (Nat.mul_pos hC hC)
  calc R * (C * C) = R * C * C := by ring
    _ ≤ X * (C + 1) * C := Nat.mul_le_mul_right _ hR
    _ = M * (C + 1) * (T * C) := by subst hX; ring
    _ ≤ M * (C + 1) * (total * (C + 1)) := Nat.mul_le_mul_left _ hT
    _ = total * (M * (C + 1) * (C + 1)) := by ring
    _ ≤ total * (C * C * C) := Nat.mul_le_mul_left _ hM
    _ = total * C * (C * C) := by ring

theorem quant_need_le (M total : Nat)
    (hM : M * 9007199254740993 * 9007199254740993
      ≤ 9007199254740992 * 9007199254740992 * 9007199254740992) :
    quant_need M total ≤ total := by
  have h := need_bound_aux 9007199254740992 M (round53 total) total (M * round53 total)
    (round53 (M * round53 total)) (by norm_num) (round53_upper total) rfl
    (round53_upper _) hM
  unfold quant_need
  omega

theorem need_lower_aux (C a b M d t X R k : Nat) (hM : b * M + d = a * C) (hX : X = M * t)
    (hR : X * C ≤ R * C + X) (hk : b * k + 1 ≤ a * t) (ht : (a + d) * t < C) :
    k * C < R := by
  by_contra hcon
  have hcon' : R ≤ k * C := Nat.le_of_not_lt hcon
  zify at hM hX hR hk ht hcon'
  have hbX : (b : ℤ) * X = a * C * t - d * t := by
    rw [hX]; have : (b : ℤ) * M = a * C - d := by linarith
    calc (b : ℤ) * (M * t) = (b * M) * t := by ring
      _ = (a * C - d) * t := by rw [this]
      _ = a * C * t - d * t := by ring
  have hC0 : (0 : ℤ) ≤ C := Int.natCast_nonneg C
  have hb0 : (0 : ℤ) ≤ b := Int.natCast_nonneg b
  have hd0 : (0 : ℤ) ≤ (d : ℤ) * t := by positivity
  have h1 : (b : ℤ) * (X * C) ≤ b * (R * C + X) := mul_le_mul_of_nonneg_left hR hb0
  have h2 : (b : ℤ) * (R * C) ≤ b * (k * C * C) := by
    have := mul_le_mul_of_nonneg_right hcon' hC0
    exact mul_le_mul_of_nonneg_left this hb0
  have h3 : (b : ℤ) * k * (C * C) ≤ (a * t - 1) * (C * C) := by
    apply mul_le_mul_of_nonneg_right _ (mul_nonneg hC0 hC0)
    linarith
  have h4 : ((a : ℤ) + d) * t * C ≤ (C - 1) * C := by
    apply mul_le_mul_of_nonneg_right _ hC0
    linarith
  nlinarith [h1, h2, h3, h4, hbX, hd0]

theorem quant_need_exact (a b M d total : Nat) (hb : 0 < b) (hab : a ≤ b)
    (hM : b * M + d = a * 9007199254740992) (hMlt : M < 9007199254740992)
    (ht : (b + d) * total < 9007199254740992) :
    quant_need M total = (a * total + b - 1) / b := by
  have hbt : b * total ≤ (b + d) * total := Nat.mul_le_mul_right _ (by omega)
  have htot : total < 9007199254740992 := by
    have : total ≤ b * total := Nat.le_mul_of_pos_left _ hb
    omega
  have hat : (a + d) * total ≤ (b + d) * total := Nat.mul_le_mul_right _ (by omega)
  obtain ⟨k, hk⟩ : ∃ k, (a * total + b - 1) / b = k := ⟨_, rfl⟩
  have hdm := Nat.div_add_mod (a * total + b - 1) b
  have hml := Nat.mod_lt (a * total + b - 1) hb
  rw [hk] at hdm
  have hX53 : M * total / 2 ^ 53 < 9007199254740992 := by
    apply Nat.div_lt_of_lt_mul
    calc M * total ≤ M * 9007199254740992 := Nat.mul_le_mul_left _ (le_of_lt htot)
      _ < 9007199254740992 * 9007199254740992 :=
          Nat.mul_lt_mul_of_pos_right hMlt (by norm_num)
      _ = 2 ^ 53 * 9007199254740992 := by norm_num
  -- upper barrier
  have hup : M * total ≤ k * 2 ^ 53 := by
    refine Nat.le_of_mul_le_mul_left (c := b) ?_ hb
    have e1 : b * (M * total) + d * total = a * total * 9007199254740992 := by
      calc b * (M * total) + d * total = (b * M + d) * total := by ring
        _ = a * 9007199254740992 * total := by rw [hM]
        _ = a * total * 9007199254740992 := by ring
    have e2 : a * total ≤ b * k := by omega
    have e3 := Nat.mul_le_mul_right 9007199254740992 e2
    have e4 : b * (k * 2 ^ 53) = b * k * 9007199254740992 := by norm_num; ring
    omega
  have hRup := round53_le_of_le (M * total) k 53 hX53 hup
  have hRup' : round53 (M * total) ≤ k * 9007199254740992 := by
    have : (2 : ℕ) ^ 53 = 9007199254740992 := by norm_num
    rw [this] at hRup; exact hRup
  unfold quant_need
  rw [round53_small total htot, hk]
  cases k with
  | zero => omega
  | succ k' =>
    have hlow := need_lower_aux 9007199254740992 a b M d total (M * total)
      (round53 (M * total)) k' hM rfl (round53_lower _) (by
        have : b * (k' + 1) = b * k' + b := by ring
        omega) (by omega)
    omega

theorem quant_need_P50 (total : Nat) (h : total < 70368744177664) :
    quant_need P50 total = (total + 1) / 2 := by
  have := quant_need_exact 1 2 P50 0 total (by norm_num) (by norm_num) (by norm_num [P50])
    (by norm_num [P50]) (by omega)
  simpa using this

theorem quant_need_P95 (total : Nat) (h : total < 70368744177664) :
    quant_need P95 total = (19 * total + 19) / 20 := by
  have := quant_need_exact 19 20 P95 8 total (by norm_num) (by norm_num) (by norm_num [P95])
    (by norm_num [P95]) (by omega)
  simpa using this

theorem quant_need_P99 (total : Nat) (h : total < 70368744177664) :
    quant_need P99 total = (99 * total + 99) / 100 := by
  have := quant_need_exact 99 100 P99 8 total (by norm_num) (by norm_num) (by norm_num [P99])
    (by norm_num [P99]) (by omega)
  simpa using this

theorem quant_scan_spec (rest : List Nat) (i acc need : Nat) (hlt : acc < need)
    (hsum : acc + rest.sum < 18446744073709551616) (hneed : need ≤ acc + rest.sum) :
    ∃ k, k < rest.length ∧ quant_scan rest i acc need = some (i + k) ∧
      need ≤ acc + (rest.take (k + 1)).sum ∧
      ∀ j, j < k → acc + (rest.take (j + 1)).sum < need := by
  induction rest generalizing i acc with
  | nil => simp at hneed; omega
  | cons b rest ih =>
    simp only [List.sum_cons] at hsum hneed
    have hmod : (acc + b) % 18446744073709551616 = acc + b := Nat.mod_eq_of_lt (by omega)
    by_cases hb : need ≤ acc + b
    · refine ⟨0, by simp, by simp [quant_scan, hmod, hb], by simpa using hb, ?_⟩
      intro j hj; omega
    · obtain ⟨k, hk1, hk2, hk3, hk4⟩ := ih (i + 1) (acc + b) (by omega) (by omega) (by omega)
      refine ⟨k + 1, by simp; omega, ?_, ?_, ?_⟩
      · simp only [quant_scan, hmod, hb, if_false]
        rw [hk2]; congr 1; omega
      · simp only [List.take_succ_cons, List.sum_cons]; omega
      · intro j hj
        cases j with
        | zero => simp; omega
        | succ j =>
          have := hk4 j (by omega)
          simp only [List.take_succ_cons, List.sum_cons]; omega

theorem quant_scan_hist (bins : List Nat) (need : Nat)
    (hsum : bins.sum < 18446744073709551616) (hpos : 0 < bins.sum) (hneed : need ≤ bins.sum) :
    ∃ i, i < bins.length ∧ quant_scan bins 0 0 need = some i ∧ need ≤ cum bins i ∧
      ∀ j, j < i → cum bins j < need := by
  by_cases h0 : need = 0
  · subst h0
    cases bins with
    | nil => simp at hpos
    | cons b rest =>
      exact ⟨0, by simp, by simp [quant_scan], Nat.zero_le _, fun j hj => by omega⟩
  · obtain ⟨k, hk1, hk2, hk3, hk4⟩ :=
      quant_scan_spec bins 0 0 need (by omega) (by omega) (by omega)
    refine ⟨k, hk1, by simpa using hk2, by simpa [cum] using hk3, ?_⟩
    intro j hj
    simpa [cum] using hk4 j hj

theorem to_int32_small (x : Nat) (h : x < 2147483648) : to_int32 x = (x : Int) := by
  have h1 : x % 4294967296 = x := Nat.mod_eq_of_lt (by omega)
  simp [to_int32, h1, h]

theorem record_us_small (nbins : Nat) (h : Histogram) (us : Nat) (hus : us < 2147483648)
    (hlen : nbins < h.bins.length) :
    record_us nbins 1 h us =
      some { bins := h.bins.set (min us nbins)
               ((h.bins.getD (min us nbins) 0 + 1) % 18446744073709551616),
             samples := (h.samples + 1) % 18446744073709551616,
             sum_us := (h.sum_us + us) % 18446744073709551616 } := by
  unfold record_us
  simp only [Nat.div_one, to_int32_small us hus]
  by_cases hc : (nbins : Int) < (us : Int)
  · have hmin : min us nbins = nbins := by
      have : nbins < us := by exact_mod_cast hc
      omega
    simp [hc, hmin, hlen]
  · have hmin : min us nbins = us := by
      have : ¬ nbins < us := by exact_mod_cast hc
      omega
    have hlt : us < h.bins.length := by omega
    simp [hc, hmin, hlt]

theorem record_us_at (nbins bin_us : Nat) (h : Histogram) (us b : Nat)
    (hbin : to_int32 (us / bin_us) = (b : Int)) (hb : b ≤ nbins) (hlen : b < h.bins.length) :
    record_us nbins bin_us h us =
      some { bins := h.bins.set b ((h.bins.getD b 0 + 1) % 18446744073709551616),
             samples := (h.samples + 1) % 18446744073709551616,
             sum_us := (h.sum_us + us) % 18446744073709551616 } := by
  unfold record_us
  have hc : ¬ (nbins : Int) < (b : Int) := by
    have : ¬ nbins < b := by omega
    exact_mod_cast this
  simp [hbin, hc, hlen]

theorem record_us_negative (nbins bin_us : Nat) (h : Histogram) (us : Nat)
    (hbin : to_int32 (us / bin_us) < 0) : record_us nbins bin_us h us = none := by
  unfold record_us
  have hc : ¬ (nbins : Int) < to_int32 (us / bin_us) := by
    have : (0 : Int) ≤ nbins := Int.natCast_nonneg _
    omega
  simp only [hc, if_false]
  have : ¬ (0 ≤ to_int32 (us / bin_us) ∧ (to_int32 (us / bin_us)).toNat < h.bins.length) := by
    intro h1; omega
  simp [this]

theorem getD_replicate_zero (n i : Nat) : (List.replicate n 0).getD i 0 = 0 := by
  simp [List.getD, List.getElem?_replicate]
  split <;> simp

theorem fresh_length (nbins : Nat) : (Histogram.fresh nbins).bins.length = nbins + 1 := by
  rw [Histogram.fresh, List.length_replicate]

theorem record_fresh_at (nbins bin_us us b : Nat) (hbin : to_int32 (us / bin_us) = (b : Int))
    (hb : b ≤ nbins) (hus : us < 18446744073709551616) :
    record_us nbins bin_us (Histogram.fresh nbins) us =
      some { bins := (Histogram.fresh nbins).bins.set b 1, samples := 1, sum_us := us } := by
  rw [record_us_at nbins bin_us _ us b hbin hb (by rw [fresh_length]; omega)]
  have h1 : (Histogram.fresh nbins).bins.getD b 0 = 0 := getD_replicate_zero _ _
  have h2 : (Histogram.fresh nbins).samples = 0 := rfl
  have h3 : (Histogram.fresh nbins).sum_us = 0 := rfl
  rw [h1, h2, h3, Nat.zero_add, Nat.zero_add, Nat.mod_eq_of_lt hus]

theorem record_all_small (nbins : Nat) (samples : List Nat) (h : Histogram)
    (hlen : nbins < h.bins.length) (hs : ∀ s ∈ samples, s < 2147483648)
    (h1 : h.samples < 18446744073709551616) (h2 : h.sum_us < 18446744073709551616) :
    ∃ r, record_all nbins 1 h samples = some r ∧ r.bins.length = h.bins.length ∧
      r.samples = (h.samples + samples.length) % 18446744073709551616 ∧
      r.sum_us = (h.sum_us + samples.sum) % 18446744073709551616 := by
  induction samples generalizing h with
  | nil =>
    refine ⟨h, rfl, rfl, ?_, ?_⟩
    · simp [Nat.mod_eq_of_lt h1]
    · simp [Nat.mod_eq_of_lt h2]
  | cons s rest ih =>
    have hstep := record_us_small nbins h s (hs s (List.mem_cons_self _ _)) hlen
    obtain ⟨r, hr1, hr2, hr3, hr4⟩ := ih
      { bins := h.bins.set (min s nbins)
          ((h.bins.getD (min s nbins) 0 + 1) % 18446744073709551616),
        samples := (h.samples + 1) % 18446744073709551616,
        sum_us := (h.sum_us + s) % 18446744073709551616 }
      (by simpa using hlen)
      (fun x hx => hs x (List.mem_cons_of_mem _ hx))
      (Nat.mod_lt _ (by norm_num : 0 < 18446744073709551616))
      (Nat.mod_lt _ (by norm_num : 0 < 18446744073709551616))
    refine ⟨r, ?_, ?_, ?_, ?_⟩
    · simp only [record_all, List.foldlM_cons, hstep, Option.bind_eq_bind, Option.some_bind]
      exact hr1
    · simpa using hr2
    · rw [hr3]; simp only [List.length_cons]; omega
    · rw [hr4]; simp only [List.sum_cons]; omega

theorem fresh_lat_bins :
    Histogram.fresh LAT_BINS = ⟨0 :: 0 :: 0 :: 0 :: List.replicate 4997 0, 0, 0⟩ := by
  unfold Histogram.fresh LAT_BINS
  rw [List.replicate_succ, List.replicate_succ, List.replicate_succ, List.replicate_succ]

theorem record_1123 (R : List Nat) :
    record_all LAT_BINS LAT_BIN_US ⟨0 :: 0 :: 0 :: 0 :: R, 0, 0⟩ [1, 1, 2, 3]
      = some ⟨0 :: 2 :: 1 :: 1 :: R, 4, 7⟩ := by
  have e1 : to_int32 (1 / LAT_BIN_US) = ((1 : Nat) : Int) := by decide
  have e2 : to_int32 (2 / LAT_BIN_US) = ((2 : Nat) : Int) := by decide
  have e3 : to_int32 (3 / LAT_BIN_US) = ((3 : Nat) : Int) := by decide
  have hl : (1 : Nat) ≤ LAT_BINS ∧ (2 : Nat) ≤ LAT_BINS ∧ (3 : Nat) ≤ LAT_BINS := by decide
  simp only [record_all, List.foldlM_cons, List.foldlM_nil, Option.bind_eq_bind]
  rw [record_us_at LAT_BINS LAT_BIN_US _ 1 1 e1 hl.1 (by simp)]
  simp only [Option.bind_eq_bind, Option.some_bind, List.set_cons_succ, List.set_cons_zero,
    List.getD_cons_succ, List.getD_cons_zero]
  rw [record_us_at LAT_BINS LAT_BIN_US _ 1 1 e1 hl.1 (by simp)]
  simp only [Option.bind_eq_bind, Option.some_bind, List.set_cons_succ, List.set_cons_zero,
    List.getD_cons_succ, List.getD_cons_zero]
  rw [record_us_at LAT_BINS LAT_BIN_US _ 2 2 e2 hl.2.1 (by simp)]
  simp only [Option.bind_eq_bind, Option.some_bind, List.set_cons_succ, List.set_cons_zero,
    List.getD_cons_succ, List.getD_cons_zero]
  rw [record_us_at LAT_BINS LAT_BIN_US _ 3 3 e3 hl.2.2 (by simp)]
  simp only [Option.bind_eq_bind, Option.some_bind, List.set_cons_succ, List.set_cons_zero,
    List.getD_cons_succ, List.getD_cons_zero]
  rfl

theorem quant_of_scan (nbins bin_us : Nat) (h : Histogram) (M need i : Nat)
    (hn : quant_need M h.samples = need) (hs : quant_scan h.bins 0 0 need = some i) :
    quant nbins bin_us h M = i * bin_us := by
  rw [quant, hn, hs]

theorem dump_stats_of_pos (nbins bin_us : Nat) (h : Histogram) (hs : h.samples ≠ 0) :
    dump_stats nbins bin_us h =
      some { samples := h.samples, mean := h.sum_us / h.samples,
             p50 := quant nbins bin_us h P50, p95 := quant nbins bin_us h P95,
             p99 := quant nbins bin_us h P99 } := by
  rw [dump_stats, if_neg hs]

theorem need_values : quant_need P50 4 = 2 ∧ quant_need P95 4 = 4 ∧ quant_need P99 4 = 4 := by
  decide

theorem stats_1123 (R : List Nat) :
    dump_stats LAT_BINS LAT_BIN_US ⟨0 :: 2 :: 1 :: 1 :: R, 4, 7⟩
      = some { samples := 4, mean := 1, p50 := 1, p95 := 3, p99 := 3 } := by
  have hs : (⟨0 :: 2 :: 1 :: 1 :: R, 4, 7⟩ : Histogram).samples ≠ 0 := by
    show (4 : Nat) ≠ 0; decide
  rw [dump_stats_of_pos _ _ _ hs,
    quant_of_scan LAT_BINS LAT_BIN_US ⟨0 :: 2 :: 1 :: 1 :: R, 4, 7⟩ P50 2 1 need_values.1 rfl,
    quant_of_scan LAT_BINS LAT_BIN_US ⟨0 :: 2 :: 1 :: 1 :: R, 4, 7⟩ P95 4 3 need_values.2.1 rfl,
    quant_of_scan LAT_BINS LAT_BIN_US ⟨0 :: 2 :: 1 :: 1 :: R, 4, 7⟩ P99 4 3 need_values.2.2 rfl]
  simp [LAT_BIN_US]

theorem sum_set_incr (l : List Nat) (b : Nat) (hb : b < l.length) :
    (l.set b (l.getD b 0 + 1)).sum = l.sum + 1 := by
  induction l generalizing b with
  | nil => simp at hb
  | cons x rest ih =>
    cases b with
    | zero => simp; omega
    | succ k =>
      have hk : k < rest.length := by simpa using hb
      simp only [List.set_cons_succ, List.sum_cons, List.getD_cons_succ, ih k hk]
      omega

theorem getD_le_sum (l : List Nat) (b : Nat) : l.getD b 0 ≤ l.sum := by
  induction l generalizing b with
  | nil => simp
  | cons x rest ih =>
    cases b with
    | zero => simp
    | succ k =>
      simp only [List.getD_cons_succ, List.sum_cons]
      have := ih k
      omega

theorem record_us_some (nbins bin_us : Nat) (h r : Histogram) (us : Nat)
    (hr : record_us nbins bin_us h us = some r) :
    ∃ b, b < h.bins.length ∧
      r = { bins := h.bins.set b ((h.bins.getD b 0 + 1) % 18446744073709551616),
            samples := (h.samples + 1) % 18446744073709551616,
            sum_us := (h.sum_us + us) % 18446744073709551616 } := by
  unfold record_us at hr
  simp only at hr
  generalize (if (nbins : Int) < to_int32 (us / bin_us) then (nbins : Int)
    else to_int32 (us / bin_us)) = bin at hr
  by_cases hc : 0 ≤ bin ∧ bin.toNat < h.bins.length
  · rw [if_pos hc] at hr
    injection hr with hr
    exact ⟨bin.toNat, hc.2, hr.symm⟩
  · rw [if_neg hc] at hr
    exact absurd hr (by simp)

theorem record_us_sum (nbins bin_us : Nat) (h r : Histogram) (us : Nat)
    (hinv : h.bins.sum = h.samples) (hlt : h.samples + 1 < 18446744073709551616)
    (hr : record_us nbins bin_us h us = some r) :
    r.bins.sum = r.samples ∧ r.samples = h.samples + 1 := by
  obtain ⟨b, hb, rfl⟩ := record_us_some nbins bin_us h r us hr
  have hle := getD_le_sum h.bins b
  simp only
  rw [Nat.mod_eq_of_lt (by omega), Nat.mod_eq_of_lt hlt, sum_set_incr _ _ hb, hinv]
  exact ⟨rfl, rfl⟩

theorem fresh_sum (nbins : Nat) : (Histogram.fresh nbins).bins.sum = 0 := by
  simp [Histogram.fresh]

theorem record_all_sum (nbins bin_us : Nat) (samples : List Nat) (h r : Histogram)
    (hinv : h.bins.sum = h.samples)
    (hlt : h.samples + samples.length < 18446744073709551616)
    (hr : record_all nbins bin_us h samples = some r) :
    r.bins.sum = r.samples ∧ r.samples = h.samples + samples.length := by
  induction samples generalizing h with
  | nil =>
    simp only [record_all, List.foldlM_nil] at hr
    injection hr with hr
    subst hr
    exact ⟨hinv, by simp⟩
  | cons s rest ih =>
    simp only [record_all, List.foldlM_cons, Option.bind_eq_bind] at hr
    cases hstep : record_us nbins bin_us h s with
    | none => rw [hstep] at hr; simp at hr
    | some h1 =>
      rw [hstep, Option.some_bind] at hr
      simp only [List.length_cons] at hlt
      have hst := record_us_sum nbins bin_us h h1 s hinv (by omega) hstep
      have hs1 := hst.2
      have := ih h1 hst.1 (by omega) hr
      refine ⟨this.1, ?_⟩
      rw [this.2, hs1]
      simp only [List.length_cons]
      omega

theorem record_latency_us_in_range (h : Histogram) (us : Nat) (hus : us < 2147483648)
    (hlen : h.bins.length = LAT_BINS + 1) :
    record_latency_us h us =
      some { bins := h.bins.set (min us LAT_BINS)
               ((h.bins.getD (min us LAT_BINS) 0 + 1) % 18446744073709551616),
             samples := (h.samples + 1) % 18446744073709551616,
             sum_us := (h.sum_us + us) % 18446744073709551616 } :=
  record_us_small LAT_BINS h us hus (by omega)

theorem record_e2e_latency_us_in_range (h : Histogram) (us : Nat) (hus : us < 2147483648)
    (hlen : h.bins.length = E2E_BINS + 1) :
    record_e2e_latency_us h us =
      some { bins := h.bins.set (min us E2E_BINS)
               ((h.bins.getD (min us E2E_BINS) 0 + 1) % 18446744073709551616),
             samples := (h.samples + 1) % 18446744073709551616,
             sum_us := (h.sum_us + us) % 18446744073709551616 } :=
  record_us_small E2E_BINS h us hus (by omega)

/-! ## Lemmas on the read loop -/

theorem mem_split_indexOf (c : Char) (l : List Char) (h : c ∈ l) :
    ∃ a r, l = a ++ c :: r ∧ c ∉ a ∧ l.indexOf c = a.length := by
  induction l with
  | nil => simp at h
  | cons x xs ih =>
    by_cases hx : x = c
    · subst hx
      exact ⟨[], xs, rfl, by simp, by simp⟩
    · have hmem : c ∈ xs := by
        rcases List.mem_cons.mp h with h1 | h1
        · exact absurd h1.symm hx
        · exact h1
      obtain ⟨a, r, h1, h2, h3⟩ := ih hmem
      refine ⟨x :: a, r, by rw [h1]; rfl, ?_, ?_⟩
      · intro hc
        rcases List.mem_cons.mp hc with h4 | h4
        · exact hx h4.symm
        · exact h2 h4
      · rw [List.indexOf_cons_ne _ hx, h3]
        rfl

theorem str_find_none (s : List Char) (c : Char) (pos : Nat)
    (h : str_find s c pos = none) : c ∉ s.drop pos := by
  unfold str_find at h
  intro hc
  have := List.indexOf_lt_length.mpr hc
  rw [if_pos this] at h
  exact absurd h (by simp)

theorem str_find_some (s : List Char) (c : Char) (pos nl : Nat)
    (h : str_find s c pos = some nl) :
    ∃ a r, s.drop pos = a ++ c :: r ∧ c ∉ a ∧ nl = pos + a.length ∧ s.drop (nl + 1) = r ∧
      nl < s.length := by
  unfold str_find at h
  by_cases hlt : (s.drop pos).indexOf c < (s.drop pos).length
  · rw [if_pos hlt] at h
    injection h with h
    obtain ⟨a, r, h1, h2, h3⟩ := mem_split_indexOf c (s.drop pos) (List.indexOf_lt_length.mp hlt)
    refine ⟨a, r, h1, h2, by rw [← h, h3], ?_, ?_⟩
    · rw [← h, h3]
      have : s.drop (pos + a.length + 1) = (s.drop pos).drop (a.length + 1) := by
        rw [List.drop_drop]; exact congrArg (fun k => s.drop k) (by omega)
      rw [this, h1]
      simp
    · rw [← h]
      have hl : (s.drop pos).length = s.length - pos := List.length_drop _ _
      omega
  · rw [if_neg hlt] at h
    exact absurd h (by simp)

theorem segments_go_no_nl (a cur : List Char) (h : '\n' ∉ a) :
    segments_go a cur = ([], cur ++ a) := by
  induction a generalizing cur with
  | nil => simp [segments_go]
  | cons x xs ih =>
    have hx : x ≠ '\n' := fun e => h (by rw [e]; exact List.mem_cons_self _ _)
    have hxs : '\n' ∉ xs := fun e => h (List.mem_cons_of_mem _ e)
    rw [segments_go, if_neg hx, ih _ hxs]
    simp

theorem segments_go_split (a r cur : List Char) (h : '\n' ∉ a) :
    segments_go (a ++ '\n' :: r) cur
      = ((cur ++ a) :: (segments_go r []).1, (segments_go r []).2) := by
  induction a generalizing cur with
  | nil => simp [segments_go]
  | cons x xs ih =>
    have hx : x ≠ '\n' := fun e => h (by rw [e]; exact List.mem_cons_self _ _)
    have hxs : '\n' ∉ xs := fun e => h (List.mem_cons_of_mem _ e)
    rw [List.cons_append, segments_go, if_neg hx, ih _ hxs]
    simp

theorem segments_go_append (s t cur : List Char) :
    segments_go (s ++ t) cur
      = ((segments_go s cur).1 ++ (segments_go t (segments_go s cur).2).1,
         (segments_go t (segments_go s cur).2).2) := by
  induction s generalizing cur with
  | nil => simp [segments_go]
  | cons x xs ih =>
    by_cases hx : x = '\n'
    · subst hx
      rw [List.cons_append, segments_go, if_pos rfl, ih, segments_go, if_pos rfl]
      simp
    · rw [List.cons_append, segments_go, if_neg hx, ih, segments_go, if_neg hx]

theorem segments_go_tail_no_nl (s cur : List Char) (h : '\n' ∉ cur) :
    '\n' ∉ (segments_go s cur).2 := by
  induction s generalizing cur with
  | nil => simpa [segments_go] using h
  | cons x xs ih =>
    by_cases hx : x = '\n'
    · subst hx
      simp only [segments_go, if_true]
      exact ih [] (by simp)
    · simp only [segments_go, if_neg hx]
      apply ih
      intro hc
      rcases List.mem_append.mp hc with h1 | h1
      · exact h h1
      · simp at h1
        exact hx h1.symm

theorem segments_go_lines_no_nl (s cur : List Char) (h : '\n' ∉ cur) :
    ∀ l ∈ (segments_go s cur).1, '\n' ∉ l := by
  induction s generalizing cur with
  | nil => simp [segments_go]
  | cons x xs ih =>
    by_cases hx : x = '\n'
    · subst hx
      simp only [segments_go, if_true]
      intro l hl
      rcases List.mem_cons.mp hl with rfl | hl
      · exact h
      · exact ih [] (by simp) l hl
    · simp only [segments_go, if_neg hx]
      apply ih
      intro hc
      rcases List.mem_append.mp hc with h1 | h1
      · exact h h1
      · simp at h1
        exact hx h1.symm

theorem segments_go_rebuild (s cur : List Char) :
    ((segments_go s cur).1.map (fun l => l ++ ['\n'])).flatten ++ (segments_go s cur).2
      = cur ++ s := by
  induction s generalizing cur with
  | nil => simp [segments_go]
  | cons x xs ih =>
    by_cases hx : x = '\n'
    · subst hx
      simp only [segments_go, if_true, List.map_cons, List.flatten_cons]
      rw [List.append_assoc, ih []]
      simp
    · simp only [segments_go, if_neg hx]
      rw [ih]
      simp

theorem stream_tail_no_nl (s : List Char) : '\n' ∉ stream_tail s :=
  segments_go_tail_no_nl s [] (by simp)

theorem stream_append (s t : List Char) :
    stream_lines (s ++ t) = stream_lines s ++ stream_lines (stream_tail s ++ t) ∧
    stream_tail (s ++ t) = stream_tail (stream_tail s ++ t) := by
  have h1 := segments_go_append s t []
  have h2 := segments_go_append (stream_tail s) t []
  rw [segments_go_no_nl _ _ (stream_tail_no_nl s)] at h2
  simp only [List.nil_append] at h2
  unfold stream_lines stream_tail at *
  rw [h1, h2]
  simp

theorem extract_lines_spec (fuel : Nat) (buf : List Char) (pos : Nat) (out : List (List Char))
    (hpos : pos ≤ buf.length) (hfuel : buf.length - pos < fuel) :
    extract_lines fuel buf pos out
      = some (stream_tail (buf.drop pos), out ++ stream_lines (buf.drop pos)) := by
  induction fuel generalizing pos out with
  | zero => omega
  | succ f ih =>
    rw [extract_lines]
    cases hf : str_find buf '\n' pos with
    | none =>
      have hno := str_find_none _ _ _ hf
      simp only [stream_tail, stream_lines, segments_go_no_nl _ [] hno]
      simp
    | some nl =>
      obtain ⟨a, r, h1, h2, h3, h4, h5⟩ := str_find_some _ _ _ _ hf
      simp only
      rw [ih (nl + 1) _ (by omega) (by omega), h4, h1]
      have htake : (a ++ '\n' :: r).take (nl - pos) = a := by
        have : nl - pos = a.length := by omega
        rw [this]
        simp
      rw [htake]
      simp only [stream_tail, stream_lines, segments_go_split a r [] h2]
      simp

theorem on_chunk_spec (buf chunk : List Char) :
    on_chunk buf chunk = some (stream_tail (buf ++ chunk), stream_lines (buf ++ chunk)) := by
  unfold on_chunk
  rw [extract_lines_spec _ _ 0 [] (by omega) (by omega)]
  simp

theorem read_loop_spec (chunks : List (List Char)) (buf : List Char)
    (hne : ∀ c ∈ chunks, c ≠ []) (hbuf : '\n' ∉ buf) :
    read_loop buf chunks
      = some (stream_tail (buf ++ chunks.flatten), stream_lines (buf ++ chunks.flatten)) := by
  induction chunks generalizing buf with
  | nil =>
    simp only [read_loop, List.flatten_nil, List.append_nil, stream_tail, stream_lines,
      segments_go_no_nl buf [] hbuf]
    simp
  | cons c rest ih =>
    have hc : c ≠ [] := hne c (List.mem_cons_self _ _)
    rw [read_loop, if_neg hc, on_chunk_spec]
    simp only
    rw [ih _ (fun x hx => hne x (List.mem_cons_of_mem _ hx)) (stream_tail_no_nl _)]
    simp only [List.flatten_cons]
    have := stream_append (buf ++ c) rest.flatten
    rw [← List.append_assoc, this.1, this.2]

/-! ## Lemmas on wire decoding -/

theorem digit_char (m : Nat) (h : m < 10) :
    isdigit (Char.ofNat (48 + m)) = true ∧ digit_value (Char.ofNat (48 + m)) = m := by
  interval_cases m <;> decide

theorem isdigit_not_special (c : Char) (h : isdigit c = true) :
    c ≠ ',' ∧ c ≠ '-' ∧ c ≠ '+' ∧ c ≠ '@' ∧ isspace c = false := by
  refine ⟨?_, ?_, ?_, ?_, ?_⟩
  · intro e; subst e; exact absurd h (by decide)
  · intro e; subst e; exact absurd h (by decide)
  · intro e; subst e; exact absurd h (by decide)
  · intro e; subst e; exact absurd h (by decide)
  · unfold isspace
    have h1 : c ≠ ' ' := by intro e; subst e; exact absurd h (by decide)
    have h2 : c ≠ '\t' := by intro e; subst e; exact absurd h (by decide)
    have h3 : c ≠ '\n' := by intro e; subst e; exact absurd h (by decide)
    have h4 : c ≠ '\x0b' := by intro e; subst e; exact absurd h (by decide)
    have h5 : c ≠ '\x0c' := by intro e; subst e; exact absurd h (by decide)
    have h6 : c ≠ '\r' := by intro e; subst e; exact absurd h (by decide)
    simp [h1, h2, h3, h4, h5, h6]

theorem digits_value_append (d : List Char) (c : Char) :
    digits_value (d ++ [c]) = 10 * digits_value d + digit_value c := by
  simp [digits_value, List.foldl_append]

theorem decimal_go_spec (fuel n : Nat) (acc : List Char) (h : n < fuel) :
    ∃ d, decimal_go fuel n acc = d ++ acc ∧ d ≠ [] ∧ (∀ c ∈ d, isdigit c = true) ∧
      digits_value d = n := by
  induction fuel generalizing n acc with
  | zero => omega
  | succ f ih =>
    rw [decimal_go]
    by_cases hn : n < 10
    · rw [if_pos hn]
      refine ⟨[Char.ofNat (48 + n)], rfl, by simp, ?_, ?_⟩
      · intro c hc
        rw [List.mem_singleton.mp hc]
        exact (digit_char n hn).1
      · have := (digit_char n hn).2
        simp [digits_value, this]
    · rw [if_neg hn]
      obtain ⟨d, h1, h2, h3, h4⟩ := ih (n / 10) (Char.ofNat (48 + n % 10) :: acc) (by omega)
      have hm : n % 10 < 10 := Nat.mod_lt _ (by norm_num)
      refine ⟨d ++ [Char.ofNat (48 + n % 10)], by rw [h1]; simp, by simp, ?_, ?_⟩
      · intro c hc
        rcases List.mem_append.mp hc with hc | hc
        · exact h3 c hc
        · rw [List.mem_singleton.mp hc]
          exact (digit_char _ hm).1
      · rw [digits_value_append, h4, (digit_char _ hm).2]
        omega

theorem decimal_spec (n : Nat) :
    decimal n ≠ [] ∧ (∀ c ∈ decimal n, isdigit c = true) ∧ digits_value (decimal n) = n := by
  obtain ⟨d, h1, h2, h3, h4⟩ := decimal_go_spec (n + 1) n [] (by omega)
  rw [List.append_nil] at h1
  unfold decimal
  rw [h1]
  exact ⟨h2, h3, h4⟩

theorem read_sign_digit (c : Char) (r : List Char) (h : isdigit c = true) :
    read_sign (c :: r) = (false, c :: r) := by
  have hs := isdigit_not_special c h
  unfold read_sign
  split
  · rename_i heq
    injection heq with h1 _
    exact absurd h1 hs.2.1
  · rename_i heq
    injection heq with h1 _
    exact absurd h1 hs.2.2.1
  · rfl

theorem takeWhile_all (p : Char → Bool) (d : List Char) (h : ∀ c ∈ d, p c = true) :
    d.takeWhile p = d := by
  induction d with
  | nil => rfl
  | cons x xs ih =>
    rw [List.takeWhile_cons, if_pos (h x (List.mem_cons_self _ _)),
      ih (fun c hc => h c (List.mem_cons_of_mem _ hc))]

theorem strto_prefix_digits (d : List Char) (hne : d ≠ []) (hd : ∀ c ∈ d, isdigit c = true) :
    strto_prefix d = some (false, digits_value d) ∧
    strto_prefix ('-' :: d) = some (true, digits_value d) := by
  cases d with
  | nil => exact absurd rfl hne
  | cons c r =>
    have hc := hd c (List.mem_cons_self _ _)
    have hs := isdigit_not_special c hc
    constructor
    · unfold strto_prefix
      have h1 : (c :: r).dropWhile isspace = c :: r := by
        rw [List.dropWhile_cons, if_neg (by rw [hs.2.2.2.2]; decide)]
      simp only [h1, read_sign_digit c r hc, takeWhile_all isdigit (c :: r) hd]
      simp
    · unfold strto_prefix
      have h1 : ('-' :: c :: r).dropWhile isspace = '-' :: c :: r := by
        rw [List.dropWhile_cons, if_neg (by decide)]
      have h2 : read_sign ('-' :: c :: r) = (true, c :: r) := rfl
      simp only [h1, h2, takeWhile_all isdigit (c :: r) hd]
      simp

theorem stoull_decimal (n : Nat) (h : n < 18446744073709551616) :
    stoull (decimal n) = some n := by
  obtain ⟨h1, h2, h3⟩ := decimal_spec n
  unfold stoull
  rw [(strto_prefix_digits _ h1 h2).1, h3]
  simp only
  rw [if_neg (by omega)]
  simp

theorem signed_decimal_int (z : Int) :
    ∃ neg, strto_prefix (decimal_int z) = some (neg, z.natAbs) ∧
      signed_value neg z.natAbs = z := by
  obtain ⟨h1, h2, h3⟩ := decimal_spec z.natAbs
  unfold decimal_int
  by_cases hz : z < 0
  · rw [if_pos hz]
    refine ⟨true, by rw [(strto_prefix_digits _ h1 h2).2, h3], ?_⟩
    unfold signed_value
    rw [if_pos rfl]
    omega
  · rw [if_neg hz]
    refine ⟨false, by rw [(strto_prefix_digits _ h1 h2).1, h3], ?_⟩
    unfold signed_value
    rw [if_neg (by decide)]
    omega

theorem stoll_decimal_int (z : Int) (h1 : LLONG_MIN ≤ z) (h2 : z ≤ LLONG_MAX) :
    stoll (decimal_int z) = some z := by
  obtain ⟨neg, h3, h4⟩ := signed_decimal_int z
  unfold stoll
  rw [h3]
  simp only [h4]
  rw [if_pos ⟨h1, h2⟩]

theorem stoi_decimal_int (z : Int) (h1 : INT_MIN ≤ z) (h2 : z ≤ INT_MAX) :
    stoi (decimal_int z) = some z := by
  obtain ⟨neg, h3, h4⟩ := signed_decimal_int z
  unfold stoi
  rw [h3]
  simp only [h4]
  rw [if_pos ⟨h1, h2⟩]

theorem decimal_no_comma (n : Nat) : ',' ∉ decimal n := by
  intro h
  exact (isdigit_not_special _ ((decimal_spec n).2.1 _ h)).1 rfl

theorem decimal_int_no_comma (z : Int) : ',' ∉ decimal_int z := by
  unfold decimal_int
  split
  · intro h
    rcases List.mem_cons.mp h with h | h
    · exact absurd h (by decide)
    · exact decimal_no_comma _ h
  · exact decimal_no_comma _

theorem decimal_int_ne_nil (z : Int) : decimal_int z ≠ [] := by
  unfold decimal_int
  split
  · simp
  · exact (decimal_spec _).1

theorem split_csv_go_field (a rest cur : List Char) (h : ',' ∉ a) :
    split_csv_go (a ++ ',' :: rest) cur = (cur ++ a) :: split_csv_go rest [] := by
  induction a generalizing cur with
  | nil => simp [split_csv_go]
  | cons x xs ih =>
    have hx : x ≠ ',' := fun e => h (by rw [e]; exact List.mem_cons_self _ _)
    have hxs : ',' ∉ xs := fun e => h (List.mem_cons_of_mem _ e)
    rw [List.cons_append, split_csv_go, if_neg hx, ih _ hxs]
    simp

theorem split_csv_go_last (a cur : List Char) (h : ',' ∉ a) (hne : cur ++ a ≠ []) :
    split_csv_go a cur = [cur ++ a] := by
  induction a generalizing cur with
  | nil =>
    rw [List.append_nil] at hne
    rw [split_csv_go, if_neg hne, List.append_nil]
  | cons x xs ih =>
    have hx : x ≠ ',' := fun e => h (by rw [e]; exact List.mem_cons_self _ _)
    have hxs : ',' ∉ xs := fun e => h (List.mem_cons_of_mem _ e)
    rw [split_csv_go, if_neg hx, ih _ hxs (by simp)]
    simp

theorem split_csv_join (fs : List (List Char)) (hc : ∀ f ∈ fs, ',' ∉ f)
    (hl : ∀ l, fs.getLast? = some l → l ≠ []) : split_csv (join_csv fs) = fs := by
  induction fs with
  | nil => rfl
  | cons f rest ih =>
    cases rest with
    | nil =>
      have hf : f ≠ [] := hl f rfl
      rw [join_csv, split_csv, split_csv_go_last f [] (hc f (List.mem_cons_self _ _))
        (by simpa using hf)]
      simp
    | cons g rest2 =>
      rw [join_csv, split_csv, split_csv_go_field f _ [] (hc f (List.mem_cons_self _ _))]
      have := ih (fun x hx => hc x (List.mem_cons_of_mem _ hx))
        (fun l h => hl l (by rw [List.getLast?_cons_cons]; exact h))
      rw [split_csv] at this
      rw [this]
      simp

theorem decode_nil : decode [] = none := by decide

theorem decode_none_iff (fields : List (List Char)) :
    decode fields = none ↔
      (required_fields (fields.getD 0 []) = none ∨
       (∃ n, required_fields (fields.getD 0 []) = some n ∧ fields.length < n) ∨
       numeric_fields_convert fields = false) := by
  unfold decode required_fields numeric_fields_convert
  generalize fields.getD 0 [] = kind
  by_cases hA : kind = ['A', 'D', 'D']
  · subst hA
    by_cases hlen : 6 ≤ fields.length
    · simp only [hlen, and_self, if_true, true_and]
      cases stoull (fields.getD 1 []) <;> cases stoull (fields.getD 3 []) <;>
        cases stoll (fields.getD 4 []) <;> cases stoi (fields.getD 5 []) <;>
          first | (simp; done) | (simp; omega)
    · simp [hlen]
      omega
  · by_cases hM : kind = ['M', 'O', 'D']
    · subst hM
      by_cases hlen : 5 ≤ fields.length
      · simp only [hlen]
        cases stoull (fields.getD 1 []) <;> cases stoull (fields.getD 2 []) <;>
          cases stoll (fields.getD 3 []) <;> cases stoi (fields.getD 4 []) <;>
          first | (simp; done) | (simp; omega)
      · simp [hlen]
        omega
    · by_cases hC : kind = ['C', 'X', 'L']
      · subst hC
        by_cases hlen : 3 ≤ fields.length
        · simp only [hlen]
          cases stoull (fields.getD 1 []) <;> cases stoull (fields.getD 2 []) <;>
          first | (simp; done) | (simp; omega)
        · simp [hlen]
          omega
      · by_cases hT : kind = ['T', 'R', 'D']
        · subst hT
          by_cases hlen : 4 ≤ fields.length
          · simp only [hlen]
            cases stoull (fields.getD 1 []) <;> cases stoull (fields.getD 2 []) <;>
              cases stoi (fields.getD 3 []) <;>
          first | (simp; done) | (simp; omega)
          · simp [hlen]
            omega
        · by_cases hR : kind = ['C', 'L', 'R']
          · subst hR
            by_cases hlen : 2 ≤ fields.length
            · simp only [hlen]
              cases stoull (fields.getD 1 []) <;>
          first | (simp; done) | (simp; omega)
            · simp [hlen]
              omega
          · simp [hA, hM, hC, hT, hR]

theorem parse_stamp_plain (line : List Char) (h : line.head? ≠ some '@') :
    parse_stamp line = some (0, 0) := by
  unfold parse_stamp
  split
  · rename_i r
    exact absurd rfl h
  · rfl

theorem parse_stamp_ok (line : List Char) :
    ∃ t k, parse_stamp line = some (t, k) ∧ k ≤ line.length := by
  by_cases h : line.head? = some '@'
  · cases line with
    | nil => simp at h
    | cons c r =>
      have hc : c = '@' := by simpa using h
      subst hc
      simp only [parse_stamp]
      cases hf : str_find ('@' :: r) ',' 1 with
      | none => exact ⟨0, 0, rfl, Nat.zero_le _⟩
      | some comma =>
        obtain ⟨_, _, _, _, _, _, hlt⟩ := str_find_some _ _ _ _ hf
        have hs : substr ('@' :: r) 1 (comma - 1)
            = some ((('@' :: r).drop 1).take (comma - 1)) := by
          unfold substr
          rw [if_pos (by simp)]
        simp only [hs]
        cases stoull ((('@' :: r).drop 1).take (comma - 1)) with
        | none => exact ⟨0, 0, rfl, Nat.zero_le _⟩
        | some t => exact ⟨t, comma + 1, rfl, hlt⟩
  · exact ⟨0, 0, parse_stamp_plain line h, Nat.zero_le _⟩

theorem handle_line_eq (book : OrderBook) (line : List Char) (t k : Nat)
    (hp : parse_stamp line = some (t, k)) (hk : k ≤ line.length) :
    handle_line book line =
      some (match decode (split_csv (line.drop k)) with
            | none => { book := book, applied := none, send_wall_ns := t }
            | some ev => { book := on_event book ev, applied := some ev, send_wall_ns := t }) := by
  unfold handle_line
  by_cases hl : line = []
  · subst hl
    have : parse_stamp [] = some (0, 0) := rfl
    rw [this] at hp
    injection hp with hp
    injection hp with h1 h2
    subst h1
    subst h2
    simp [split_csv, split_csv_go, decode_nil]
  · rw [if_neg hl, hp]
    simp only [substr_from, if_pos hk]
    by_cases he : split_csv (line.drop k) = []
    · rw [if_pos he, he, decode_nil]
    · rw [if_neg he]
      cases decode (split_csv (line.drop k)) <;> rfl

theorem fields_of_eq (line : List Char) (t k : Nat) (hp : parse_stamp line = some (t, k)) :
    fields_of line = split_csv (line.drop k) := by
  unfold fields_of
  rw [hp]

theorem indexOf_append_cons (c : Char) (a r : List Char) (h : c ∉ a) :
    (a ++ c :: r).indexOf c = a.length := by
  induction a with
  | nil => simp
  | cons x xs ih =>
    have hx : x ≠ c := fun e => h (by rw [e]; exact List.mem_cons_self _ _)
    have hxs : c ∉ xs := fun e => h (List.mem_cons_of_mem _ e)
    rw [List.cons_append, List.indexOf_cons_ne _ hx, ih hxs]
    rfl

theorem parse_stamp_stamped (t : Nat) (line : List Char) (ht : t < 18446744073709551616) :
    parse_stamp (stamped t line) = some (t, (decimal t).length + 2) ∧
    (stamped t line).drop ((decimal t).length + 2) = line ∧
    (decimal t).length + 2 ≤ (stamped t line).length := by
  have hidx := indexOf_append_cons ',' (decimal t) line (decimal_no_comma t)
  have hfind : str_find (stamped t line) ',' 1 = some (1 + (decimal t).length) := by
    unfold str_find stamped
    simp only [List.drop_succ_cons, List.drop_zero, hidx]
    rw [if_pos (by simp)]
  have hsub : substr (stamped t line) 1 (1 + (decimal t).length - 1) = some (decimal t) := by
    unfold substr stamped
    rw [if_pos (by simp)]
    simp
  refine ⟨?_, ?_, ?_⟩
  · simp only [stamped, parse_stamp]
    simp only [stamped] at hfind hsub
    rw [hfind]
    simp only
    rw [hsub]
    simp only
    rw [stoull_decimal t ht]
    simp only [Option.some.injEq, Prod.mk.injEq, true_and]
    omega
  · unfold stamped
    have : (decimal t).length + 2 = ((decimal t).length + 1) + 1 := rfl
    rw [this, List.drop_succ_cons]
    simp
  · unfold stamped
    simp

theorem side_letter_spec (s : Side) :
    (if side_letter s = ['B'] then Side.Bid else Side.Ask) = s ∧ ',' ∉ side_letter s := by
  cases s <;> exact ⟨by decide, by decide⟩

theorem handle_wire_fields (book : OrderBook) (fs : List (List Char)) (ev : MboEvent)
    (hhead : (join_csv fs).head? ≠ some '@') (hc : ∀ f ∈ fs, ',' ∉ f)
    (hl : ∀ l, fs.getLast? = some l → l ≠ []) (hd : decode fs = some ev) :
    handle_line book (join_csv fs)
      = some { book := on_event book ev, applied := some ev, send_wall_ns := 0 } := by
  rw [handle_line_eq book _ 0 0 (parse_stamp_plain _ hhead) (Nat.zero_le _), List.drop_zero,
    split_csv_join fs hc hl, hd]

/-! ## Lemmas on the spread query -/

theorem spread_query_eq (ob : OrderBook) :
    spread_query ob =
      (match (if (ob.bids_.head?.map Prod.fst).getD LLONG_MIN = LLONG_MIN ∨
                (ob.asks_.head?.map Prod.fst).getD LLONG_MAX = LLONG_MAX then some (-1)
              else if LLONG_MIN ≤ (ob.asks_.head?.map Prod.fst).getD LLONG_MAX
                    - (ob.bids_.head?.map Prod.fst).getD LLONG_MIN ∧
                  (ob.asks_.head?.map Prod.fst).getD LLONG_MAX
                    - (ob.bids_.head?.map Prod.fst).getD LLONG_MIN ≤ LLONG_MAX
                then some ((ob.asks_.head?.map Prod.fst).getD LLONG_MAX
                    - (ob.bids_.head?.map Prod.fst).getD LLONG_MIN)
              else (none : Option Int)) with
       | none => none
       | some sp =>
         some { bid := if (ob.bids_.head?.map Prod.fst).getD LLONG_MIN = LLONG_MIN then -1
                       else (ob.bids_.head?.map Prod.fst).getD LLONG_MIN,
                ask := if (ob.asks_.head?.map Prod.fst).getD LLONG_MAX = LLONG_MAX then -1
                       else (ob.asks_.head?.map Prod.fst).getD LLONG_MAX,
                spread := sp }) := by
  unfold spread_query
  simp only [snapshot_bids_eq, snapshot_asks_eq]
  cases hb : ob.bids_ with
  | nil =>
    cases ha : ob.asks_ with
    | nil => rfl
    | cons a ra => rfl
  | cons b rb =>
    cases ha : ob.asks_ with
    | nil => rfl
    | cons a ra => rfl

theorem head_best {V : Type} (lt : Int → Int → Bool) (e : Int × V) (rest : List (Int × V))
    (hm : MapOrdered lt (e :: rest)) : ∀ x ∈ rest, lt e.1 x.1 = true := by
  intro x hx
  exact (List.pairwise_cons.mp hm).1 x hx

/-! ## Lemmas on the batched send loop -/

theorem send_batch_partial_resends (l : List Char) (k : Nat) (hk : 0 < k)
    (hlt : k < l.length) :
    send_batch [l] [1] [k, l.length] 0 [] = some (l.take k ++ l) := by
  have hmin : min k l.length = k := Nat.min_eq_left (Nat.le_of_lt hlt)
  have hk0 : k ≠ 0 := by omega
  have hl0 : l.length ≠ 0 := by omega
  have hnle : ¬ l.length ≤ k := by omega
  simp [send_batch, send_loop, whole_lines, hmin, hk0, hl0, hnle]

theorem send_batch_full_accept (l : List Char) (hl : l ≠ []) :
    send_batch [l] [1] [l.length] 0 [] = some l := by
  have hl0 : l.length ≠ 0 := by
    intro h
    exact hl (List.length_eq_zero.mp h)
  simp [send_batch, send_loop, whole_lines, hl0]

/-! ## Lemmas on the effect of one event -/

theorem decode_add_fields (fields : List (List Char)) (ts oid : Nat) (px qty : Int)
    (hk : fields.getD 0 [] = ['A', 'D', 'D']) (hlen : 6 ≤ fields.length)
    (h1 : stoull (fields.getD 1 []) = some ts) (h3 : stoull (fields.getD 3 []) = some oid)
    (h4 : stoll (fields.getD 4 []) = some px) (h5 : stoi (fields.getD 5 []) = some qty) :
    decode fields
      = some (mk_add ts (if fields.getD 2 [] = ['B'] then Side.Bid else Side.Ask)
          oid px qty) := by
  unfold decode
  simp only [hk, hlen, and_self, if_true, h1, h3, h4, h5]
  rfl

theorem on_event_mk_mod (ob : OrderBook) (ts oid : Nat) (p q : Int) :
    on_event ob (mk_mod ts oid p q) = modify_order ob oid p q := by
  have hp : (if p ≠ 0 then p else (0 : Int)) = p := by
    by_cases h : p = 0
    · simp [h]
    · simp [h]
  have hq : (if q ≠ 0 then q else (0 : Int)) = q := by
    by_cases h : q = 0
    · simp [h]
    · simp [h]
  show modify_order ob oid (if p ≠ 0 then p else 0) (if q ≠ 0 then q else 0)
    = modify_order ob oid p q
  rw [hp, hq]

theorem handle_line_wire_mod (book : OrderBook) (ts oid : Nat) (px qty : Int)
    (hts : ts < 18446744073709551616) (hoid : oid < 18446744073709551616)
    (hpx : LLONG_MIN ≤ px ∧ px ≤ LLONG_MAX) (hqty : INT_MIN ≤ qty ∧ qty ≤ INT_MAX) :
    handle_line book (wire_line (mk_mod ts oid px qty))
      = some { book := modify_order book oid px qty,
               applied := some (mk_mod ts oid px qty), send_wall_ns := 0 } := by
  have h1 := stoull_decimal ts hts
  have h2 := stoull_decimal oid hoid
  have h3 := stoll_decimal_int px hpx.1 hpx.2
  have h4 := stoi_decimal_int qty hqty.1 hqty.2
  rw [← on_event_mk_mod book ts oid px qty]
  apply handle_wire_fields book
    [['M', 'O', 'D'], decimal ts, decimal oid, decimal_int px, decimal_int qty]
  · show some 'M' ≠ some '@'
    decide
  · intro f hf
    simp only [List.mem_cons, List.mem_singleton, List.not_mem_nil, or_false] at hf
    rcases hf with rfl | rfl | rfl | rfl | rfl
    · decide
    · exact decimal_no_comma ts
    · exact decimal_no_comma oid
    · exact decimal_int_no_comma px
    · exact decimal_int_no_comma qty
  · intro l hl
    simp only [List.getLast?_cons_cons, List.getLast?_singleton, Option.some.injEq] at hl
    rw [← hl]
    exact decimal_int_ne_nil qty
  · simp only [decode, List.getD_cons_zero, List.getD_cons_succ, List.length_cons,
      List.length_nil, h1, h2, h3, h4]
    rfl

theorem modify_order_find (ob : OrderBook) (id : Nat) (o : Order) (new_px new_qty : Int)
    (hres : map_find ob.orders_ id = some o) (y : Nat) :
    map_find (modify_order ob id new_px new_qty).orders_ y
      = if y = id then some ⟨new_px, if 0 ≤ new_qty then new_qty else o.qty, o.side⟩
        else map_find ob.orders_ y := by
  obtain ⟨opx, oq, os⟩ := o
  unfold modify_order
  simp only [hres]
  by_cases hy : y = id
  · subst hy
    rw [if_pos rfl]
    by_cases hp : new_px = opx <;> by_cases hq : 0 ≤ new_qty <;> cases os <;>
      simp [hp, hq, map_find_adjust_self, hres]
  · rw [if_neg hy]
    by_cases hp : new_px = opx <;> by_cases hq : 0 ≤ new_qty <;> cases os <;>
      simp [hp, hq, map_find_adjust_ne _ _ _ _ hy]

theorem modify_order_levels (ob : OrderBook) (id : Nat) (o : Order) (new_px new_qty : Int)
    (hres : map_find ob.orders_ id = some o) :
    levels_of (modify_order ob id new_px new_qty)
      = if new_px ≠ o.price then
          Function.update (levels_of ob) o.side
            (level_push (cmp_of o.side)
              (level_remove (cmp_of o.side) (levels_of ob o.side) o.price id) new_px id)
        else levels_of ob := by
  obtain ⟨opx, oq, os⟩ := o
  unfold modify_order
  simp only [hres]
  by_cases hp : new_px = opx
  · subst hp
    by_cases hq : 0 ≤ new_qty
    · simp only [ne_eq, not_true_eq_false, if_false, hq, if_true]
      funext s
      cases s <;> rfl
    · simp only [ne_eq, not_true_eq_false, if_false, hq]
  · by_cases hq : 0 ≤ new_qty
    · simp only [ne_eq, hp, not_false_eq_true, if_true, hq]
      cases os
      · funext s
        cases s <;> simp [levels_of, cmp_of, Function.update]
      · funext s
        cases s <;> simp [levels_of, cmp_of, Function.update]
    · simp only [ne_eq, hp, not_false_eq_true, if_true, hq, if_false]
      cases os
      · funext s
        cases s <;> simp [levels_of, cmp_of, Function.update]
      · funext s
        cases s <;> simp [levels_of, cmp_of, Function.update]

theorem erase_filter_ne (q : List Nat) (x : Nat) :
    (q.erase x).filter (fun y => decide (y ≠ x)) = q.filter (fun y => decide (y ≠ x)) := by
  induction q with
  | nil => rfl
  | cons a rest ih =>
    by_cases ha : a = x
    · subst ha
      simp
    · rw [List.erase_cons_tail (by simpa using ha), List.filter_cons, List.filter_cons, ih]

theorem erase_eq_filter_of_count_one (q : List Nat) (x : Nat) (h : q.count x = 1) :
    q.erase x = q.filter (fun y => decide (y ≠ x)) := by
  have hnot := not_mem_erase_of_count_one q x h
  rw [← erase_filter_ne]
  symm
  rw [List.filter_eq_self]
  intro a ha
  have : a ≠ x := fun e => hnot (e ▸ ha)
  simpa using this

theorem append_filter_ne (q : List Nat) (x : Nat) :
    (q ++ [x]).filter (fun y => decide (y ≠ x)) = q.filter (fun y => decide (y ≠ x)) := by
  simp

theorem filter_level_remove {lt : Int → Int → Bool} (hc : StrictCmp lt)
    (m : List (Int × List Nat)) (hm : MapOrdered lt m) (px px2 : Int) (id : Nat) :
    (level_at (level_remove lt m px id) px2).filter (fun y => decide (y ≠ id))
      = (level_at m px2).filter (fun y => decide (y ≠ id)) := by
  by_cases h : px2 = px
  · subst h
    rw [level_at_remove_self hc m px2 id hm, erase_filter_ne]
  · rw [level_at_remove_ne lt m px px2 id h]

theorem filter_level_push (lt : Int → Int → Bool) (m : List (Int × List Nat))
    (px px2 : Int) (id : Nat) :
    (level_at (level_push lt m px id) px2).filter (fun y => decide (y ≠ id))
      = (level_at m px2).filter (fun y => decide (y ≠ id)) := by
  by_cases h : px2 = px
  · subst h
    rw [level_at_push_self, append_filter_ne]
  · rw [level_at_push_ne lt m px px2 id h]

theorem cancel_frame (ob : OrderBook) (hwf : ob.WF) (id : Nat) :
    (∀ y, y ≠ id → map_find (cancel_order ob id).orders_ y = map_find ob.orders_ y) ∧
    (∀ s px, (level_at (levels_of (cancel_order ob id) s) px).filter
        (fun y => decide (y ≠ id))
      = (level_at (levels_of ob s) px).filter (fun y => decide (y ≠ id))) := by
  cases hres : map_find ob.orders_ id with
  | none =>
    have : cancel_order ob id = ob := by simp [cancel_order, hres]
    rw [this]
    exact ⟨fun _ _ => rfl, fun _ _ => rfl⟩
  | some o =>
    obtain ⟨hlv, hord⟩ := cancel_order_resident ob id o hres
    refine ⟨fun y hy => by rw [hord, map_find_erase_ne _ _ _ hy], ?_⟩
    intro s px
    rw [hlv]
    by_cases hs : s = o.side
    · subst hs
      rw [Function.update_same]
      exact filter_level_remove (strictCmp_cmp_of _) _ (wf_levels ob hwf _) _ _ _
    · rw [Function.update_noteq hs]

theorem modify_frame (ob : OrderBook) (hwf : ob.WF) (id : Nat) (new_px new_qty : Int) :
    (∀ y, y ≠ id →
      map_find (modify_order ob id new_px new_qty).orders_ y = map_find ob.orders_ y) ∧
    (∀ s px, (level_at (levels_of (modify_order ob id new_px new_qty) s) px).filter
        (fun y => decide (y ≠ id))
      = (level_at (levels_of ob s) px).filter (fun y => decide (y ≠ id))) := by
  cases hres : map_find ob.orders_ id with
  | none =>
    have : modify_order ob id new_px new_qty = ob := by simp [modify_order, hres]
    rw [this]
    exact ⟨fun _ _ => rfl, fun _ _ => rfl⟩
  | some o =>
    refine ⟨fun y hy => by rw [modify_order_find ob id o new_px new_qty hres y, if_neg hy], ?_⟩
    intro s px
    rw [modify_order_levels ob id o new_px new_qty hres]
    by_cases hp : new_px = o.price
    · rw [if_neg (by simpa using hp)]
    · rw [if_pos hp]
      by_cases hs : s = o.side
      · subst hs
        rw [Function.update_same, filter_level_push]
        exact filter_level_remove (strictCmp_cmp_of _) _ (wf_levels ob hwf _) _ _ _
      · rw [Function.update_noteq hs]

theorem trade_frame (ob : OrderBook) (hwf : ob.WF) (id : Nat) (fill_qty : Int) :
    (∀ y, y ≠ id → map_find (trade_order ob id fill_qty).orders_ y = map_find ob.orders_ y) ∧
    (∀ s px, (level_at (levels_of (trade_order ob id fill_qty) s) px).filter
        (fun y => decide (y ≠ id))
      = (level_at (levels_of ob s) px).filter (fun y => decide (y ≠ id))) := by
  cases hres : map_find ob.orders_ id with
  | none =>
    have : trade_order ob id fill_qty = ob := by simp [trade_order, hres]
    rw [this]
    exact ⟨fun _ _ => rfl, fun _ _ => rfl⟩
  | some o =>
    have hwf1 := wf_adjust ob hwf id (fun r => { r with qty := r.qty - fill_qty })
    have hc := cancel_frame _ hwf1 id
    have hfind : ∀ y, y ≠ id →
        map_find (map_adjust (fun r : Order => { r with qty := r.qty - fill_qty })
          ob.orders_ id) y = map_find ob.orders_ y :=
      fun y hy => map_find_adjust_ne _ _ _ _ hy
    unfold trade_order
    simp only [hres]
    split
    · refine ⟨fun y hy => by rw [hc.1 y hy]; exact hfind y hy, fun s px => ?_⟩
      rw [hc.2 s px]
      cases s <;> rfl
    · exact ⟨fun y hy => hfind y hy, fun s px => by cases s <;> rfl⟩

theorem map_put_put {K V : Type} [DecidableEq K] (lt : K → K → Bool) (m : List (K × V))
    (k : K) (v w : V) : map_put lt (map_put lt m k v) k w = map_put lt m k w := by
  induction m with
  | nil => simp [map_put]
  | cons e rest ih =>
    obtain ⟨k2, v2⟩ := e
    by_cases h1 : k2 = k
    · simp [map_put, h1]
    · by_cases h2 : lt k k2 = true
      · simp [map_put, h1, h2]
      · simp [map_put, h1, h2, ih]

theorem map_erase_put_new {K V : Type} [DecidableEq K] {lt : K → K → Bool}
    (m : List (K × V)) (k : K) (v : V) (hm : MapOrdered lt m)
    (hnew : map_find m k = none) : map_erase (map_put lt m k v) k = m := by
  induction m with
  | nil => simp [map_put, map_erase]
  | cons e rest ih =>
    obtain ⟨k2, v2⟩ := e
    have h1 : k2 ≠ k := by
      intro h
      simp [map_find, h] at hnew
    have hrest : map_find rest k = none := by
      simpa [map_find, h1] using hnew
    by_cases h2 : lt k k2 = true
    · simp [map_put, map_erase, h1, h2]
    · simp [map_put, map_erase, h1, h2, ih (List.pairwise_cons.mp hm).2 hrest]

theorem map_put_same {K V : Type} [DecidableEq K] {lt : K → K → Bool}
    (hc : StrictCmp lt) (m : List (K × V)) (k : K) (v : V) (hm : MapOrdered lt m)
    (hf : map_find m k = some v) : map_put lt m k v = m := by
  induction m with
  | nil => simp [map_find] at hf
  | cons e rest ih =>
    obtain ⟨k2, v2⟩ := e
    by_cases h1 : k2 = k
    · subst h1
      have : v2 = v := by simpa [map_find] using hf
      subst this
      simp [map_put]
    · have hrest : map_find rest k = some v := by simpa [map_find, h1] using hf
      have hmem := mem_of_map_find rest k v hrest
      have hlt : lt k2 k = true := (List.pairwise_cons.mp hm).1 (k, v) hmem
      have h2 : ¬ lt k k2 = true := by
        intro h
        have := hc.trans k k2 k h hlt
        rw [hc.irrefl] at this
        cases this
      simp [map_put, h1, h2, ih (List.pairwise_cons.mp hm).2 hrest]

theorem erase_append_singleton (q : List Nat) (id : Nat) (h : id ∉ q) :
    (q ++ [id]).erase id = q := by
  induction q with
  | nil => simp
  | cons a rest ih =>
    have ha : a ≠ id := fun e => h (by rw [e]; exact List.mem_cons_self _ _)
    have hr : id ∉ rest := fun e => h (List.mem_cons_of_mem _ e)
    rw [List.cons_append, List.erase_cons_tail (by simpa using ha), ih hr]

theorem level_remove_push {lt : Int → Int → Bool} (hc : StrictCmp lt)
    (m : List (Int × List Nat)) (hm : MapOrdered lt m) (hne : ∀ e ∈ m, e.2 ≠ [])
    (px : Int) (id : Nat) (hid : id ∉ level_at m px) :
    level_remove lt (level_push lt m px id) px id = m := by
  unfold level_remove level_push
  simp only [level_at_put_self, erase_from_queue, erase_append_singleton _ _ hid, map_put_put]
  cases hf : map_find m px with
  | none =>
    have hq : level_at m px = [] := by simp [level_at, hf]
    rw [hq]
    simp only [List.isEmpty_nil, if_true]
    exact map_erase_put_new m px [] hm hf
  | some q =>
    have hq : level_at m px = q := by simp [level_at, hf]
    have hqne : q ≠ [] := hne (px, q) (mem_of_map_find _ _ _ hf)
    rw [hq]
    have : q.isEmpty = false := by
      cases q with
      | nil => exact absurd rfl hqne
      | cons a r => rfl
    simp only [this, Bool.false_eq_true, if_false]
    exact map_put_same hc m px q hm hf

theorem add_then_cancel (ob : OrderBook) (hwf : ob.WF) (hne : NoEmptyLevel ob) (id : Nat)
    (s : Side) (px qty : Int) (hnew : map_find ob.orders_ id = none)
    (hid : id ∉ queue_ids ob) : cancel_order (add_order ob id s px qty) id = ob := by
  have hq : ∀ s2, id ∉ level_at (levels_of ob s2) px := by
    intro s2 h
    exact hid ((mem_queue_ids ob id).mpr ⟨s2, _, mem_level_at _ _ _ h, h⟩)
  have hnes := (noEmptyLevel_iff ob).mp hne
  have hO := map_erase_put_new ob.orders_ id ⟨px, qty, s⟩ hwf.2.2 hnew
  obtain ⟨B, A, O⟩ := ob
  cases s
  · have hL := level_remove_push strictCmp_px_greater B hwf.1 (hnes Side.Bid) px id
      (hq Side.Bid)
    simp only [add_order, cancel_order, map_find_put_self]
    simp only at hO hL
    rw [hO, hL]
  · have hL := level_remove_push strictCmp_px_less A hwf.2.1 (hnes Side.Ask) px id
      (hq Side.Ask)
    simp only [add_order, cancel_order, map_find_put_self]
    simp only at hO hL
    rw [hO, hL]

/-! ## Lemmas on the ranges of the machine integers -/

theorem mem_map_adjust {K V : Type} [DecidableEq K] (f : V → V) (m : List (K × V)) (k : K)
    (e : K × V) (h : e ∈ map_adjust f m k) :
    e ∈ m ∨ ∃ v, map_find m k = some v ∧ e = (k, f v) := by
  induction m with
  | nil => simp [map_adjust] at h
  | cons x rest ih =>
    obtain ⟨k2, v2⟩ := x
    by_cases hk : k2 = k
    · subst hk
      simp only [map_adjust, if_true] at h
      rcases List.mem_cons.mp h with h1 | h1
      · exact Or.inr ⟨v2, by simp [map_find], h1⟩
      · exact Or.inl (List.mem_cons_of_mem _ h1)
    · simp only [map_adjust, hk, if_false] at h
      rcases List.mem_cons.mp h with h1 | h1
      · exact Or.inl (h1 ▸ List.mem_cons_self _ _)
      · rcases ih h1 with h2 | ⟨v, h2, h3⟩
        · exact Or.inl (List.mem_cons_of_mem _ h2)
        · exact Or.inr ⟨v, by simpa [map_find, hk] using h2, h3⟩

theorem qtyInRange_adjust (ob : OrderBook) (h : QtyInRange ob) (id : Nat) (f : Order → Order)
    (hf : ∀ r, (INT_MIN ≤ r.qty ∧ r.qty ≤ INT_MAX) → INT_MIN ≤ (f r).qty ∧ (f r).qty ≤ INT_MAX)
    (B A : List (Int × List Nat)) :
    QtyInRange { bids_ := B, asks_ := A, orders_ := map_adjust f ob.orders_ id } := by
  intro e he
  rcases mem_map_adjust f ob.orders_ id e he with h1 | ⟨v, h1, h2⟩
  · exact h e h1
  · rw [h2]
    exact hf v (h (id, v) (mem_of_map_find _ _ _ h1))

theorem qtyInRange_levels (ob : OrderBook) (h : QtyInRange ob) (B A : List (Int × List Nat)) :
    QtyInRange { bids_ := B, asks_ := A, orders_ := ob.orders_ } := h

theorem qtyInRange_add (ob : OrderBook) (h : QtyInRange ob) (id : Nat) (s : Side)
    (px qty : Int) (hq : INT_MIN ≤ qty ∧ qty ≤ INT_MAX) :
    QtyInRange (add_order ob id s px qty) := by
  have key : ∀ e ∈ map_put id_less ob.orders_ id (⟨px, qty, s⟩ : Order),
      INT_MIN ≤ e.2.qty ∧ e.2.qty ≤ INT_MAX := by
    intro e he
    rcases mem_map_put _ _ _ _ e he with h1 | h1
    · rw [h1]
      exact hq
    · exact h e h1
  cases s <;> exact key

theorem qtyInRange_cancel (ob : OrderBook) (h : QtyInRange ob) (id : Nat) :
    QtyInRange (cancel_order ob id) := by
  cases hres : map_find ob.orders_ id with
  | none =>
    have : cancel_order ob id = ob := by simp [cancel_order, hres]
    rw [this]
    exact h
  | some o =>
    intro e he
    rw [(cancel_order_resident ob id o hres).2] at he
    exact h e (mem_map_erase _ _ e he)

theorem qtyInRange_modify (ob : OrderBook) (h : QtyInRange ob) (id : Nat)
    (new_px new_qty : Int) (hq : INT_MIN ≤ new_qty ∧ new_qty ≤ INT_MAX) :
    QtyInRange (modify_order ob id new_px new_qty) := by
  unfold modify_order
  cases hres : map_find ob.orders_ id with
  | none => exact h
  | some o =>
    have hmove : QtyInRange
        (if new_px ≠ o.price then
          match o.side with
          | Side.Bid =>
            { ob with
              bids_ := level_push px_greater (level_remove px_greater ob.bids_ o.price id) new_px id,
              orders_ := map_adjust (fun r => { r with price := new_px }) ob.orders_ id }
          | Side.Ask =>
            { ob with
              asks_ := level_push px_less (level_remove px_less ob.asks_ o.price id) new_px id,
              orders_ := map_adjust (fun r => { r with price := new_px }) ob.orders_ id }
        else ob) := by
      split
      · obtain ⟨opx, oq, os⟩ := o
        cases os
        · exact qtyInRange_adjust ob h id (fun r => { r with price := new_px })
            (fun r hr => hr) _ _
        · exact qtyInRange_adjust ob h id (fun r => { r with price := new_px })
            (fun r hr => hr) _ _
      · exact h
    simp only
    split
    · exact qtyInRange_adjust _ hmove id (fun r => { r with qty := new_qty })
        (fun r _ => hq) _ _
    · exact hmove

theorem qtyInRange_trade (ob : OrderBook) (h : QtyInRange ob) (id : Nat) (fill_qty : Int)
    (hr : ∀ o, map_find ob.orders_ id = some o →
      INT_MIN ≤ o.qty - fill_qty ∧ o.qty - fill_qty ≤ INT_MAX) :
    QtyInRange (trade_order ob id fill_qty) := by
  unfold trade_order
  cases hres : map_find ob.orders_ id with
  | none => exact h
  | some o =>
    have h1 : QtyInRange
        ⟨ob.bids_, ob.asks_,
          map_adjust (fun r => { r with qty := r.qty - fill_qty }) ob.orders_ id⟩ := by
      intro e he
      rcases mem_map_adjust _ ob.orders_ id e he with h2 | ⟨v, h2, h3⟩
      · exact h e h2
      · rw [h3]
        exact hr v h2
    simp only
    split
    · exact qtyInRange_cancel _ h1 id
    · exact h1

theorem qtyInRange_on_event (ob : OrderBook) (h : QtyInRange ob) (ev : MboEvent)
    (he : event_in_range ev = true) (ht : trade_in_range ob ev = true) :
    QtyInRange (on_event ob ev) := by
  have hr : ev.order_id < 18446744073709551616 ∧
      LLONG_MIN ≤ ev.price ∧ ev.price ≤ LLONG_MAX ∧
      INT_MIN ≤ ev.qty ∧ ev.qty ≤ INT_MAX ∧
      LLONG_MIN ≤ ev.new_price ∧ ev.new_price ≤ LLONG_MAX ∧
      INT_MIN ≤ ev.new_qty ∧ ev.new_qty ≤ INT_MAX ∧
      ev.match_id < 18446744073709551616 ∧ ev.ts_ns < 18446744073709551616 := by
    simpa [event_in_range] using he
  unfold on_event
  cases hk : ev.kind
  · exact qtyInRange_add ob h _ _ _ _ ⟨hr.2.2.2.1, hr.2.2.2.2.1⟩
  · apply qtyInRange_modify ob h
    split
    · exact ⟨hr.2.2.2.2.2.2.2.1, hr.2.2.2.2.2.2.2.2.1⟩
    · exact ⟨hr.2.2.2.1, hr.2.2.2.2.1⟩
  · exact qtyInRange_cancel ob h _
  · apply qtyInRange_trade ob h
    intro o ho
    simpa [trade_in_range, hk, ho] using ht
  · intro e hmem
    simp at hmem

theorem qtyInRange_apply_events (evs : List MboEvent) (ob : OrderBook) (h : QtyInRange ob)
    (hov : no_overflow ob evs = true) : QtyInRange (apply_events ob evs) := by
  induction evs generalizing ob with
  | nil => exact h
  | cons ev rest ih =>
    simp only [no_overflow, Bool.and_eq_true] at hov
    exact ih (on_event ob ev) (qtyInRange_on_event ob h ev hov.1.1 hov.1.2) hov.2

theorem sum_in_range_of_bound (orders : List (Nat × Order))
    (hq : ∀ e ∈ orders, INT_MIN ≤ e.2.qty ∧ e.2.qty ≤ INT_MAX) (q : List Nat) (sum : Int)
    (k : Nat) (hk : k + q.length ≤ 4294967296)
    (hs : -(k : Int) * 2147483648 ≤ sum ∧ sum ≤ (k : Int) * 2147483648) :
    sum_in_range orders q sum = true := by
  induction q generalizing sum k with
  | nil => rfl
  | cons id rest ih =>
    simp only [List.length_cons] at hk
    unfold sum_in_range
    cases hf : map_find orders id with
    | none =>
      simp only
      exact ih sum k (by omega) hs
    | some o =>
      have ho := hq (id, o) (mem_of_map_find _ _ _ hf)
      simp only [INT_MIN, INT_MAX] at ho
      simp only [Bool.and_eq_true, decide_eq_true_eq]
      have hk1 : ((k : Int) + 1) ≤ 4294967296 := by omega
      refine ⟨?_, ih (sum + o.qty) (k + 1) (by omega) ?_⟩
      · simp only [LLONG_MIN, LLONG_MAX]
        constructor <;> nlinarith [hs.1, hs.2, ho.1, ho.2]
      · push_cast
        constructor <;> nlinarith [hs.1, hs.2, ho.1, ho.2]

theorem queue_length_resident (ob : OrderBook) (h : BookCoherent ob) (s : Side)
    (e : Int × List Nat) (he : e ∈ levels_of ob s) :
    e.2.length = resident_count ob s e.1 := by
  have hp := queue_perm_resident ob h s e he
  rw [hp.length_eq, List.length_map]
  rfl

theorem no_overflow_of_adds (evs : List MboEvent)
    (h : ∀ ev ∈ evs, ev.kind = EventKind.Add ∧ event_in_range ev = true) (ob : OrderBook) :
    no_overflow ob evs = true := by
  induction evs generalizing ob with
  | nil => rfl
  | cons ev rest ih =>
    have h1 := h ev (List.mem_cons_self _ _)
    have ht : trade_in_range ob ev = true := by simp [trade_in_range, h1.1]
    simp only [no_overflow, h1.2, ht, Bool.true_and]
    exact ih (fun e he => h e (List.mem_cons_of_mem _ he)) _

theorem adds_at_100_no_overflow (N : Nat) (hN : N ≤ 18446744073709551616) :
    no_overflow OrderBook.empty (adds_at_100 N) = true := by
  apply no_overflow_of_adds
  intro ev hev
  obtain ⟨i, hi, rfl⟩ := List.mem_map.mp hev
  have hi2 := List.mem_range.mp hi
  refine ⟨rfl, ?_⟩
  simp only [event_in_range, mk_add, MboEvent.zero, decide_eq_true_eq]
  refine ⟨by omega, ?_⟩
  decide

/-! ## Lemmas on the spread report and the CSV metrics row -/

theorem spread_query_report (ob : OrderBook) (hwf : ob.WF)
    (hb : ∀ e ∈ ob.bids_, e.1 ≠ LLONG_MIN) (ha : ∀ e ∈ ob.asks_, e.1 ≠ LLONG_MAX)
    (hr : ∀ b ∈ ob.bids_, ∀ a ∈ ob.asks_, LLONG_MIN ≤ a.1 - b.1 ∧ a.1 - b.1 ≤ LLONG_MAX) :
    ∃ r, spread_query ob = some r ∧
      (ob.bids_ = [] → r.bid = -1) ∧
      (ob.bids_ ≠ [] → (∃ e ∈ ob.bids_, e.1 = r.bid) ∧ ∀ e ∈ ob.bids_, e.1 ≤ r.bid) ∧
      (ob.asks_ = [] → r.ask = -1) ∧
      (ob.asks_ ≠ [] → (∃ e ∈ ob.asks_, e.1 = r.ask) ∧ ∀ e ∈ ob.asks_, r.ask ≤ e.1) ∧
      (ob.bids_ = [] ∨ ob.asks_ = [] → r.spread = -1) ∧
      (ob.bids_ ≠ [] → ob.asks_ ≠ [] → r.spread = r.ask - r.bid) := by
  obtain ⟨hmb, hma, _⟩ := hwf
  rw [spread_query_eq]
  cases hbids : ob.bids_ with
  | nil =>
    cases hasks : ob.asks_ with
    | nil =>
      refine ⟨{ bid := -1, ask := -1, spread := -1 }, by simp, ?_⟩
      simp
    | cons a ra =>
      have ha1 : a.1 ≠ LLONG_MAX := ha a (by rw [hasks]; exact List.mem_cons_self _ _)
      have hbest : ∀ x ∈ ra, a.1 < x.1 := by
        intro x hx
        have := head_best px_less a ra (by rw [← hasks]; exact hma) x hx
        simpa [px_less] using this
      refine ⟨{ bid := -1, ask := a.1, spread := -1 }, by simp [ha1], ?_⟩
      refine ⟨fun _ => rfl, fun h => absurd rfl h, fun h => by simp at h, fun _ => ?_,
        fun _ => rfl, fun h _ => absurd rfl h⟩
      refine ⟨⟨a, List.mem_cons_self _ _, rfl⟩, ?_⟩
      intro e he
      rcases List.mem_cons.mp he with rfl | he
      · exact le_refl _
      · exact le_of_lt (hbest e he)
  | cons b rb =>
    have hb1 : b.1 ≠ LLONG_MIN := hb b (by rw [hbids]; exact List.mem_cons_self _ _)
    have hbbest : ∀ x ∈ rb, x.1 < b.1 := by
      intro x hx
      have := head_best px_greater b rb (by rw [← hbids]; exact hmb) x hx
      simpa [px_greater] using this
    have hbfacts : (∃ e ∈ b :: rb, e.1 = b.1) ∧ ∀ e ∈ b :: rb, e.1 ≤ b.1 := by
      refine ⟨⟨b, List.mem_cons_self _ _, rfl⟩, ?_⟩
      intro e he
      rcases List.mem_cons.mp he with rfl | he
      · exact le_refl _
      · exact le_of_lt (hbbest e he)
    cases hasks : ob.asks_ with
    | nil =>
      refine ⟨{ bid := b.1, ask := -1, spread := -1 }, by simp [hb1], ?_⟩
      exact ⟨fun h => by simp at h, fun _ => hbfacts, fun _ => rfl, fun h => absurd rfl h,
        fun _ => rfl, fun _ h => absurd rfl h⟩
    | cons a ra =>
      have ha1 : a.1 ≠ LLONG_MAX := ha a (by rw [hasks]; exact List.mem_cons_self _ _)
      have habest : ∀ x ∈ ra, a.1 < x.1 := by
        intro x hx
        have := head_best px_less a ra (by rw [← hasks]; exact hma) x hx
        simpa [px_less] using this
      have hrange := hr b (by rw [hbids]; exact List.mem_cons_self _ _) a
        (by rw [hasks]; exact List.mem_cons_self _ _)
      refine ⟨{ bid := b.1, ask := a.1, spread := a.1 - b.1 }, by simp [hb1, ha1, hrange], ?_⟩
      refine ⟨fun h => by simp at h, fun _ => hbfacts, fun h => by simp at h, fun _ => ?_,
        fun h => by simp at h, fun _ _ => rfl⟩
      refine ⟨⟨a, List.mem_cons_self _ _, rfl⟩, ?_⟩
      intro e he
      rcases List.mem_cons.mp he with rfl | he
      · exact le_refl _
      · exact le_of_lt (habest e he)

theorem csv_row_of_spread_query (ob : OrderBook) (r : SpreadReport)
    (h : spread_query ob = some r) :
    ∃ c, csv_row ob = some c ∧ c.spread = r.spread ∧
      c.bid_px = (ob.bids_.head?.map Prod.fst).getD LLONG_MIN ∧
      c.ask_px = (ob.asks_.head?.map Prod.fst).getD LLONG_MAX ∧
      r.bid = (if c.bid_px = LLONG_MIN then -1 else c.bid_px) ∧
      r.ask = (if c.ask_px = LLONG_MAX then -1 else c.ask_px) := by
  have hc : csv_row ob =
      (match (if (ob.asks_.head?.map Prod.fst).getD LLONG_MAX = LLONG_MAX ∨
                (ob.bids_.head?.map Prod.fst).getD LLONG_MIN = LLONG_MIN then some (-1)
              else if LLONG_MIN ≤ (ob.asks_.head?.map Prod.fst).getD LLONG_MAX
                    - (ob.bids_.head?.map Prod.fst).getD LLONG_MIN ∧
                  (ob.asks_.head?.map Prod.fst).getD LLONG_MAX
                    - (ob.bids_.head?.map Prod.fst).getD LLONG_MIN ≤ LLONG_MAX
                then some ((ob.asks_.head?.map Prod.fst).getD LLONG_MAX
                    - (ob.bids_.head?.map Prod.fst).getD LLONG_MIN)
              else (none : Option Int)) with
       | none => none
       | some sp =>
         some { bid_px := (ob.bids_.head?.map Prod.fst).getD LLONG_MIN,
                bid_qty := ((snapshot_top_n ob 1).bids.head?.map LevelView.total_qty).getD 0,
                ask_px := (ob.asks_.head?.map Prod.fst).getD LLONG_MAX,
                ask_qty := ((snapshot_top_n ob 1).asks.head?.map LevelView.total_qty).getD 0,
                spread := sp,
                depth_b := ((snapshot_top_n ob 1).bids.head?.map
                  (fun lv => (lv.orders : Int))).getD 0,
                depth_a := ((snapshot_top_n ob 1).asks.head?.map
                  (fun lv => (lv.orders : Int))).getD 0 }) := by
    unfold csv_row
    simp only [snapshot_bids_eq, snapshot_asks_eq]
    cases hb : ob.bids_ with
    | nil =>
      cases ha : ob.asks_ with
      | nil => rfl
      | cons a ra => rfl
    | cons b rb =>
      cases ha : ob.asks_ with
      | nil => rfl
      | cons a ra => rfl
  rw [spread_query_eq] at h
  rw [hc]
  generalize (ob.bids_.head?.map Prod.fst).getD LLONG_MIN = bid at h ⊢
  generalize (ob.asks_.head?.map Prod.fst).getD LLONG_MAX = ask at h ⊢
  by_cases h1 : bid = LLONG_MIN ∨ ask = LLONG_MAX
  · have h1' : ask = LLONG_MAX ∨ bid = LLONG_MIN := h1.symm
    rw [if_pos h1] at h
    rw [if_pos h1']
    simp only [Option.some.injEq] at h
    subst h
    exact ⟨_, rfl, rfl, rfl, rfl, rfl, rfl⟩
  · have h1' : ¬ (ask = LLONG_MAX ∨ bid = LLONG_MIN) := fun x => h1 x.symm
    rw [if_neg h1] at h
    rw [if_neg h1']
    by_cases h2 : LLONG_MIN ≤ ask - bid ∧ ask - bid ≤ LLONG_MAX
    · rw [if_pos h2] at h
      rw [if_pos h2]
      simp only [Option.some.injEq] at h
      subst h
      exact ⟨_, rfl, rfl, rfl, rfl, rfl, rfl⟩
    · rw [if_neg h2] at h
      cases h

/-! ## Lemmas on the rate limiter -/

theorem round53_fixed_shape (x : Nat) (hx : round53 x = x) :
    x < 9007199254740992 ∨
    ∃ q r, x = q * 2 ^ r ∧ 4503599627370496 ≤ q ∧ q < 9007199254740992 := by
  have hs := shift_of_spec x x (le_refl _)
  rcases round53_shape x with ⟨_, h0⟩ | ⟨H, q, rem, hP, hH, hn, hrem, hbig, hc⟩
  · left
    rw [h0] at hs
    simpa using hs.1
  · right
    have hrem0 : rem = 0 := by
      generalize hqH : 2 * H * q = t at hn
      have e1 : q * (2 * H) = t := by rw [← hqH]; ring
      have e2 : (q + 1) * (2 * H) = t + 2 * H := by rw [← hqH]; ring
      rcases hc with ⟨h1, _⟩ | ⟨h1, _⟩
      · rw [hx, e1] at h1; omega
      · rw [hx, e2] at h1; omega
    subst hrem0
    have hxq : x = q * 2 ^ shift_of x x := by rw [hP, hn]; ring
    have hq : x / 2 ^ shift_of x x = q := by
      rw [hP, hn, Nat.add_zero, Nat.mul_div_cancel_left _ (by omega)]
    refine ⟨q, shift_of x x, hxq, ?_, by rw [← hq]; exact hs.1⟩
    have h2 : 9007199254740992 * H ≤ 2 * H * q := by omega
    by_contra hlt
    have hlt2 : q ≤ 4503599627370495 := by omega
    have : 2 * H * q ≤ 2 * H * 4503599627370495 := Nat.mul_le_mul_left _ hlt2
    omega

theorem round53_round53 (n : Nat) : round53 (round53 n) = round53 n := by
  have hs := shift_of_spec n n (le_refl _)
  rcases round53_shape n with ⟨h, _⟩ | ⟨H, q, rem, hP, hH, hn, hrem, hbig, hc⟩
  · rw [h, h]
  · have hq : n / 2 ^ shift_of n n = q := by
      rw [hP, hn, Nat.mul_add_div (by omega), Nat.div_eq_of_lt hrem, Nat.add_zero]
    have hq2 : q < 9007199254740992 := by rw [← hq]; exact hs.1
    rcases hc with ⟨h1, _⟩ | ⟨h1, _⟩
    · rw [h1, ← hP]
      exact round53_exact q _ hq2
    · rw [h1, ← hP]
      by_cases hq3 : q + 1 < 9007199254740992
      · exact round53_exact (q + 1) _ hq3
      · have e : q + 1 = 4503599627370496 * 2 := by omega
        rw [e, Nat.mul_assoc, ← pow_succ']
        exact round53_exact 4503599627370496 _ (by norm_num)

theorem round53_fixed_sub (x k j : Nat) (hx : round53 x = x)
    (hlt : x < 9007199254740992 * 2 ^ j) : round53 (x - k * 2 ^ j) = x - k * 2 ^ j := by
  rcases round53_fixed_shape x hx with h | ⟨q, r, hxq, hq1, hq2⟩
  · exact round53_small _ (by omega)
  · have hr : r ≤ j := by
      by_contra hcon
      have hjr : j + 1 ≤ r := by omega
      have h1 : 2 ^ (j + 1) ≤ 2 ^ r := Nat.pow_le_pow_right (by norm_num) hjr
      have h2 : 4503599627370496 * 2 ^ (j + 1) ≤ q * 2 ^ r := Nat.mul_le_mul hq1 h1
      rw [pow_succ] at h2
      omega
    have e : 2 ^ j = 2 ^ (j - r) * 2 ^ r := by rw [← pow_add]; congr 1; omega
    have e2 : x - k * 2 ^ j = (q - k * 2 ^ (j - r)) * 2 ^ r := by
      rw [hxq, e, Nat.sub_mul, Nat.mul_assoc]
    rw [e2]
    exact round53_exact _ _ (by omega)

theorem shift_of_scale (n j : Nat) (hn : 9007199254740992 ≤ n) :
    shift_of (n * 2 ^ j) (n * 2 ^ j) = shift_of n n + j := by
  have hpos : 0 < 2 ^ j := Nat.pow_pos (by norm_num)
  have hs := shift_of_spec n n (le_refl _)
  have hs2 := (shift_of_spec (n * 2 ^ j) (n * 2 ^ j) (le_refl _)).1
  apply Nat.le_antisymm
  · apply shift_of_le
    rw [pow_add, Nat.mul_div_mul_right _ _ hpos]
    exact hs.1
  · generalize shift_of (n * 2 ^ j) (n * 2 ^ j) = s at hs2
    by_contra hcon
    by_cases hsj : s ≤ j
    · have e : n * 2 ^ j = n * 2 ^ (j - s) * 2 ^ s := by
        rw [Nat.mul_assoc, ← pow_add]; congr 2; omega
      rw [e, Nat.mul_div_cancel _ (Nat.pow_pos (by norm_num))] at hs2
      have h2 : n * 1 ≤ n * 2 ^ (j - s) :=
        Nat.mul_le_mul_left _ (Nat.pow_pos (by norm_num))
      omega
    · have hr : 0 < shift_of n n := by omega
      have e : 2 ^ s = 2 ^ (s - j) * 2 ^ j := by
        rw [← pow_add]; congr 1; omega
      rw [e, Nat.mul_div_mul_right _ _ hpos] at hs2
      have h2 := hs.2 hr
      have h3 : 2 ^ (s - j) ∣ 2 ^ (shift_of n n - 1) := pow_dvd_pow 2 (by omega)
      have h4 : n / 2 ^ (shift_of n n - 1) ≤ n / 2 ^ (s - j) :=
        Nat.div_le_div_left (Nat.le_of_dvd (Nat.pow_pos (by norm_num)) h3)
          (Nat.pow_pos (by norm_num))
      omega

theorem round53_scale (n j : Nat) : round53 (n * 2 ^ j) = round53 n * 2 ^ j := by
  by_cases hsmall : n < 9007199254740992
  · rw [round53_small n hsmall]
    exact round53_exact n j hsmall
  · have hsh := shift_of_scale n j (by omega)
    have hs := shift_of_spec n n (le_refl _)
    have hr : shift_of n n ≠ 0 := by
      intro h0
      rw [h0] at hs
      have := hs.1
      simp at this
      omega
    have hpos : 0 < 2 ^ j := Nat.pow_pos (by norm_num)
    have e1 : n * 2 ^ j / 2 ^ (shift_of n n + j) = n / 2 ^ shift_of n n := by
      rw [pow_add, Nat.mul_div_mul_right _ _ hpos]
    have e2 : n * 2 ^ j % 2 ^ (shift_of n n + j) = n % 2 ^ shift_of n n * 2 ^ j := by
      rw [pow_add, Nat.mul_mod_mul_right]
    have e3 : 2 ^ (shift_of n n + j - 1) = 2 ^ (shift_of n n - 1) * 2 ^ j := by
      rw [← pow_add]; congr 1; omega
    have e4 : ¬ shift_of n n + j = 0 := by omega
    unfold round53
    simp only [hsh, e1, e2, e3, if_neg hr, if_neg e4]
    by_cases hc : 2 ^ (shift_of n n - 1) < n % 2 ^ shift_of n n ∨
        (n % 2 ^ shift_of n n = 2 ^ (shift_of n n - 1) ∧ n / 2 ^ shift_of n n % 2 = 1)
    · have hc2 : 2 ^ (shift_of n n - 1) * 2 ^ j < n % 2 ^ shift_of n n * 2 ^ j ∨
          (n % 2 ^ shift_of n n * 2 ^ j = 2 ^ (shift_of n n - 1) * 2 ^ j ∧
            n / 2 ^ shift_of n n % 2 = 1) := by
        rcases hc with h | ⟨h1, h2⟩
        · exact Or.inl (Nat.mul_lt_mul_of_pos_right h hpos)
        · exact Or.inr ⟨by rw [h1], h2⟩
      rw [if_pos hc, if_pos hc2, pow_add, Nat.mul_assoc]
    · have hc2 : ¬ (2 ^ (shift_of n n - 1) * 2 ^ j < n % 2 ^ shift_of n n * 2 ^ j ∨
          (n % 2 ^ shift_of n n * 2 ^ j = 2 ^ (shift_of n n - 1) * 2 ^ j ∧
            n / 2 ^ shift_of n n % 2 = 1)) := by
        rintro (h | ⟨h1, h2⟩)
        · exact hc (Or.inl (Nat.lt_of_mul_lt_mul_right h))
        · exact hc (Or.inr ⟨Nat.eq_of_mul_eq_mul_right hpos h1, h2⟩)
      rw [if_neg hc, if_neg hc2, pow_add, Nat.mul_assoc]

theorem dbl_unit_eq : DBL_UNIT = 2 ^ 1074 := rfl

theorem dbl_unit_pos : 0 < DBL_UNIT := by
  rw [dbl_unit_eq]
  exact pow_pos (by norm_num) 1074

theorem round53_units (n : Nat) : round53 (n * DBL_UNIT) = round53 n * DBL_UNIT := by
  rw [dbl_unit_eq]
  exact round53_scale n 1074

theorem round53_whole (n : Nat) (h : n < 9007199254740992) :
    round53 (n * DBL_UNIT) = n * DBL_UNIT := by
  rw [dbl_unit_eq]
  exact round53_exact n 1074 h

theorem round53_fixed_sub_units (x k : Nat) (hx : round53 x = x)
    (hlt : x < 9007199254740992 * DBL_UNIT) :
    round53 (x - k * DBL_UNIT) = x - k * DBL_UNIT := by
  rw [dbl_unit_eq] at hlt ⊢
  exact round53_fixed_sub x k 1074 hx hlt

theorem min_mul_units (a b : Nat) : min (a * DBL_UNIT) (b * DBL_UNIT) = min a b * DBL_UNIT := by
  rcases Nat.le_total a b with h | h
  · rw [Nat.min_eq_left h, Nat.min_eq_left (Nat.mul_le_mul_right _ h)]
  · rw [Nat.min_eq_right h, Nat.min_eq_right (Nat.mul_le_mul_right _ h)]

theorem to_double_fixed (n : Nat) : round53 (to_double n) = to_double n := by
  unfold to_double
  rw [round53_units, round53_round53]

theorem to_double_exact (n : Nat) (h : n < 9007199254740992) : to_double n = n * DBL_UNIT := by
  unfold to_double
  rw [round53_small n h]

theorem double_min_eq (a b : Nat) : double_min a b = min a b := by
  unfold double_min
  split
  · omega
  · omega

theorem to_size_t_whole (n : Nat) (h : n < 18446744073709551616) :
    to_size_t (n * DBL_UNIT) = some n := by
  unfold to_size_t
  rw [Nat.mul_div_cancel _ dbl_unit_pos, if_pos h]

theorem grant_whole (t r want max_burst c : Nat)
    (hc : min (round53 max_burst) (round53 (t + r)) = c)
    (h64 : c < 18446744073709551616) (hc0 : c ≠ 0) :
    grant (t * DBL_UNIT) (r * DBL_UNIT) want max_burst =
      some (min want (min c max_burst),
            round53 (c - round53 (min want (min c max_burst))) * DBL_UNIT) := by
  have e1 : double_min (to_double max_burst) (double_add (t * DBL_UNIT) (r * DBL_UNIT))
      = c * DBL_UNIT := by
    rw [double_min_eq]
    unfold double_add to_double
    rw [← Nat.add_mul, round53_units, min_mul_units, hc]
  unfold grant
  simp only [e1, to_size_t_whole _ h64, if_neg hc0]
  unfold double_sub to_double
  rw [← Nat.sub_mul, round53_units]

/-! ## Claims -/

/-- C1 (as stated, refuted): after `Add(Bid,1,100,10)`, `Add(Bid,1,101,10)`, `Cancel(1)` the
bid queue at price 100 still holds order id 1, which is no longer a key of the index. -/
theorem C1_duplicate_add_breaks_consistency :
    ¬ IndexQueueConsistent (apply_events OrderBook.empty
      [mk_add 1 Side.Bid 1 100 10, mk_add 2 Side.Bid 1 101 10, mk_cxl 3 1]) := by
  decide

/-- C1 (amended): for every finite sequence of events in which no Add names an order id
that is resident when the Add is applied and no Trade takes a resident quantity out of the
range of `int32_t` (the subtraction `qty -= fill_qty` does not overflow), in the state
reached from the empty book every order id of a bid or ask queue is a key of the order
index and every key of the index occurs in some level queue; every resident quantity is a
value of `int32_t`. -/
theorem C1_consistent_without_duplicate_add (evs : List MboEvent)
    (hnd : no_dup_add OrderBook.empty evs = true)
    (hov : no_overflow OrderBook.empty evs = true) :
    IndexQueueConsistent (apply_events OrderBook.empty evs) ∧
    QtyInRange (apply_events OrderBook.empty evs) :=
  ⟨indexQueueConsistent_of_coherent _
      (bookCoherent_apply_events evs OrderBook.empty bookCoherent_empty hnd),
    qtyInRange_apply_events evs OrderBook.empty (by decide) hov⟩

/-- C1 witness: a five-event sequence without duplicate Add and without overflow. -/
theorem C1_consistent_without_duplicate_add_witness :
    no_dup_add OrderBook.empty
      [mk_add 1 Side.Bid 1 100 10, mk_add 2 Side.Ask 2 105 15, mk_mod 3 1 101 7,
       mk_trd 4 2 5 Side.Ask, mk_cxl 5 1] = true ∧
    no_overflow OrderBook.empty
      [mk_add 1 Side.Bid 1 100 10, mk_add 2 Side.Ask 2 105 15, mk_mod 3 1 101 7,
       mk_trd 4 2 5 Side.Ask, mk_cxl 5 1] = true ∧
    IndexQueueConsistent (apply_events OrderBook.empty
      [mk_add 1 Side.Bid 1 100 10, mk_add 2 Side.Ask 2 105 15, mk_mod 3 1 101 7,
       mk_trd 4 2 5 Side.Ask, mk_cxl 5 1]) :=
  ⟨by decide, by decide, (C1_consistent_without_duplicate_add _ (by decide) (by decide)).1⟩

/-- C2 (amended): in every state reached from the empty book by events in which no Add names
an id that is resident at that time and no Trade takes a resident quantity out of the range
of `int32_t`, and for every `n`, each LevelView that `snapshot_top_n n` emits for a side has
`orders` equal to the number of resident orders of that side at that price modulo 2^32 (the
field is a `uint32_t`), and `total_qty` equal to the sum of `qty` over those resident orders
whenever the `int64_t` running sum of the loop does not overflow; when fewer than 2^32
orders rest at the price the running sum does not overflow, `total_qty` is that sum and
`orders` is their number.
For `Add(Bid,1,100,10); Add(Ask,2,105,15)` the top-1 snapshot is `bids=[{100,10,1}]`,
`asks=[{105,15,1}]`. -/
theorem C2_level_view_totals (evs : List MboEvent) (hnd : no_dup_add OrderBook.empty evs = true)
    (hov : no_overflow OrderBook.empty evs = true) (n : Nat) :
    (∀ lv ∈ (snapshot_top_n (apply_events OrderBook.empty evs) n).bids,
      lv.orders = resident_count (apply_events OrderBook.empty evs) Side.Bid lv.price
        % 4294967296 ∧
      (sum_in_range (apply_events OrderBook.empty evs).orders_
          (level_at (levels_of (apply_events OrderBook.empty evs) Side.Bid) lv.price) 0 = true →
        lv.total_qty = resident_qty (apply_events OrderBook.empty evs) Side.Bid lv.price) ∧
      (resident_count (apply_events OrderBook.empty evs) Side.Bid lv.price < 4294967296 →
        sum_in_range (apply_events OrderBook.empty evs).orders_
          (level_at (levels_of (apply_events OrderBook.empty evs) Side.Bid) lv.price) 0 = true ∧
        lv.total_qty = resident_qty (apply_events OrderBook.empty evs) Side.Bid lv.price ∧
        lv.orders = resident_count (apply_events OrderBook.empty evs) Side.Bid lv.price)) ∧
    (∀ lv ∈ (snapshot_top_n (apply_events OrderBook.empty evs) n).asks,
      lv.orders = resident_count (apply_events OrderBook.empty evs) Side.Ask lv.price
        % 4294967296 ∧
      (sum_in_range (apply_events OrderBook.empty evs).orders_
          (level_at (levels_of (apply_events OrderBook.empty evs) Side.Ask) lv.price) 0 = true →
        lv.total_qty = resident_qty (apply_events OrderBook.empty evs) Side.Ask lv.price) ∧
      (resident_count (apply_events OrderBook.empty evs) Side.Ask lv.price < 4294967296 →
        sum_in_range (apply_events OrderBook.empty evs).orders_
          (level_at (levels_of (apply_events OrderBook.empty evs) Side.Ask) lv.price) 0 = true ∧
        lv.total_qty = resident_qty (apply_events OrderBook.empty evs) Side.Ask lv.price ∧
        lv.orders = resident_count (apply_events OrderBook.empty evs) Side.Ask lv.price)) ∧
    snapshot_top_n (apply_events OrderBook.empty
      [mk_add 1 Side.Bid 1 100 10, mk_add 2 Side.Ask 2 105 15]) 1
      = ⟨[⟨100, 10, 1⟩], [⟨105, 15, 1⟩]⟩ := by
  have hcoh := bookCoherent_apply_events evs OrderBook.empty bookCoherent_empty hnd
  have hrange := qtyInRange_apply_events evs OrderBook.empty (by decide) hov
  have hwf : (apply_events OrderBook.empty evs).WF :=
    wf_apply_events evs OrderBook.empty (by decide)
  have key : ∀ s, ∀ e ∈ levels_of (apply_events OrderBook.empty evs) s,
      (level_view (apply_events OrderBook.empty evs).orders_ e).orders
        = resident_count (apply_events OrderBook.empty evs) s e.1 % 4294967296 ∧
      (sum_in_range (apply_events OrderBook.empty evs).orders_
          (level_at (levels_of (apply_events OrderBook.empty evs) s)
            (level_view (apply_events OrderBook.empty evs).orders_ e).price) 0 = true →
        (level_view (apply_events OrderBook.empty evs).orders_ e).total_qty
          = resident_qty (apply_events OrderBook.empty evs) s e.1) ∧
      (resident_count (apply_events OrderBook.empty evs) s e.1 < 4294967296 →
        sum_in_range (apply_events OrderBook.empty evs).orders_
          (level_at (levels_of (apply_events OrderBook.empty evs) s)
            (level_view (apply_events OrderBook.empty evs).orders_ e).price) 0 = true ∧
        (level_view (apply_events OrderBook.empty evs).orders_ e).total_qty
          = resident_qty (apply_events OrderBook.empty evs) s e.1 ∧
        (level_view (apply_events OrderBook.empty evs).orders_ e).orders
          = resident_count (apply_events OrderBook.empty evs) s e.1) := by
    intro s e he
    have h1 := level_view_resident _ hcoh s e he
    have hlen := queue_length_resident _ hcoh s e he
    have hq : level_at (levels_of (apply_events OrderBook.empty evs) s) e.1 = e.2 :=
      level_at_of_mem (strictCmp_cmp_of s) _ (wf_levels _ hwf s) e he
    refine ⟨h1.2, fun _ => h1.1,
      fun hlt => ⟨?_, h1.1, by rw [h1.2]; exact Nat.mod_eq_of_lt hlt⟩⟩
    show sum_in_range _ (level_at _ e.1) 0 = true
    rw [hq]
    exact sum_in_range_of_bound _ hrange e.2 0 0 (by omega) (by simp)
  refine ⟨?_, ?_, by decide⟩
  · intro lv hlv
    rw [snapshot_bids_eq] at hlv
    obtain ⟨e, he, rfl⟩ := List.mem_map.mp hlv
    exact key Side.Bid e (List.mem_of_mem_take he)
  · intro lv hlv
    rw [snapshot_asks_eq] at hlv
    obtain ⟨e, he, rfl⟩ := List.mem_map.mp hlv
    exact key Side.Ask e (List.mem_of_mem_take he)

/-- C2 witness: two bids at 100 and one ask at 105, order 3 partly filled. -/
theorem C2_level_view_totals_witness :
    no_dup_add OrderBook.empty
      [mk_add 1 Side.Bid 1 100 10, mk_add 2 Side.Bid 3 100 20, mk_add 3 Side.Ask 2 105 15,
       mk_trd 4 3 5 Side.Bid] = true ∧
    no_overflow OrderBook.empty
      [mk_add 1 Side.Bid 1 100 10, mk_add 2 Side.Bid 3 100 20, mk_add 3 Side.Ask 2 105 15,
       mk_trd 4 3 5 Side.Bid] = true ∧
    ∀ lv ∈ (snapshot_top_n (apply_events OrderBook.empty
      [mk_add 1 Side.Bid 1 100 10, mk_add 2 Side.Bid 3 100 20, mk_add 3 Side.Ask 2 105 15,
       mk_trd 4 3 5 Side.Bid]) 1).bids,
      lv.orders = resident_count (apply_events OrderBook.empty
        [mk_add 1 Side.Bid 1 100 10, mk_add 2 Side.Bid 3 100 20, mk_add 3 Side.Ask 2 105 15,
         mk_trd 4 3 5 Side.Bid]) Side.Bid lv.price % 4294967296 :=
  ⟨by decide, by decide,
    fun lv hlv => ((C2_level_view_totals _ (by decide) (by decide) 1).1 lv hlv).1⟩

/-- C2 (as stated, refuted): after 2^32 Adds of the distinct ids 0 .. 2^32-1 on the bid side
at price 100 (no Add names a resident id, no quantity leaves the range of `int`) the level
holds 2^32 resident orders, and the top-1 snapshot reports `orders = 0` for it. -/
theorem C2_order_count_wraps_at_uint32 :
    no_dup_add OrderBook.empty (adds_at_100 4294967296) = true ∧
    no_overflow OrderBook.empty (adds_at_100 4294967296) = true ∧
    (snapshot_top_n (apply_events OrderBook.empty (adds_at_100 4294967296)) 1).bids.map
      (fun lv => (lv.price, lv.orders)) = [(100, 0)] ∧
    resident_count (apply_events OrderBook.empty (adds_at_100 4294967296)) Side.Bid 100
      = 4294967296 :=
  ⟨(adds_at_100_facts 4294967296 (by omega)).1,
    adds_at_100_no_overflow 4294967296 (by omega),
    (adds_at_100_facts 4294967296 (by omega)).2⟩

/-- C3: for every book state and every `n`, the bids of `snapshot_top_n n` are exactly
`min n (number of bid levels)` entries, their prices are the first prices of the bid map,
strictly decreasing, and every bid level left out has a lower price; the asks are exactly
`min n (number of ask levels)` entries, their prices are the first prices of the ask map,
strictly increasing, and every ask level left out has a higher price. -/
theorem C3_snapshot_best_first (ob : OrderBook) (hwf : ob.WF) (n : Nat) :
    ((snapshot_top_n ob n).bids.length = min n ob.bids_.length ∧
      (snapshot_top_n ob n).bids.map LevelView.price = (ob.bids_.map Prod.fst).take n ∧
      ((snapshot_top_n ob n).bids.map LevelView.price).Pairwise (fun x y => y < x) ∧
      ∀ lv ∈ (snapshot_top_n ob n).bids, ∀ e ∈ ob.bids_.drop n, e.1 < lv.price) ∧
    ((snapshot_top_n ob n).asks.length = min n ob.asks_.length ∧
      (snapshot_top_n ob n).asks.map LevelView.price = (ob.asks_.map Prod.fst).take n ∧
      ((snapshot_top_n ob n).asks.map LevelView.price).Pairwise (fun x y => x < y) ∧
      ∀ lv ∈ (snapshot_top_n ob n).asks, ∀ e ∈ ob.asks_.drop n, lv.price < e.1) := by
  obtain ⟨hb, ha, _⟩ := hwf
  have hb2 := mapOrdered_take_drop px_greater ob.bids_ hb n
  have ha2 := mapOrdered_take_drop px_less ob.asks_ ha n
  rw [snapshot_bids_eq, snapshot_asks_eq, level_view_price, level_view_price]
  refine ⟨⟨by simp [List.length_take], by rw [List.map_take], ?_, ?_⟩,
    ⟨by simp [List.length_take], by rw [List.map_take], ?_, ?_⟩⟩
  · exact hb2.1.imp (fun h => by simpa [px_greater] using h)
  · intro lv hlv e he
    obtain ⟨a, ha1, rfl⟩ := List.mem_map.mp hlv
    simpa [px_greater, level_view] using hb2.2 a ha1 e he
  · exact ha2.1.imp (fun h => by simpa [px_less] using h)
  · intro lv hlv e he
    obtain ⟨a, ha1, rfl⟩ := List.mem_map.mp hlv
    simpa [px_less, level_view] using ha2.2 a ha1 e he

/-- C3 witness: three bid levels and two ask levels, top 2. -/
theorem C3_snapshot_best_first_witness :
    (snapshot_top_n (apply_events OrderBook.empty
        [mk_add 1 Side.Bid 1 100 10, mk_add 2 Side.Bid 2 102 5, mk_add 3 Side.Bid 3 101 7,
         mk_add 4 Side.Ask 4 105 15, mk_add 5 Side.Ask 5 104 1]) 2).bids.map LevelView.price
      = [102, 101] ∧
    (snapshot_top_n (apply_events OrderBook.empty
        [mk_add 1 Side.Bid 1 100 10, mk_add 2 Side.Bid 2 102 5, mk_add 3 Side.Bid 3 101 7,
         mk_add 4 Side.Ask 4 105 15, mk_add 5 Side.Ask 5 104 1]) 2).asks.map LevelView.price
      = [104, 105] :=
  ⟨(C3_snapshot_best_first _ (by decide) 2).1.2.1, (C3_snapshot_best_first _ (by decide) 2).2.2.1⟩

/-- C4: from the empty book, `Add(Bid,a,p,q1)` then `Add(Bid,b,p,q2)` with `a ≠ b` makes the
top-1 bid level `{p, q1+q2, 2}`, and a following `Trade(b, f)` with `0 < f < q2` makes it
`{p, q1+q2-f, 2}`: the order count is unchanged by a partial fill. -/
theorem C4_aggregate_and_trade (a b ts1 ts2 ts3 : Nat) (hit : Side) (p q1 q2 f : Int)
    (hab : a ≠ b) (_hq1 : 0 < q1) (_hq2 : 0 < q2) (_hf : 0 < f) (hfq : f < q2) :
    (snapshot_top_n (apply_events OrderBook.empty
      [mk_add ts1 Side.Bid a p q1, mk_add ts2 Side.Bid b p q2]) 1).bids = [⟨p, q1 + q2, 2⟩] ∧
    (snapshot_top_n (apply_events OrderBook.empty
      [mk_add ts1 Side.Bid a p q1, mk_add ts2 Side.Bid b p q2, mk_trd ts3 b f hit]) 1).bids
      = [⟨p, q1 + q2 - f, 2⟩] := by
  have hba : ¬ b = a := fun h => hab h.symm
  have hnle : ¬ q2 - f ≤ 0 := by omega
  have hnle2 : ¬ q2 ≤ f := by omega
  constructor
  · by_cases hlt : b < a <;>
      simp [snapshot_bids_eq, apply_events, on_event, mk_add, MboEvent.zero,
        add_order, OrderBook.empty, map_put, map_find, level_push, level_at, level_view,
        level_sum, id_less, hab, hba, hlt]
  · by_cases hlt : b < a
    · simp [snapshot_bids_eq, apply_events, on_event, mk_add, mk_trd, MboEvent.zero,
        add_order, trade_order, OrderBook.empty, map_put, map_find, map_adjust, level_push,
        level_at, level_view, level_sum, id_less, hab, hba, hlt, hnle, hnle2]
      omega
    · simp [snapshot_bids_eq, apply_events, on_event, mk_add, mk_trd, MboEvent.zero,
        add_order, trade_order, OrderBook.empty, map_put, map_find, map_adjust, level_push,
        level_at, level_view, level_sum, id_less, hab, hba, hlt, hnle, hnle2]
      omega

/-- C4 witness: the test `AggregateAndTrade`. -/
theorem C4_aggregate_and_trade_witness :
    (snapshot_top_n (apply_events OrderBook.empty
      [mk_add 1 Side.Bid 1 100 10, mk_add 2 Side.Bid 3 100 20]) 1).bids = [⟨100, 30, 2⟩] ∧
    (snapshot_top_n (apply_events OrderBook.empty
      [mk_add 1 Side.Bid 1 100 10, mk_add 2 Side.Bid 3 100 20, mk_trd 3 3 5 Side.Bid]) 1).bids
      = [⟨100, 25, 2⟩] :=
  C4_aggregate_and_trade 1 3 1 2 3 Side.Bid 100 10 20 5 (by decide) (by decide) (by decide)
    (by decide) (by decide)

/-- C5 (as stated, refuted): in the state reached by `Add(Bid,1,100,10)` applied twice,
order 1 is resident with quantity 10 and the index keys are distinct. `Trade(1, 10)`
produces the same book as `Cancel(1)` and the id leaves the index, yet the order is not
fully removed: the id is still held by the queue of the bid level at 100, the level
remains, and the top-1 snapshot shows it as `{100, 0, 1}`. -/
theorem C5_full_fill_leaves_stale_entry :
    (apply_events OrderBook.empty
      [mk_add 1 Side.Bid 1 100 10, mk_add 2 Side.Bid 1 100 10]).WF ∧
    map_find (apply_events OrderBook.empty
      [mk_add 1 Side.Bid 1 100 10, mk_add 2 Side.Bid 1 100 10]).orders_ 1
      = some ⟨100, 10, Side.Bid⟩ ∧
    on_event (apply_events OrderBook.empty
      [mk_add 1 Side.Bid 1 100 10, mk_add 2 Side.Bid 1 100 10]) (mk_trd 3 1 10 Side.Bid)
      = on_event (apply_events OrderBook.empty
        [mk_add 1 Side.Bid 1 100 10, mk_add 2 Side.Bid 1 100 10]) (mk_cxl 3 1) ∧
    1 ∉ index_ids (on_event (apply_events OrderBook.empty
      [mk_add 1 Side.Bid 1 100 10, mk_add 2 Side.Bid 1 100 10]) (mk_trd 3 1 10 Side.Bid)) ∧
    1 ∈ queue_ids (on_event (apply_events OrderBook.empty
      [mk_add 1 Side.Bid 1 100 10, mk_add 2 Side.Bid 1 100 10]) (mk_trd 3 1 10 Side.Bid)) ∧
    (on_event (apply_events OrderBook.empty
      [mk_add 1 Side.Bid 1 100 10, mk_add 2 Side.Bid 1 100 10])
      (mk_trd 3 1 10 Side.Bid)).bids_ = [(100, [1])] ∧
    (snapshot_top_n (on_event (apply_events OrderBook.empty
      [mk_add 1 Side.Bid 1 100 10, mk_add 2 Side.Bid 1 100 10])
      (mk_trd 3 1 10 Side.Bid)) 1).bids = [⟨100, 0, 1⟩] := by
  decide

/-- C5 (amended): in a book state with distinct index keys, for a resident order with
quantity `q > 0`, a Trade with fill `f ≥ q` produces exactly the book state (levels, queues
and index) that a Cancel of the same id produces, and the id is no longer a key of the
index; `on_event` is total, so no error is raised, and for `q` and `f` in the range of
`int` the subtraction `q - f` does not overflow. When each resident id occurs exactly once
in the queue of its own side and price, the id is also absent from the queue of its former
side and price, and, when it occurred in no other queue before, from every level queue. -/
theorem C5_full_fill_equals_cancel (ob : OrderBook) (tr cx : MboEvent) (o : Order)
    (hwf : ob.WF) (htk : tr.kind = EventKind.Trade) (hck : cx.kind = EventKind.Cancel)
    (hid : cx.order_id = tr.order_id) (hres : map_find ob.orders_ tr.order_id = some o)
    (hq : 0 < o.qty) (hf : o.qty ≤ tr.qty) :
    on_event ob tr = on_event ob cx ∧ tr.order_id ∉ index_ids (on_event ob tr) ∧
    (o.qty ≤ INT_MAX → tr.qty ≤ INT_MAX → trade_in_range ob tr = true) ∧
    (OwnQueueOnce ob →
      tr.order_id ∉ level_at (levels_of (on_event ob tr) o.side) o.price ∧
      ((∀ s, ∀ e ∈ levels_of ob s, tr.order_id ∈ e.2 → s = o.side ∧ e.1 = o.price) →
        tr.order_id ∉ queue_ids (on_event ob tr))) := by
  have hle : o.qty - tr.qty ≤ 0 := by omega
  have hev : on_event ob tr = cancel_order ob tr.order_id := by
    obtain ⟨opx, oq, os⟩ := o
    cases os <;>
      simp [on_event, htk, trade_order, hres, hle, cancel_order,
        map_find_adjust_self, map_erase_adjust]
  have hcx : on_event ob cx = cancel_order ob tr.order_id := by simp [on_event, hck, hid]
  obtain ⟨hlv, hord⟩ := cancel_order_resident ob tr.order_id o hres
  have hm := wf_levels ob hwf o.side
  refine ⟨by rw [hev, hcx], ?_, ?_, ?_⟩
  · intro hmem
    obtain ⟨r, hr⟩ := (mem_index_ids _ _).mp hmem
    rw [hev, hord, map_find_erase_self strictCmp_id_less _ _ hwf.2.2] at hr
    cases hr
  · intro h1 h2
    have e1 : INT_MAX = 2147483647 := rfl
    have e2 : INT_MIN = -2147483648 := rfl
    simp only [trade_in_range, htk, hres, decide_eq_true_eq]
    omega
  · intro hown
    have hcount : (level_at (levels_of ob o.side) o.price).count tr.order_id = 1 :=
      hown (tr.order_id, o) (mem_of_map_find _ _ _ hres)
    have hself : level_at (levels_of (on_event ob tr) o.side) o.price =
        (level_at (levels_of ob o.side) o.price).erase tr.order_id := by
      rw [hev, hlv, Function.update_same, level_at_remove_self (strictCmp_cmp_of _) _ _ _ hm]
    refine ⟨?_, ?_⟩
    · rw [hself]
      exact not_mem_erase_of_count_one _ _ hcount
    · intro honly hmem
      obtain ⟨s, e, he, hin⟩ := (mem_queue_ids _ _).mp hmem
      rw [hev, hlv] at he
      by_cases hs : s = o.side
      · subst hs
        rw [Function.update_same] at he
        rcases mem_level_remove (strictCmp_cmp_of _) _ _ _ hm e he with h1 | h1
        · rw [h1] at hin
          exact not_mem_erase_of_count_one _ _ hcount hin
        · exact h1.2 (honly _ e h1.1 hin).2
      · rw [Function.update_noteq hs] at he
        exact hs (honly s e he hin).1

/-- C5 witness: order 3 rests with quantity 20 and is traded for 25. -/
theorem C5_full_fill_equals_cancel_witness :
    on_event (apply_events OrderBook.empty
        [mk_add 1 Side.Bid 1 100 10, mk_add 2 Side.Bid 3 100 20]) (mk_trd 3 3 25 Side.Bid)
      = on_event (apply_events OrderBook.empty
        [mk_add 1 Side.Bid 1 100 10, mk_add 2 Side.Bid 3 100 20]) (mk_cxl 3 3) ∧
    3 ∉ index_ids (on_event (apply_events OrderBook.empty
        [mk_add 1 Side.Bid 1 100 10, mk_add 2 Side.Bid 3 100 20]) (mk_trd 3 3 25 Side.Bid)) ∧
    3 ∉ queue_ids (on_event (apply_events OrderBook.empty
        [mk_add 1 Side.Bid 1 100 10, mk_add 2 Side.Bid 3 100 20]) (mk_trd 3 3 25 Side.Bid)) :=
  have h := C5_full_fill_equals_cancel (apply_events OrderBook.empty
      [mk_add 1 Side.Bid 1 100 10, mk_add 2 Side.Bid 3 100 20])
    (mk_trd 3 3 25 Side.Bid) (mk_cxl 3 3) ⟨100, 20, Side.Bid⟩
    (by decide) rfl rfl rfl (by decide) (by decide) (by decide)
  ⟨h.1, h.2.1, (h.2.2.2 (by decide)).2 (by intro s; cases s <;> decide)⟩

/-- C6: a Modify, Cancel or Trade event whose order id is not a key of the order index
leaves the whole book state (levels, queues, index) unchanged; `on_event` is total, so no
error is raised. -/
theorem C6_unknown_id_is_noop (ob : OrderBook) (ev : MboEvent)
    (hk : ev.kind = EventKind.Modify ∨ ev.kind = EventKind.Cancel ∨ ev.kind = EventKind.Trade)
    (hid : ev.order_id ∉ index_ids ob) : on_event ob ev = ob := by
  have hf := map_find_eq_none_of_not_mem_index ob ev.order_id hid
  rcases hk with hk | hk | hk
  · simp [on_event, hk, modify_order, hf]
  · simp [on_event, hk, cancel_order, hf]
  · simp [on_event, hk, trade_order, hf]

/-- C6 witness: a Trade for the unknown id 9 on a book holding order 1. -/
theorem C6_unknown_id_is_noop_witness :
    on_event (apply_events OrderBook.empty [mk_add 1 Side.Bid 1 100 10]) (mk_trd 2 9 5 Side.Bid)
      = apply_events OrderBook.empty [mk_add 1 Side.Bid 1 100 10] :=
  C6_unknown_id_is_noop _ _ (Or.inr (Or.inr rfl)) (by decide)

/-- C7 (as stated, refuted): in the state reached by `Add(Bid,1,100,10)`, `Add(Bid,1,101,10)`
the only resident id, 1, occurs exactly once in the queue of its own side and price (bid
101), yet after `Cancel(1)` it is still held by a level queue (bid 100). -/
theorem C7_cancel_leaves_stale_entry :
    (apply_events OrderBook.empty
      [mk_add 1 Side.Bid 1 100 10, mk_add 2 Side.Bid 1 101 10]).WF ∧
    OwnQueueOnce (apply_events OrderBook.empty
      [mk_add 1 Side.Bid 1 100 10, mk_add 2 Side.Bid 1 101 10]) ∧
    1 ∈ index_ids (apply_events OrderBook.empty
      [mk_add 1 Side.Bid 1 100 10, mk_add 2 Side.Bid 1 101 10]) ∧
    1 ∈ queue_ids (on_event (apply_events OrderBook.empty
      [mk_add 1 Side.Bid 1 100 10, mk_add 2 Side.Bid 1 101 10]) (mk_cxl 3 1)) := by
  decide

/-- C7 (amended): in a book state in which each resident id occurs exactly once in the queue
of its own side and price, after a Cancel of a resident id the id is absent from the index
and from the queue of its former side and price, and, when it occurred in no other queue
before, from every level queue; the level at its former price still exists if and only if
other orders remained in it; and `Add(Ask,id,p,q)` on the empty book followed by
`Cancel(id)` leaves the ask side of every snapshot empty. -/
theorem C7_cancel_removes_order (ob : OrderBook) (cx : MboEvent) (o : Order) (hwf : ob.WF)
    (hown : OwnQueueOnce ob) (hck : cx.kind = EventKind.Cancel)
    (hres : map_find ob.orders_ cx.order_id = some o) :
    cx.order_id ∉ index_ids (on_event ob cx) ∧
    cx.order_id ∉ level_at (levels_of (on_event ob cx) o.side) o.price ∧
    ((∀ s, ∀ e ∈ levels_of ob s, cx.order_id ∈ e.2 → s = o.side ∧ e.1 = o.price) →
      cx.order_id ∉ queue_ids (on_event ob cx)) ∧
    ((map_find (levels_of (on_event ob cx) o.side) o.price).isSome = true ↔
      (level_at (levels_of ob o.side) o.price).erase cx.order_id ≠ []) ∧
    (∀ (id ts1 ts2 n : Nat) (p q : Int),
      (snapshot_top_n (apply_events OrderBook.empty
        [mk_add ts1 Side.Ask id p q, mk_cxl ts2 id]) n).asks = []) := by
  have hev : on_event ob cx = cancel_order ob cx.order_id := by simp [on_event, hck]
  obtain ⟨hlv, hord⟩ := cancel_order_resident ob cx.order_id o hres
  have hcount : (level_at (levels_of ob o.side) o.price).count cx.order_id = 1 :=
    hown (cx.order_id, o) (mem_of_map_find _ _ _ hres)
  have hm := wf_levels ob hwf o.side
  have hself : level_at (levels_of (on_event ob cx) o.side) o.price =
      (level_at (levels_of ob o.side) o.price).erase cx.order_id := by
    rw [hev, hlv, Function.update_same, level_at_remove_self (strictCmp_cmp_of _) _ _ _ hm]
  refine ⟨?_, ?_, ?_, ?_, ?_⟩
  · intro hmem
    obtain ⟨r, hr⟩ := (mem_index_ids _ _).mp hmem
    rw [hev, hord, map_find_erase_self strictCmp_id_less _ _ hwf.2.2] at hr
    cases hr
  · rw [hself]
    exact not_mem_erase_of_count_one _ _ hcount
  · intro honly hmem
    obtain ⟨s, e, he, hid⟩ := (mem_queue_ids _ _).mp hmem
    rw [hev, hlv] at he
    by_cases hs : s = o.side
    · subst hs
      rw [Function.update_same] at he
      rcases mem_level_remove (strictCmp_cmp_of _) _ _ _ hm e he with h1 | h1
      · rw [h1] at hid
        exact not_mem_erase_of_count_one _ _ hcount hid
      · exact h1.2 (honly _ e h1.1 hid).2
    · rw [Function.update_noteq hs] at he
      exact hs (honly s e he hid).1
  · rw [hev, hlv, Function.update_same]
    exact map_find_level_remove_self (strictCmp_cmp_of _) _ _ _ hm
  · intro id ts1 ts2 n p q
    simp [snapshot_asks_eq, apply_events, on_event, mk_add, mk_cxl, MboEvent.zero, add_order,
      cancel_order, OrderBook.empty, map_put, map_find, map_erase, level_push, level_remove,
      level_at, erase_from_queue]

/-- C7 witness: the test `CancelRemoves` extended by a second ask at the same price. -/
theorem C7_cancel_removes_order_witness :
    2 ∉ index_ids (on_event (apply_events OrderBook.empty
      [mk_add 1 Side.Ask 2 105 15, mk_add 2 Side.Ask 4 105 1]) (mk_cxl 3 2)) ∧
    2 ∉ queue_ids (on_event (apply_events OrderBook.empty
      [mk_add 1 Side.Ask 2 105 15, mk_add 2 Side.Ask 4 105 1]) (mk_cxl 3 2)) :=
  have h := C7_cancel_removes_order (apply_events OrderBook.empty
      [mk_add 1 Side.Ask 2 105 15, mk_add 2 Side.Ask 4 105 1]) (mk_cxl 3 2) ⟨105, 15, Side.Ask⟩
      (by decide) (by decide) rfl (by decide)
  ⟨h.1, h.2.2.1 (by intro s; cases s <;> decide)⟩

/-- C8: after a Clear event the book equals the empty book (no bid levels, no ask levels,
no resident orders), and `snapshot_top_n n` has empty bids and asks for every `n`. -/
theorem C8_clear_resets_book (ob : OrderBook) (ev : MboEvent) (hk : ev.kind = EventKind.Clear) :
    on_event ob ev = OrderBook.empty ∧
    (on_event ob ev).bids_ = [] ∧ (on_event ob ev).asks_ = [] ∧ (on_event ob ev).orders_ = [] ∧
    ∀ n, snapshot_top_n (on_event ob ev) n = ⟨[], []⟩ := by
  have h : on_event ob ev = OrderBook.empty := by simp [on_event, hk, OrderBook.empty]
  rw [h]
  refine ⟨rfl, rfl, rfl, rfl, ?_⟩
  intro n
  simp [snapshot_top_n, OrderBook.empty, snapshot_loop]

/-- C8 witness: the test `ClearBook`. -/
theorem C8_clear_resets_book_witness :
    on_event (apply_events OrderBook.empty
      [mk_add 1 Side.Bid 1 100 10, mk_add 2 Side.Ask 2 105 15]) (mk_clr 3) = OrderBook.empty :=
  (C8_clear_resets_book _ (mk_clr 3) rfl).1

/-- C9: from the empty book, `Add(Bid,id,p,q)` followed by a Modify of `id` with
`new_price = p2 ≠ p` and `new_qty = q2 > 0` (price and qty fields left at 0) gives a full
snapshot whose bids are exactly `[{p2, q2, 1}]`; the only bid level is the one at `p2`, the
level at `p` is gone. -/
theorem C9_modify_moves_level (id ts1 ts2 : Nat) (p p2 q q2 : Int) (hp : p2 ≠ p) (_hq : 0 < q)
    (hq2 : 0 < q2) :
    (snapshot_full (apply_events OrderBook.empty
      [mk_add ts1 Side.Bid id p q, mk_mod ts2 id p2 q2])).bids = [⟨p2, q2, 1⟩] ∧
    (apply_events OrderBook.empty
      [mk_add ts1 Side.Bid id p q, mk_mod ts2 id p2 q2]).bids_ = [(p2, [id])] := by
  have hq2' : q2 ≠ 0 := by omega
  have hq2'' : 0 ≤ q2 := by omega
  have hnp : (if p2 = 0 then (0 : Int) else p2) = p2 := by
    split
    · rename_i h; exact h.symm
    · rfl
  have hpp : ¬ p = p2 := fun h => hp h.symm
  simp [snapshot_full, snapshot_bids_eq, apply_events, on_event, mk_add, mk_mod, MboEvent.zero,
    add_order, modify_order, OrderBook.empty, map_put, map_find, level_push, level_remove,
    level_at, erase_from_queue, map_erase, map_adjust, hq2', hq2'', hnp, hp, hpp,
    level_view, level_sum]

/-- C9 witness: the test `ModifyMovesLevel`. -/
theorem C9_modify_moves_level_witness :
    (snapshot_full (apply_events OrderBook.empty
      [mk_add 1 Side.Bid 1 100 10, mk_mod 2 1 101 10])).bids = [⟨101, 10, 1⟩] :=
  (C9_modify_moves_level 1 1 2 100 101 10 10 (by decide) (by decide) (by decide)).1

/-- C10: in the state reached from the empty book by any finite sequence of events no bid
or ask level has an empty queue, and a level is present under a price exactly when the
queue of that price is non-empty. -/
theorem C10_no_empty_level (evs : List MboEvent) :
    NoEmptyLevel (apply_events OrderBook.empty evs) ∧
    ∀ s px, (map_find (levels_of (apply_events OrderBook.empty evs) s) px).isSome = true ↔
      level_at (levels_of (apply_events OrderBook.empty evs) s) px ≠ [] := by
  have h : NoEmptyLevel (apply_events OrderBook.empty evs) :=
    noEmptyLevel_apply_events evs OrderBook.empty (by intro e he; simp [OrderBook.empty] at he)
  refine ⟨h, ?_⟩
  intro s px
  rw [noEmptyLevel_iff] at h
  unfold level_at
  cases hf : map_find (levels_of (apply_events OrderBook.empty evs) s) px with
  | none => simp
  | some q =>
    have := h s (px, q) (mem_of_map_find _ _ _ hf)
    simpa using this

/-- C11 (as stated, refuted): in the line `CXL,1,5x` the required order-id field `5x` is not
a decimal integer, yet `handle_line` applies `Cancel(5)` and the book changes: `stoull`
converts the leading digits and ignores what follows them. -/
theorem C11_trailing_text_is_accepted :
    is_decimal_integer "5x".toList = false ∧
    handle_line (apply_events OrderBook.empty [mk_add 1 Side.Bid 5 100 10]) "CXL,1,5x".toList
      = some { book := OrderBook.empty, applied := some (mk_cxl 1 5), send_wall_ns := 0 } ∧
    apply_events OrderBook.empty [mk_add 1 Side.Bid 5 100 10] ≠ OrderBook.empty := by
  decide

/-- C11 (amended): for every book and every input line, `handle_line` ends at one of its
`return` statements that drop the line, with the book unchanged, nothing applied and no
exception, exactly when the line (after its optional stamp) has a first field that is not
one of ADD, MOD, CXL, TRD, CLR, or fewer fields than its kind requires, or a required
numeric field that `stoull`, `stoll` or `stoi` does not convert (no digits after optional
white space and sign, or a value out of range); text after the leading digits of a field
does not make the conversion fail. -/
theorem C11_dropped_lines (book : OrderBook) (line : List Char) :
    (required_fields ((fields_of line).getD 0 []) = none ∨
      (∃ n, required_fields ((fields_of line).getD 0 []) = some n ∧
        (fields_of line).length < n) ∨
      numeric_fields_convert (fields_of line) = false) ↔
     ∃ stamp, handle_line book line
       = some { book := book, applied := none, send_wall_ns := stamp } := by
  obtain ⟨t, k, hp, hk⟩ := parse_stamp_ok line
  have he := handle_line_eq book line t k hp hk
  rw [fields_of_eq line t k hp, ← decode_none_iff]
  cases hd : decode (split_csv (line.drop k)) with
  | none =>
    rw [hd] at he
    exact ⟨fun _ => ⟨t, he⟩, fun _ => rfl⟩
  | some ev =>
    rw [hd] at he
    refine ⟨fun h => by simp at h, ?_⟩
    rintro ⟨stamp, hs⟩
    rw [he] at hs
    injection hs with hs
    have := congrArg LineResult.applied hs
    simp at this

/-- C11 witness: the lines `CXL,1` (too few fields), `FOO,1,2` (unknown kind) and
`CXL,1,x5` (no leading digits) are dropped; the book is unchanged. -/
theorem C11_dropped_lines_witness :
    (∃ stamp, handle_line (apply_events OrderBook.empty [mk_add 1 Side.Bid 5 100 10])
        "CXL,1".toList
      = some { book := apply_events OrderBook.empty [mk_add 1 Side.Bid 5 100 10],
               applied := none, send_wall_ns := stamp }) ∧
    (∃ stamp, handle_line (apply_events OrderBook.empty [mk_add 1 Side.Bid 5 100 10])
        "@7,FOO,1,2".toList
      = some { book := apply_events OrderBook.empty [mk_add 1 Side.Bid 5 100 10],
               applied := none, send_wall_ns := stamp }) ∧
    (∃ stamp, handle_line (apply_events OrderBook.empty [mk_add 1 Side.Bid 5 100 10])
        "CXL,1,x5".toList
      = some { book := apply_events OrderBook.empty [mk_add 1 Side.Bid 5 100 10],
               applied := none, send_wall_ns := stamp }) :=
  ⟨(C11_dropped_lines _ "CXL,1".toList).mp (Or.inr (Or.inl ⟨3, by decide, by decide⟩)),
   (C11_dropped_lines _ "@7,FOO,1,2".toList).mp (Or.inl (by decide)),
   (C11_dropped_lines _ "CXL,1,x5".toList).mp (Or.inr (Or.inr (by decide)))⟩

/-- C12: for a time stamp and an order id below 2^64, a price in the range of `long long`
and a quantity in the range of `int`, `handle_line` on the wire line of an Add, Modify,
Cancel, Trade or Clear event (its fields in decimal, in the documented order of its kind)
decodes an event of that kind with exactly those field values (B as Bid, A as Ask, the
fill as `qty`, every field the line does not carry left at zero) and applies it to the
book. -/
theorem C12_decode_wire_line (book : OrderBook) (ts oid : Nat) (side hit : Side)
    (px qty : Int) (hts : ts < 18446744073709551616) (hoid : oid < 18446744073709551616)
    (hpx : LLONG_MIN ≤ px ∧ px ≤ LLONG_MAX) (hqty : INT_MIN ≤ qty ∧ qty ≤ INT_MAX) :
    handle_line book (wire_line (mk_add ts side oid px qty))
      = some { book := on_event book (mk_add ts side oid px qty),
               applied := some (mk_add ts side oid px qty), send_wall_ns := 0 } ∧
    handle_line book (wire_line (mk_mod ts oid px qty))
      = some { book := on_event book (mk_mod ts oid px qty),
               applied := some (mk_mod ts oid px qty), send_wall_ns := 0 } ∧
    handle_line book (wire_line (mk_cxl ts oid))
      = some { book := on_event book (mk_cxl ts oid),
               applied := some (mk_cxl ts oid), send_wall_ns := 0 } ∧
    handle_line book (wire_line (mk_trd ts oid qty hit))
      = some { book := on_event book (mk_trd ts oid qty Side.Bid),
               applied := some (mk_trd ts oid qty Side.Bid), send_wall_ns := 0 } ∧
    handle_line book (wire_line (mk_clr ts))
      = some { book := on_event book (mk_clr ts),
               applied := some (mk_clr ts), send_wall_ns := 0 } := by
  have h1 := stoull_decimal ts hts
  have h2 := stoull_decimal oid hoid
  have h3 := stoll_decimal_int px hpx.1 hpx.2
  have h4 := stoi_decimal_int qty hqty.1 hqty.2
  have c1 := decimal_no_comma ts
  have c2 := decimal_no_comma oid
  have c3 := decimal_int_no_comma px
  have c4 := decimal_int_no_comma qty
  have n1 := (decimal_spec ts).1
  have n2 := (decimal_spec oid).1
  have n4 := decimal_int_ne_nil qty
  have hs := side_letter_spec side
  refine ⟨?_, ?_, ?_, ?_, ?_⟩
  · apply handle_wire_fields book
      [['A', 'D', 'D'], decimal ts, side_letter side, decimal oid, decimal_int px,
       decimal_int qty]
    · show some 'A' ≠ some '@'
      decide
    · intro f hf
      simp only [List.mem_cons, List.mem_singleton, List.not_mem_nil, or_false] at hf
      rcases hf with rfl | rfl | rfl | rfl | rfl | rfl
      · decide
      · exact c1
      · exact hs.2
      · exact c2
      · exact c3
      · exact c4
    · intro l hl
      simp only [List.getLast?_cons_cons, List.getLast?_singleton, Option.some.injEq] at hl
      rw [← hl]
      exact n4
    · simp only [decode, List.getD_cons_zero, List.getD_cons_succ, List.length_cons,
        List.length_nil, h1, h2, h3, h4, hs.1]
      rfl
  · apply handle_wire_fields book
      [['M', 'O', 'D'], decimal ts, decimal oid, decimal_int px, decimal_int qty]
    · show some 'M' ≠ some '@'
      decide
    · intro f hf
      simp only [List.mem_cons, List.mem_singleton, List.not_mem_nil, or_false] at hf
      rcases hf with rfl | rfl | rfl | rfl | rfl
      · decide
      · exact c1
      · exact c2
      · exact c3
      · exact c4
    · intro l hl
      simp only [List.getLast?_cons_cons, List.getLast?_singleton, Option.some.injEq] at hl
      rw [← hl]
      exact n4
    · simp only [decode, List.getD_cons_zero, List.getD_cons_succ, List.length_cons,
        List.length_nil, h1, h2, h3, h4]
      rfl
  · apply handle_wire_fields book [['C', 'X', 'L'], decimal ts, decimal oid]
    · show some 'C' ≠ some '@'
      decide
    · intro f hf
      simp only [List.mem_cons, List.mem_singleton, List.not_mem_nil, or_false] at hf
      rcases hf with rfl | rfl | rfl
      · decide
      · exact c1
      · exact c2
    · intro l hl
      simp only [List.getLast?_cons_cons, List.getLast?_singleton, Option.some.injEq] at hl
      rw [← hl]
      exact n2
    · simp only [decode, List.getD_cons_zero, List.getD_cons_succ, List.length_cons,
        List.length_nil, h1, h2]
      rfl
  · apply handle_wire_fields book [['T', 'R', 'D'], decimal ts, decimal oid, decimal_int qty]
    · show some 'T' ≠ some '@'
      decide
    · intro f hf
      simp only [List.mem_cons, List.mem_singleton, List.not_mem_nil, or_false] at hf
      rcases hf with rfl | rfl | rfl | rfl
      · decide
      · exact c1
      · exact c2
      · exact c4
    · intro l hl
      simp only [List.getLast?_cons_cons, List.getLast?_singleton, Option.some.injEq] at hl
      rw [← hl]
      exact n4
    · simp only [decode, List.getD_cons_zero, List.getD_cons_succ, List.length_cons,
        List.length_nil, h1, h2, h4]
      rfl
  · apply handle_wire_fields book [['C', 'L', 'R'], decimal ts]
    · show some 'C' ≠ some '@'
      decide
    · intro f hf
      simp only [List.mem_cons, List.mem_singleton, List.not_mem_nil, or_false] at hf
      rcases hf with rfl | rfl
      · decide
      · exact c1
    · intro l hl
      simp only [List.getLast?_cons_cons, List.getLast?_singleton, Option.some.injEq] at hl
      rw [← hl]
      exact n1
    · simp only [decode, List.getD_cons_zero, List.getD_cons_succ, List.length_cons,
        List.length_nil, h1]
      rfl

/-- C12 witness: the Add line `ADD,17,A,5,-3,10` and the Trade line `TRD,17,5,10`. -/
theorem C12_decode_wire_line_witness :
    handle_line OrderBook.empty "ADD,17,A,5,-3,10".toList
      = some { book := on_event OrderBook.empty (mk_add 17 Side.Ask 5 (-3) 10),
               applied := some (mk_add 17 Side.Ask 5 (-3) 10), send_wall_ns := 0 } ∧
    handle_line OrderBook.empty "TRD,17,5,10".toList
      = some { book := on_event OrderBook.empty (mk_trd 17 5 10 Side.Bid),
               applied := some (mk_trd 17 5 10 Side.Bid), send_wall_ns := 0 } := by
  have h := C12_decode_wire_line OrderBook.empty 17 5 Side.Ask Side.Ask (-3) 10
    (by decide) (by decide) (by decide) (by decide)
  have e1 : wire_line (mk_add 17 Side.Ask 5 (-3) 10) = "ADD,17,A,5,-3,10".toList := by decide
  have e2 : wire_line (mk_trd 17 5 10 Side.Ask) = "TRD,17,5,10".toList := by decide
  rw [e1, e2] at h
  exact ⟨h.1, h.2.2.2.1⟩

/-- C13: for every line `L` that does not begin with `@` and every stamp `t` below 2^64,
`handle_line` on the stamped line `@` + decimal(t) + `,` + `L` makes the same
accept-or-drop decision, applies the same event and leaves the same book as `handle_line`
on `L`, and the stamp it retains is `t`. -/
theorem C13_stamped_line (book : OrderBook) (L : List Char) (t : Nat)
    (hL : L.head? ≠ some '@') (ht : t < 18446744073709551616) :
    ∃ r, handle_line book L = some r ∧
      handle_line book (stamped t L)
        = some { book := r.book, applied := r.applied, send_wall_ns := t } := by
  obtain ⟨h1, h2, h3⟩ := parse_stamp_stamped t L ht
  have e1 := handle_line_eq book L 0 0 (parse_stamp_plain L hL) (Nat.zero_le _)
  have e2 := handle_line_eq book (stamped t L) t _ h1 h3
  rw [h2] at e2
  rw [List.drop_zero] at e1
  rw [e1, e2]
  cases decode (split_csv L) with
  | none => exact ⟨_, rfl, rfl⟩
  | some ev => exact ⟨_, rfl, rfl⟩

/-- C13 witness: the line `ADD,1,B,5,100,10` with the stamp 1731284001123456789. -/
theorem C13_stamped_line_witness :
    ∃ r, handle_line OrderBook.empty "ADD,1,B,5,100,10".toList = some r ∧
      handle_line OrderBook.empty "@1731284001123456789,ADD,1,B,5,100,10".toList
        = some { book := r.book, applied := r.applied,
                 send_wall_ns := 1731284001123456789 } := by
  have h := C13_stamped_line OrderBook.empty "ADD,1,B,5,100,10".toList 1731284001123456789
    (by decide) (by decide)
  have e : stamped 1731284001123456789 "ADD,1,B,5,100,10".toList
      = "@1731284001123456789,ADD,1,B,5,100,10".toList := by decide
  rw [e] at h
  exact h

/-- C14: for every sequence of non-empty received chunks, the read loop started on an
empty buffer hands to `handle_line` exactly the newline-terminated segments of the
concatenated stream, in order and without their newlines, and leaves the unterminated tail
in the accumulation buffer: the segments with their newlines put back, followed by the
tail, are the stream itself, and neither a segment nor the tail contains a newline. Any
other cutting of the same stream into non-empty chunks gives the same lines and buffer. -/
theorem C14_lines_independent_of_chunking (chunks : List (List Char))
    (hne : ∀ c ∈ chunks, c ≠ []) :
    read_loop [] chunks
      = some (stream_tail chunks.flatten, stream_lines chunks.flatten) ∧
    ((stream_lines chunks.flatten).map (fun l => l ++ ['\n'])).flatten
      ++ stream_tail chunks.flatten = chunks.flatten ∧
    (∀ l ∈ stream_lines chunks.flatten, '\n' ∉ l) ∧
    '\n' ∉ stream_tail chunks.flatten ∧
    ∀ other : List (List Char), (∀ c ∈ other, c ≠ []) → other.flatten = chunks.flatten →
      read_loop [] other = read_loop [] chunks := by
  have h := read_loop_spec chunks [] hne (by simp)
  rw [List.nil_append] at h
  refine ⟨h, ?_, ?_, stream_tail_no_nl _, ?_⟩
  · have := segments_go_rebuild chunks.flatten []
    simpa [stream_lines, stream_tail] using this
  · exact segments_go_lines_no_nl _ [] (by simp)
  · intro other ho he
    have h2 := read_loop_spec other [] ho (by simp)
    rw [List.nil_append] at h2
    rw [h, h2, he]

/-- C14 witness: the stream `ab\ncde\n\nfg` received as `ab\ncd`, `e\n\nf`, `g` gives the
lines `ab`, `cde` and the empty line, and leaves `fg` in the buffer. -/
theorem C14_lines_independent_of_chunking_witness :
    read_loop [] ["ab\ncd".toList, "e\n\nf".toList, "g".toList]
      = some ("fg".toList, ["ab".toList, "cde".toList, []]) ∧
    read_loop [] ["ab\ncde\n\nfg".toList]
      = read_loop [] ["ab\ncd".toList, "e\n\nf".toList, "g".toList] := by
  have h := C14_lines_independent_of_chunking
    ["ab\ncd".toList, "e\n\nf".toList, "g".toList] (by decide)
  refine ⟨?_, h.2.2.2.2 ["ab\ncde\n\nfg".toList] (by decide) (by decide)⟩
  rw [h.1]
  decide

/-- C15 (code at the failing inputs): the sample 4294967303 = 2^32 + 7 increments bin 7 of
either histogram, not the overflow bin (index 5000, resp. 100000), because the `(int)`
conversion keeps the low 32 bits before the clamp is applied; the sample 2147483648 = 2^31
converts to a negative index, which the clamp lets through, so the array access is out of
bounds. -/
theorem C15_cast_precedes_clamp :
    record_latency_us (Histogram.fresh LAT_BINS) 4294967303 =
      some { bins := (Histogram.fresh LAT_BINS).bins.set 7 1, samples := 1,
             sum_us := 4294967303 } ∧
    record_e2e_latency_us (Histogram.fresh E2E_BINS) 4294967303 =
      some { bins := (Histogram.fresh E2E_BINS).bins.set 7 1, samples := 1,
             sum_us := 4294967303 } ∧
    record_latency_us (Histogram.fresh LAT_BINS) 2147483648 = none ∧
    record_e2e_latency_us (Histogram.fresh E2E_BINS) 2147483648 = none :=
  ⟨record_fresh_at LAT_BINS LAT_BIN_US 4294967303 7 (by decide) (by decide) (by decide),
   record_fresh_at E2E_BINS E2E_BIN_US 4294967303 7 (by decide) (by decide) (by decide),
   record_us_negative LAT_BINS LAT_BIN_US _ 2147483648 (by decide),
   record_us_negative E2E_BINS E2E_BIN_US _ 2147483648 (by decide)⟩

/-- C16 (as stated, refuted): after recording 1, 1, 2, 3 into a fresh latency histogram the
report exists and its mean, taken as a rational number, is not 1.75. -/
theorem C16_reported_mean_is_not_1_75 :
    ∃ r, (record_all LAT_BINS LAT_BIN_US (Histogram.fresh LAT_BINS) [1, 1, 2, 3]).bind
        (dump_stats LAT_BINS LAT_BIN_US) = some r ∧ (r.mean : ℚ) ≠ 7 / 4 := by
  refine ⟨{ samples := 4, mean := 1, p50 := 1, p95 := 3, p99 := 3 }, ?_, by norm_num⟩
  rw [fresh_lat_bins, record_1123, Option.some_bind, stats_1123]

/-- C16 (amended): after recording 1, 1, 2, 3 into a fresh latency histogram the reported
mean is 1 and the reported p50 is 1; in general, for samples below 2^31 whose count and sum
fit in 64 bits, the reported mean is the sum of the samples divided by their number in
unsigned integer division (the floor of the arithmetic mean). -/
theorem C16_mean_is_integer_division :
    (record_all LAT_BINS LAT_BIN_US (Histogram.fresh LAT_BINS) [1, 1, 2, 3]).bind
        (dump_stats LAT_BINS LAT_BIN_US)
      = some { samples := 4, mean := 1, p50 := 1, p95 := 3, p99 := 3 } ∧
    ∀ samples : List Nat, samples ≠ [] → (∀ s ∈ samples, s < 2147483648) →
      samples.length < 18446744073709551616 → samples.sum < 18446744073709551616 →
      ∃ h r, record_all LAT_BINS LAT_BIN_US (Histogram.fresh LAT_BINS) samples = some h ∧
        dump_stats LAT_BINS LAT_BIN_US h = some r ∧ r.samples = samples.length ∧
        r.mean = samples.sum / samples.length := by
  constructor
  · rw [fresh_lat_bins, record_1123, Option.some_bind, stats_1123]
  · intro samples hne hs hlen hsum
    obtain ⟨h, h1, _, h3, h4⟩ := record_all_small LAT_BINS samples (Histogram.fresh LAT_BINS)
      (by rw [fresh_length]; omega) hs (by decide) (by decide)
    have e0 : (Histogram.fresh LAT_BINS).samples = 0 := rfl
    have e1 : (Histogram.fresh LAT_BINS).sum_us = 0 := rfl
    rw [e0, Nat.zero_add, Nat.mod_eq_of_lt hlen] at h3
    rw [e1, Nat.zero_add, Nat.mod_eq_of_lt hsum] at h4
    have hpos : h.samples ≠ 0 := by
      rw [h3]; intro h0; exact hne (List.length_eq_zero.mp h0)
    refine ⟨h, _, h1, dump_stats_of_pos _ _ h hpos, h3, ?_⟩
    simp only [h3, h4]

/-- C16 witness: the samples 5 and 6 give the mean 5 = 11 / 2. -/
theorem C16_mean_is_integer_division_witness :
    ∃ h r, record_all LAT_BINS LAT_BIN_US (Histogram.fresh LAT_BINS) [5, 6] = some h ∧
      dump_stats LAT_BINS LAT_BIN_US h = some r ∧ r.samples = [5, 6].length ∧
      r.mean = [5, 6].sum / [5, 6].length :=
  C16_mean_is_integer_division.2 [5, 6] (by decide) (by decide) (by decide) (by decide)

/-- C17 (as stated, refuted): with 2000000000000019 samples, 1900000000000018 of them in
bin 0 and the rest in bin 1, the p95 query returns the lower edge of bin 0, whose cumulative
count 1900000000000018 is below ceil(0.95 x 2000000000000019) = 1900000000000019: the
threshold is computed in binary64, where the product rounds down to 1900000000000018. -/
theorem C17_threshold_is_rounded_in_binary64 :
    (1900000000000018 :: 100000000000001 :: List.replicate 4999 0).length = LAT_BINS + 1 ∧
    (1900000000000018 :: 100000000000001 :: List.replicate 4999 0).sum = 2000000000000019 ∧
    quant LAT_BINS LAT_BIN_US
      ⟨1900000000000018 :: 100000000000001 :: List.replicate 4999 0, 2000000000000019, 0⟩
      P95 = 0 ∧
    cum (1900000000000018 :: 100000000000001 :: List.replicate 4999 0) 0 = 1900000000000018 ∧
    (19 * 2000000000000019 + 19) / 20 = 1900000000000019 := by
  refine ⟨?_, ?_, ?_, ?_, by decide⟩
  · simp only [List.length_cons, List.length_replicate]; decide
  · simp only [List.sum_cons, List.sum_replicate, smul_zero]; decide
  · have hn : quant_need P95 2000000000000019 = 1900000000000018 := by decide
    rw [quant_of_scan LAT_BINS LAT_BIN_US
      ⟨1900000000000018 :: 100000000000001 :: List.replicate 4999 0, 2000000000000019, 0⟩
      P95 1900000000000018 0 hn rfl]
    decide
  · simp only [cum, List.take_succ_cons, List.take_zero, List.sum_cons, List.sum_nil]; decide

/-- C17 (amended): for a histogram that holds at least one sample and whose bin counts add
up to its sample count (below 2^64), each of the p50, p95 and p99 queries finds a bin during
the scan (the fallback return is not reached) and returns the lower edge (index times the
bin width) of the smallest bin whose cumulative count from bin zero is at least the threshold
`(uint64_t)ceil(p * total)` evaluated in binary64; that threshold equals the exact
ceil(p x total) whenever total is below 2^46. -/
theorem C17_quantile_scan (nbins bin_us : Nat) (h : Histogram) (M : Nat)
    (hM : M = P50 ∨ M = P95 ∨ M = P99) (hpos : 0 < h.samples)
    (hsum : h.bins.sum = h.samples) (hlt : h.samples < 18446744073709551616) :
    (∃ i, i < h.bins.length ∧ quant_scan h.bins 0 0 (quant_need M h.samples) = some i ∧
      quant nbins bin_us h M = i * bin_us ∧
      quant_need M h.samples ≤ cum h.bins i ∧
      ∀ j, j < i → cum h.bins j < quant_need M h.samples) ∧
    (h.samples < 70368744177664 →
      quant_need P50 h.samples = (h.samples + 1) / 2 ∧
      quant_need P95 h.samples = (19 * h.samples + 19) / 20 ∧
      quant_need P99 h.samples = (99 * h.samples + 99) / 100) := by
  have hle : quant_need M h.samples ≤ h.samples := by
    rcases hM with rfl | rfl | rfl
    · exact quant_need_le _ _ (by decide)
    · exact quant_need_le _ _ (by decide)
    · exact quant_need_le _ _ (by decide)
  constructor
  · obtain ⟨i, hi, hs, h1, h2⟩ := quant_scan_hist h.bins (quant_need M h.samples)
      (by rw [hsum]; exact hlt) (by rw [hsum]; exact hpos) (by rw [hsum]; exact hle)
    exact ⟨i, hi, hs, quant_of_scan nbins bin_us h M _ i rfl hs, h1, h2⟩
  · intro hsmall
    exact ⟨quant_need_P50 _ hsmall, quant_need_P95 _ hsmall, quant_need_P99 _ hsmall⟩

/-- C17 witness: the histogram with bins 0, 2, 1, 1 (four samples) and the p95 query. -/
theorem C17_quantile_scan_witness :
    (∃ i, i < [0, 2, 1, 1].length ∧
      quant_scan [0, 2, 1, 1] 0 0 (quant_need P95 4) = some i ∧
      quant 3 1 ⟨[0, 2, 1, 1], 4, 7⟩ P95 = i * 1 ∧
      quant_need P95 4 ≤ cum [0, 2, 1, 1] i ∧
      ∀ j, j < i → cum [0, 2, 1, 1] j < quant_need P95 4) ∧
    ((4 : Nat) < 70368744177664 →
      quant_need P50 4 = (4 + 1) / 2 ∧
      quant_need P95 4 = (19 * 4 + 19) / 20 ∧
      quant_need P99 4 = (99 * 4 + 99) / 100) :=
  C17_quantile_scan 3 1 ⟨[0, 2, 1, 1], 4, 7⟩ P95 (Or.inr (Or.inl rfl)) (by decide) (by decide)
    (by decide)

/-- C18 (as stated, refuted): a book whose only bid rests at the price -9223372036854775808
(`LLONG_MIN`, which `stoll` accepts on the wire) has a non-empty bid side, yet the `/spread`
query reports bid -1 and spread -1, because the handler uses that value as its "empty"
sentinel. The CSV metrics row of `maybe_log_csv` on the empty book carries the sentinels
themselves as prices, -9223372036854775808 and 9223372036854775807, not -1. -/
theorem C18_sentinel_price_reported_as_empty :
    (apply_events OrderBook.empty
      [mk_add 1 Side.Bid 1 (-9223372036854775808) 10, mk_add 2 Side.Ask 2 5 1]).bids_
      = [(-9223372036854775808, [1])] ∧
    (apply_events OrderBook.empty
      [mk_add 1 Side.Bid 1 (-9223372036854775808) 10, mk_add 2 Side.Ask 2 5 1]).asks_
      = [(5, [2])] ∧
    spread_query (apply_events OrderBook.empty
      [mk_add 1 Side.Bid 1 (-9223372036854775808) 10, mk_add 2 Side.Ask 2 5 1])
      = some { bid := -1, ask := 5, spread := -1 } ∧
    csv_row OrderBook.empty
      = some { bid_px := -9223372036854775808, bid_qty := 0,
               ask_px := 9223372036854775807, ask_qty := 0,
               spread := -1, depth_b := 0, depth_a := 0 } := by
  decide

/-- C18 (amended): for every well-formed book in which no bid level has the price
`LLONG_MIN`, no ask level has the price `LLONG_MAX`, and the difference of any ask price
and any bid price fits in 64 bits, the `/spread` query returns a report; its bid is -1 when
the bid side is empty and otherwise the highest bid price, its ask is -1 when the ask side
is empty and otherwise the lowest ask price, and its spread is -1 when either side is
empty and otherwise ask minus bid. The CSV metrics row of `maybe_log_csv` is computed too;
its bid price is `LLONG_MIN` when the bid side is empty and otherwise the highest bid
price, its ask price is `LLONG_MAX` when the ask side is empty and otherwise the lowest
ask price, and its spread is the spread of the `/spread` report. -/
theorem C18_spread_query (ob : OrderBook) (hwf : ob.WF)
    (hb : ∀ e ∈ ob.bids_, e.1 ≠ LLONG_MIN) (ha : ∀ e ∈ ob.asks_, e.1 ≠ LLONG_MAX)
    (hr : ∀ b ∈ ob.bids_, ∀ a ∈ ob.asks_, LLONG_MIN ≤ a.1 - b.1 ∧ a.1 - b.1 ≤ LLONG_MAX) :
    (∃ r, spread_query ob = some r ∧
      (ob.bids_ = [] → r.bid = -1) ∧
      (ob.bids_ ≠ [] → (∃ e ∈ ob.bids_, e.1 = r.bid) ∧ ∀ e ∈ ob.bids_, e.1 ≤ r.bid) ∧
      (ob.asks_ = [] → r.ask = -1) ∧
      (ob.asks_ ≠ [] → (∃ e ∈ ob.asks_, e.1 = r.ask) ∧ ∀ e ∈ ob.asks_, r.ask ≤ e.1) ∧
      (ob.bids_ = [] ∨ ob.asks_ = [] → r.spread = -1) ∧
      (ob.bids_ ≠ [] → ob.asks_ ≠ [] → r.spread = r.ask - r.bid)) ∧
    (∃ c, csv_row ob = some c ∧
      (ob.bids_ = [] → c.bid_px = LLONG_MIN) ∧
      (ob.bids_ ≠ [] → (∃ e ∈ ob.bids_, e.1 = c.bid_px) ∧ ∀ e ∈ ob.bids_, e.1 ≤ c.bid_px) ∧
      (ob.asks_ = [] → c.ask_px = LLONG_MAX) ∧
      (ob.asks_ ≠ [] → (∃ e ∈ ob.asks_, e.1 = c.ask_px) ∧ ∀ e ∈ ob.asks_, c.ask_px ≤ e.1) ∧
      (ob.bids_ = [] ∨ ob.asks_ = [] → c.spread = -1) ∧
      (ob.bids_ ≠ [] → ob.asks_ ≠ [] → c.spread = c.ask_px - c.bid_px)) := by
  obtain ⟨r, h0, h1, h2, h3, h4, h5, h6⟩ := spread_query_report ob hwf hb ha hr
  refine ⟨⟨r, h0, h1, h2, h3, h4, h5, h6⟩, ?_⟩
  obtain ⟨c, hc, hsp, hbp, hap, hrb, hra⟩ := csv_row_of_spread_query ob r h0
  have hbne : ob.bids_ ≠ [] → c.bid_px ≠ LLONG_MIN := by
    intro hne
    cases hbids : ob.bids_ with
    | nil => exact absurd hbids hne
    | cons b rb =>
      rw [hbp, hbids]
      exact hb b (by rw [hbids]; exact List.mem_cons_self _ _)
  have hane : ob.asks_ ≠ [] → c.ask_px ≠ LLONG_MAX := by
    intro hne
    cases hasks : ob.asks_ with
    | nil => exact absurd hasks hne
    | cons a ra =>
      rw [hap, hasks]
      exact ha a (by rw [hasks]; exact List.mem_cons_self _ _)
  refine ⟨c, hc, ?_, ?_, ?_, ?_, ?_, ?_⟩
  · intro he; rw [hbp, he]; rfl
  · intro hne
    rw [if_neg (hbne hne)] at hrb
    rw [← hrb]; exact h2 hne
  · intro he; rw [hap, he]; rfl
  · intro hne
    rw [if_neg (hane hne)] at hra
    rw [← hra]; exact h4 hne
  · intro he; rw [hsp]; exact h5 he
  · intro hb1 ha1
    rw [if_neg (hbne hb1)] at hrb
    rw [if_neg (hane ha1)] at hra
    rw [hsp, h6 hb1 ha1, hrb, hra]

/-- C18 witness: bids at 100 and 99, asks at 103 and 105: bid 100, ask 103, spread 3. -/
theorem C18_spread_query_witness :
    ∃ r, spread_query (apply_events OrderBook.empty
        [mk_add 1 Side.Bid 1 99 10, mk_add 2 Side.Bid 2 100 5,
         mk_add 3 Side.Ask 3 105 7, mk_add 4 Side.Ask 4 103 2]) = some r ∧
      r.bid = 100 ∧ r.ask = 103 ∧ r.spread = 3 := by
  obtain ⟨⟨r, h1, _⟩, _⟩ := C18_spread_query (apply_events OrderBook.empty
        [mk_add 1 Side.Bid 1 99 10, mk_add 2 Side.Bid 2 100 5,
         mk_add 3 Side.Ask 3 105 7, mk_add 4 Side.Ask 4 103 2])
      (by decide) (by decide) (by decide) (by decide)
  refine ⟨r, h1, ?_⟩
  have e : spread_query (apply_events OrderBook.empty
        [mk_add 1 Side.Bid 1 99 10, mk_add 2 Side.Bid 2 100 5,
         mk_add 3 Side.Ask 3 105 7, mk_add 4 Side.Ask 4 103 2])
      = some { bid := 100, ask := 103, spread := 3 } := by decide
  rw [e] at h1
  injection h1 with h1
  subst h1
  exact ⟨rfl, rfl, rfl⟩

/-- C19 (code at the failing input): for the batch of the one line `@1,A\n`, granted at
once, and a transport that accepts 3 bytes at the first send and all it is offered at the
second, the bytes accepted when the loop finishes are `@1,@1,A\n`, not the line: the first
three bytes are sent twice, because every iteration prepares the vector anew from the
start of the first line not yet sent completely. A transport that accepts all 5 bytes at
once receives exactly the line. On the `sendmmsg_batch` path the same partial send either
ends the loop with only `@1,` accepted (the partly sent message is reported as sent) or
sends the three bytes twice (it is not). -/
theorem C19_partial_send_resends_line :
    send_batch ["@1,A\n".toList] [1] [3, 5] 0 [] = some "@1,@1,A\n".toList ∧
    send_batch ["@1,A\n".toList] [1] [5] 0 [] = some "@1,A\n".toList ∧
    send_batch ["@1,A\n".toList, "@2,B\n".toList] [2] [7, 5] 0 []
      = some "@1,A\n@2@2,B\n".toList ∧
    send_loop_mmsg ["@1,A\n".toList] 0 1 [(3, 1)] 0 [] = some (1, [], "@1,".toList) ∧
    send_loop_mmsg ["@1,A\n".toList] 0 1 [(3, 0), (5, 1)] 0 []
      = some (1, [], "@1,@1,A\n".toList) := by
  decide

/-- C20 (as stated, refuted): with `max_burst = 2^53 + 2`, an empty balance and an accrual
of `2^53 + 2` tokens, `grant(1)` returns 1 and leaves the balance at `2^53`: the balance
after the accrual was `2^53 + 2`, so it is lowered by 2, not by the 1 returned, because the
difference `2^53 + 1` is not a binary64 value. With `max_burst = 2^53 + 3` and an accrual of
`2^53 + 4` tokens, `grant(0)` leaves the balance at `2^53 + 4`, above `max_burst`: the bound
is `max_burst` converted to binary64. -/
theorem C20_debit_and_cap_are_rounded :
    grant 0 (9007199254740994 * DBL_UNIT) 1 9007199254740994
      = some (1, 9007199254740992 * DBL_UNIT) ∧
    grant 0 (9007199254740996 * DBL_UNIT) 0 9007199254740995
      = some (0, 9007199254740996 * DBL_UNIT) ∧
    9007199254740995 * DBL_UNIT < 9007199254740996 * DBL_UNIT := by
  have h1 := grant_whole 0 9007199254740994 1 9007199254740994 9007199254740994
    (by decide) (by decide) (by decide)
  have h2 := grant_whole 0 9007199254740996 0 9007199254740995 9007199254740996
    (by decide) (by decide) (by decide)
  have e1 : min 1 (min 9007199254740994 9007199254740994) = 1 := by decide
  have e2 : round53 (9007199254740994 - round53 1) = 9007199254740992 := by decide
  have e3 : min 0 (min 9007199254740996 9007199254740995) = 0 := by decide
  have e4 : round53 (9007199254740996 - round53 0) = 9007199254740996 := by decide
  rw [Nat.zero_mul, e1, e2] at h1
  rw [Nat.zero_mul, e3, e4] at h2
  exact ⟨h1, h2, Nat.mul_lt_mul_of_pos_right (by norm_num) dbl_unit_pos⟩

/-- C20 (amended): for every balance, every accrual (the binary64 value of the elapsed
time times the rate), every `want` and every `max_burst` below 2^53, `grant` returns; the
balance after the accrual is the smaller of `max_burst` and the binary64 sum of balance and
accrual; the number returned is `min(want, floor(balance), max_burst)` of that balance; the
new balance is that balance lowered by exactly the number returned, and it is again a
binary64 value; hence the number returned is at most `want` and at most `max_burst`, and
the new balance lies between 0 and `max_burst`. -/
theorem C20_grant_bounds (tokens refill want max_burst : Nat)
    (hmb : max_burst < 9007199254740992) :
    ∃ take bal, grant tokens refill want max_burst = some (take, bal) ∧
      take = min want
        (min (min (max_burst * DBL_UNIT) (round53 (tokens + refill)) / DBL_UNIT) max_burst) ∧
      bal + take * DBL_UNIT = min (max_burst * DBL_UNIT) (round53 (tokens + refill)) ∧
      round53 bal = bal ∧
      take ≤ want ∧ take ≤ max_burst ∧ bal ≤ max_burst * DBL_UNIT := by
  have hU := dbl_unit_pos
  have e1 : double_min (to_double max_burst) (double_add tokens refill)
      = min (max_burst * DBL_UNIT) (round53 (tokens + refill)) := by
    rw [double_min_eq, to_double_exact _ hmb]
    rfl
  generalize ht : min (max_burst * DBL_UNIT) (round53 (tokens + refill)) = t1 at e1
  have hle : t1 ≤ max_burst * DBL_UNIT := by rw [← ht]; exact Nat.min_le_left _ _
  have hfix : round53 t1 = t1 := by
    rw [← ht]
    rcases Nat.le_total (max_burst * DBL_UNIT) (round53 (tokens + refill)) with h | h
    · rw [Nat.min_eq_left h]; exact round53_whole _ hmb
    · rw [Nat.min_eq_right h]; exact round53_round53 _
  have hcan : t1 / DBL_UNIT ≤ max_burst :=
    Nat.div_le_of_le_mul (by rw [Nat.mul_comm]; exact hle)
  have h64 : t1 / DBL_UNIT < 18446744073709551616 := by omega
  have hsz : to_size_t t1 = some (t1 / DBL_UNIT) := by
    unfold to_size_t
    rw [if_pos h64]
  unfold grant
  simp only [e1, hsz]
  by_cases hc0 : t1 / DBL_UNIT = 0
  · rw [if_pos hc0]
    refine ⟨0, t1, rfl, ?_, by simp, hfix, Nat.zero_le _, Nat.zero_le _, hle⟩
    rw [hc0]; simp
  · rw [if_neg hc0]
    generalize hk : min want (min (t1 / DBL_UNIT) max_burst) = k
    have hk1 : k ≤ want := by rw [← hk]; exact Nat.min_le_left _ _
    have hk2 : k ≤ t1 / DBL_UNIT := by
      rw [← hk]; exact le_trans (Nat.min_le_right _ _) (Nat.min_le_left _ _)
    have hk3 : k ≤ max_burst := le_trans hk2 hcan
    have hk4 : k * DBL_UNIT ≤ t1 := by
      have := Nat.mul_le_mul_right DBL_UNIT hk2
      exact le_trans this (Nat.div_mul_le_self _ _)
    have hsub : double_sub t1 (to_double k) = t1 - k * DBL_UNIT := by
      unfold double_sub
      rw [to_double_exact k (by omega)]
      exact round53_fixed_sub_units t1 k hfix
        (lt_of_le_of_lt hle (Nat.mul_lt_mul_of_pos_right hmb hU))
    refine ⟨k, t1 - k * DBL_UNIT, by rw [hsub], rfl, by omega, ?_, hk1, hk3, by omega⟩
    rw [← hsub]
    unfold double_sub
    exact round53_round53 _

/-- C20 witness: a balance of 0.75 tokens, an accrual of 1000 tokens, `want = 7` and
`max_burst = 1024`. -/
theorem C20_grant_bounds_witness :
    ∃ take bal, grant (3 * 2 ^ 1072) (1000 * DBL_UNIT) 7 1024 = some (take, bal) ∧
      take ≤ 7 ∧ take ≤ 1024 ∧ bal ≤ 1024 * DBL_UNIT := by
  obtain ⟨take, bal, h, _, _, _, h1, h2, h3⟩ :=
    C20_grant_bounds (3 * 2 ^ 1072) (1000 * DBL_UNIT) 7 1024 (by decide)
  exact ⟨take, bal, h, h1, h2, h3⟩

/-- C21 (as stated, refuted): on the book holding order 5 (Bid, price 100, quantity 10), the
line `MOD,2,5,101,0` leaves the order with quantity 0, not 10, and the line `MOD,2,5,0,7`
leaves it at price 0 in a level at price 0, not at 100: a zero field makes `on_event` take
the event's `qty` or `price` instead, and the decoder leaves those at zero. -/
theorem C21_zero_field_is_applied_as_zero :
    map_find (apply_events OrderBook.empty [mk_add 1 Side.Bid 5 100 10]).orders_ 5
      = some ⟨100, 10, Side.Bid⟩ ∧
    (handle_line (apply_events OrderBook.empty [mk_add 1 Side.Bid 5 100 10])
        "MOD,2,5,101,0".toList).map (fun r => (r.book.bids_, map_find r.book.orders_ 5))
      = some ([(101, [5])], some ⟨101, 0, Side.Bid⟩) ∧
    (handle_line (apply_events OrderBook.empty [mk_add 1 Side.Bid 5 100 10])
        "MOD,2,5,0,7".toList).map (fun r => (r.book.bids_, map_find r.book.orders_ 5))
      = some ([(0, [5])], some ⟨0, 7, Side.Bid⟩) := by
  decide

/-- C21 (amended): for every book state with a resident order id, handling the line
`MOD,<ts>,<id>,<p>,<q>` applies `modify_order(id, p, q)` whatever the values of `p` and
`q` (in range), zero included: the resident order keeps its side, its price becomes `p`
and its quantity becomes `q` when `q` is not negative (a negative `q` leaves the quantity
unchanged); when `p` differs from the old price the id is appended to the queue at `p`.
So `MOD,<ts>,<id>,<p>,0` sets the quantity to 0 and `MOD,<ts>,<id>,0,<q>` moves the order
to price 0. -/
theorem C21_modify_line_applies_its_fields (book : OrderBook) (ts id : Nat) (p q : Int)
    (o : Order) (hres : map_find book.orders_ id = some o)
    (hts : ts < 18446744073709551616) (hid : id < 18446744073709551616)
    (hp : LLONG_MIN ≤ p ∧ p ≤ LLONG_MAX) (hq : INT_MIN ≤ q ∧ q ≤ INT_MAX) :
    handle_line book (wire_line (mk_mod ts id p q))
      = some { book := modify_order book id p q, applied := some (mk_mod ts id p q),
               send_wall_ns := 0 } ∧
    map_find (modify_order book id p q).orders_ id
      = some ⟨p, if 0 ≤ q then q else o.qty, o.side⟩ ∧
    (p ≠ o.price →
      level_at (levels_of (modify_order book id p q) o.side) p
        = level_at (levels_of book o.side) p ++ [id]) := by
  refine ⟨handle_line_wire_mod book ts id p q hts hid hp hq, ?_, ?_⟩
  · rw [modify_order_find book id o p q hres id, if_pos rfl]
  · intro hne
    rw [modify_order_levels book id o p q hres, if_pos hne, Function.update_same,
      level_at_push_self, level_at_remove_ne _ _ _ _ _ hne]

/-- C21 witness: order 5 (Bid, 100, 10) and the line `MOD,2,5,0,0`. -/
theorem C21_modify_line_applies_its_fields_witness :
    map_find (modify_order (apply_events OrderBook.empty [mk_add 1 Side.Bid 5 100 10])
        5 0 0).orders_ 5 = some ⟨0, 0, Side.Bid⟩ :=
  (C21_modify_line_applies_its_fields (apply_events OrderBook.empty
      [mk_add 1 Side.Bid 5 100 10]) 2 5 0 0 ⟨100, 10, Side.Bid⟩ (by decide) (by decide)
      (by decide) (by decide) (by decide)).2.1

/-- C22: for every book whose two level maps hold fewer than 2^64 levels (the range of
`size_t`) and every `n`, the bids of `snapshot_top_n(n)` are the first `min(n, length)`
bid levels of `snapshot_full()` and its asks the first `min(n, length)` ask levels, and
`snapshot_full()` holds exactly one entry for every level of the book, in map order. -/
theorem C22_top_n_is_prefix_of_full (ob : OrderBook) (n : Nat)
    (hb : ob.bids_.length < 18446744073709551616)
    (ha : ob.asks_.length < 18446744073709551616) :
    (snapshot_top_n ob n).bids = (snapshot_full ob).bids.take n ∧
    (snapshot_top_n ob n).bids.length = min n (snapshot_full ob).bids.length ∧
    (snapshot_top_n ob n).asks = (snapshot_full ob).asks.take n ∧
    (snapshot_top_n ob n).asks.length = min n (snapshot_full ob).asks.length ∧
    (snapshot_full ob).bids = ob.bids_.map (level_view ob.orders_) ∧
    (snapshot_full ob).asks = ob.asks_.map (level_view ob.orders_) ∧
    (snapshot_full ob).bids.length = ob.bids_.length ∧
    (snapshot_full ob).asks.length = ob.asks_.length := by
  have fb : (snapshot_full ob).bids = ob.bids_.map (level_view ob.orders_) := by
    rw [snapshot_full, snapshot_bids_eq, List.take_of_length_le (by omega)]
  have fa : (snapshot_full ob).asks = ob.asks_.map (level_view ob.orders_) := by
    rw [snapshot_full, snapshot_asks_eq, List.take_of_length_le (by omega)]
  rw [fb, fa, snapshot_bids_eq, snapshot_asks_eq]
  refine ⟨List.map_take _ _ _, ?_, List.map_take _ _ _, ?_, rfl, rfl, ?_, ?_⟩
  · simp [List.length_take]
  · simp [List.length_take]
  · simp
  · simp

/-- C22 witness: three bid levels and two ask levels, top 2. -/
theorem C22_top_n_is_prefix_of_full_witness :
    (snapshot_top_n (apply_events OrderBook.empty
        [mk_add 1 Side.Bid 1 100 10, mk_add 2 Side.Bid 2 102 5, mk_add 3 Side.Bid 3 101 7,
         mk_add 4 Side.Ask 4 105 15, mk_add 5 Side.Ask 5 104 1]) 2).bids
      = (snapshot_full (apply_events OrderBook.empty
        [mk_add 1 Side.Bid 1 100 10, mk_add 2 Side.Bid 2 102 5, mk_add 3 Side.Bid 3 101 7,
         mk_add 4 Side.Ask 4 105 15, mk_add 5 Side.Ask 5 104 1])).bids.take 2 ∧
    (snapshot_full (apply_events OrderBook.empty
        [mk_add 1 Side.Bid 1 100 10, mk_add 2 Side.Bid 2 102 5, mk_add 3 Side.Bid 3 101 7,
         mk_add 4 Side.Ask 4 105 15, mk_add 5 Side.Ask 5 104 1])).bids.length = 3 := by
  have h := C22_top_n_is_prefix_of_full (apply_events OrderBook.empty
        [mk_add 1 Side.Bid 1 100 10, mk_add 2 Side.Bid 2 102 5, mk_add 3 Side.Bid 3 101 7,
         mk_add 4 Side.Ask 4 105 15, mk_add 5 Side.Ask 5 104 1]) 2 (by decide) (by decide)
  refine ⟨h.1, ?_⟩
  rw [h.2.2.2.2.2.2.1]
  decide

/-- C23: in a book state in which each resident id occurs exactly once in the queue of its
own side and price, for a Modify of a resident id whose order rests at price `p` on side
`s`, with `p2` the price that `on_event` passes on (`new_price`, or `price` when
`new_price` is zero): if `p2` differs from `p`, the queue of side `s` at `p2` is its
previous content (empty if the level did not exist) with the id appended at the tail, the
queue at `p` is its previous content without the id, the remaining ids in their previous
order, and every other queue is unchanged; if `p2` equals `p`, both level maps are
unchanged. -/
theorem C23_modify_queue_positions (ob : OrderBook) (ev : MboEvent) (o : Order) (p2 : Int)
    (hwf : ob.WF) (hown : OwnQueueOnce ob) (hk : ev.kind = EventKind.Modify)
    (hres : map_find ob.orders_ ev.order_id = some o)
    (hp2 : p2 = if ev.new_price ≠ 0 then ev.new_price else ev.price) :
    (p2 ≠ o.price →
      level_at (levels_of (on_event ob ev) o.side) p2
        = level_at (levels_of ob o.side) p2 ++ [ev.order_id] ∧
      level_at (levels_of (on_event ob ev) o.side) o.price
        = (level_at (levels_of ob o.side) o.price).filter
            (fun y => decide (y ≠ ev.order_id)) ∧
      ev.order_id ∉ level_at (levels_of (on_event ob ev) o.side) o.price ∧
      ∀ s px, (s ≠ o.side ∨ (px ≠ p2 ∧ px ≠ o.price)) →
        level_at (levels_of (on_event ob ev) s) px = level_at (levels_of ob s) px) ∧
    (p2 = o.price →
      (on_event ob ev).bids_ = ob.bids_ ∧ (on_event ob ev).asks_ = ob.asks_) := by
  have hev : on_event ob ev = modify_order ob ev.order_id p2
      (if ev.new_qty ≠ 0 then ev.new_qty else ev.qty) := by
    rw [hp2]
    simp [on_event, hk]
  have hlv := modify_order_levels ob ev.order_id o p2
    (if ev.new_qty ≠ 0 then ev.new_qty else ev.qty) hres
  have hcount : (level_at (levels_of ob o.side) o.price).count ev.order_id = 1 :=
    hown (ev.order_id, o) (mem_of_map_find _ _ _ hres)
  have hm := wf_levels ob hwf o.side
  rw [hev]
  constructor
  · intro hne
    rw [hlv, if_pos hne]
    have hold : level_at (level_push (cmp_of o.side)
          (level_remove (cmp_of o.side) (levels_of ob o.side) o.price ev.order_id)
          p2 ev.order_id) o.price
        = (level_at (levels_of ob o.side) o.price).erase ev.order_id := by
      rw [level_at_push_ne _ _ _ _ _ (Ne.symm hne),
        level_at_remove_self (strictCmp_cmp_of _) _ _ _ hm]
    refine ⟨?_, ?_, ?_, ?_⟩
    · rw [Function.update_same, level_at_push_self, level_at_remove_ne _ _ _ _ _ hne]
    · rw [Function.update_same, hold, erase_eq_filter_of_count_one _ _ hcount]
    · rw [Function.update_same, hold]
      exact not_mem_erase_of_count_one _ _ hcount
    · intro s px hcase
      by_cases hs : s = o.side
      · subst hs
        rcases hcase with h | ⟨h1, h2⟩
        · exact absurd rfl h
        · rw [Function.update_same, level_at_push_ne _ _ _ _ _ h1,
            level_at_remove_ne _ _ _ _ _ h2]
      · rw [Function.update_noteq hs]
  · intro heq
    rw [if_neg (not_not.mpr heq)] at hlv
    exact ⟨congrFun hlv Side.Bid, congrFun hlv Side.Ask⟩

/-- C23 witness: orders 1, 2, 3 rest at bid 100 and order 4 at bid 101; moving order 2 to
101 leaves 1, 3 at 100 and 4, 2 at 101. -/
theorem C23_modify_queue_positions_witness :
    level_at (levels_of (on_event (apply_events OrderBook.empty
        [mk_add 1 Side.Bid 1 100 10, mk_add 2 Side.Bid 2 100 5, mk_add 3 Side.Bid 3 100 7,
         mk_add 4 Side.Bid 4 101 1]) (mk_mod 5 2 101 5)) Side.Bid) 101
      = [4, 2] ∧
    level_at (levels_of (on_event (apply_events OrderBook.empty
        [mk_add 1 Side.Bid 1 100 10, mk_add 2 Side.Bid 2 100 5, mk_add 3 Side.Bid 3 100 7,
         mk_add 4 Side.Bid 4 101 1]) (mk_mod 5 2 101 5)) Side.Bid) 100
      = [1, 3] := by
  have h := (C23_modify_queue_positions (apply_events OrderBook.empty
        [mk_add 1 Side.Bid 1 100 10, mk_add 2 Side.Bid 2 100 5, mk_add 3 Side.Bid 3 100 7,
         mk_add 4 Side.Bid 4 101 1]) (mk_mod 5 2 101 5) ⟨100, 5, Side.Bid⟩ 101
      (by decide) (by decide) rfl (by decide) (by decide)).1 (by decide)
  refine ⟨?_, ?_⟩
  · rw [h.1]
    decide
  · rw [h.2.1]
    decide

/-- C25: for every book state reached from the empty book by a finite sequence of events
in which no queue holds a non-resident id, and every order id that is not resident,
`on_event(Add(side,id,p,q))` followed by `on_event(Cancel(id))` yields the original state:
the same bid levels, ask levels and queue contents in the same order, and the same index.
(That each resident id occurs once in its own queue is not needed.) -/
theorem C25_add_then_cancel_is_identity (evs : List MboEvent) (add cxl : MboEvent)
    (hres : ∀ id ∈ queue_ids (apply_events OrderBook.empty evs),
      id ∈ index_ids (apply_events OrderBook.empty evs))
    (hadd : add.kind = EventKind.Add) (hcxl : cxl.kind = EventKind.Cancel)
    (hsame : cxl.order_id = add.order_id)
    (hnew : add.order_id ∉ index_ids (apply_events OrderBook.empty evs)) :
    on_event (on_event (apply_events OrderBook.empty evs) add) cxl
      = apply_events OrderBook.empty evs := by
  have hwf : (apply_events OrderBook.empty evs).WF :=
    wf_apply_events evs OrderBook.empty (by decide)
  have hne : NoEmptyLevel (apply_events OrderBook.empty evs) :=
    noEmptyLevel_apply_events evs OrderBook.empty (by decide)
  have h1 : on_event (apply_events OrderBook.empty evs) add
      = add_order (apply_events OrderBook.empty evs) add.order_id add.side add.price
          add.qty := by
    simp [on_event, hadd]
  have h2 : ∀ b, on_event b cxl = cancel_order b add.order_id := by
    intro b
    simp [on_event, hcxl, hsame]
  rw [h2, h1]
  exact add_then_cancel _ hwf hne _ _ _ _
    (map_find_eq_none_of_not_mem_index _ _ hnew) (fun h => hnew (hres _ h))

/-- C25 witness: on the book with bids 1, 2 at 100 and ask 3 at 105, adding order 9 at bid
100 and cancelling it gives the book back. -/
theorem C25_add_then_cancel_is_identity_witness :
    on_event (on_event (apply_events OrderBook.empty
        [mk_add 1 Side.Bid 1 100 10, mk_add 2 Side.Bid 2 100 5, mk_add 3 Side.Ask 3 105 7])
        (mk_add 4 Side.Bid 9 100 1)) (mk_cxl 5 9)
      = apply_events OrderBook.empty
        [mk_add 1 Side.Bid 1 100 10, mk_add 2 Side.Bid 2 100 5, mk_add 3 Side.Ask 3 105 7] :=
  C25_add_then_cancel_is_identity
    [mk_add 1 Side.Bid 1 100 10, mk_add 2 Side.Bid 2 100 5, mk_add 3 Side.Ask 3 105 7]
    (mk_add 4 Side.Bid 9 100 1) (mk_cxl 5 9) (by decide) rfl rfl rfl (by decide)

/-- C26: for every book state and every Cancel, Modify or Trade event naming order id `X`,
`on_event` leaves the entry of the index (price, quantity, side, or absence) of every id
other than `X` unchanged, and in every level queue of either side the ids other than `X`
are the same, in the same order, before and after (a level that is absent counts as an
empty queue). -/
theorem C26_other_orders_untouched (ob : OrderBook) (ev : MboEvent) (hwf : ob.WF)
    (hk : ev.kind = EventKind.Cancel ∨ ev.kind = EventKind.Modify ∨
      ev.kind = EventKind.Trade) :
    (∀ y, y ≠ ev.order_id → map_find (on_event ob ev).orders_ y = map_find ob.orders_ y) ∧
    (∀ s px, (level_at (levels_of (on_event ob ev) s) px).filter
        (fun y => decide (y ≠ ev.order_id))
      = (level_at (levels_of ob s) px).filter (fun y => decide (y ≠ ev.order_id))) := by
  rcases hk with hk | hk | hk
  · have hev : on_event ob ev = cancel_order ob ev.order_id := by simp [on_event, hk]
    rw [hev]
    exact cancel_frame ob hwf _
  · have hev : on_event ob ev = modify_order ob ev.order_id
        (if ev.new_price ≠ 0 then ev.new_price else ev.price)
        (if ev.new_qty ≠ 0 then ev.new_qty else ev.qty) := by simp [on_event, hk]
    rw [hev]
    exact modify_frame ob hwf _ _ _
  · have hev : on_event ob ev = trade_order ob ev.order_id ev.qty := by simp [on_event, hk]
    rw [hev]
    exact trade_frame ob hwf _ _

/-- C26 witness: orders 1, 2, 3 rest at bid 100; a full fill of order 2 leaves order 1 as
it was and the queue 1, 3. -/
theorem C26_other_orders_untouched_witness :
    map_find (on_event (apply_events OrderBook.empty
        [mk_add 1 Side.Bid 1 100 10, mk_add 2 Side.Bid 2 100 5, mk_add 3 Side.Bid 3 100 7])
        (mk_trd 4 2 5 Side.Ask)).orders_ 1 = some ⟨100, 10, Side.Bid⟩ ∧
    (level_at (levels_of (on_event (apply_events OrderBook.empty
        [mk_add 1 Side.Bid 1 100 10, mk_add 2 Side.Bid 2 100 5, mk_add 3 Side.Bid 3 100 7])
        (mk_trd 4 2 5 Side.Ask)) Side.Bid) 100).filter (fun y => decide (y ≠ 2)) = [1, 3] := by
  have h := C26_other_orders_untouched (apply_events OrderBook.empty
        [mk_add 1 Side.Bid 1 100 10, mk_add 2 Side.Bid 2 100 5, mk_add 3 Side.Bid 3 100 7])
        (mk_trd 4 2 5 Side.Ask) (by decide) (Or.inr (Or.inr rfl))
  refine ⟨?_, ?_⟩
  · rw [h.1 1 (by decide)]
    decide
  · have h2 := h.2 Side.Bid 100
    rw [show (mk_trd 4 2 5 Side.Ask).order_id = 2 from rfl] at h2
    rw [h2]
    decide

/-- C27: for every line whose fields (after the optional stamp) start with `ADD`, number
at least six and have numeric fields that convert, a side token other than `B` is decoded
as Ask: the line is not dropped, the event applied is the Add on the ask side, the bid
levels are unchanged, the id is appended to the ask queue at the price, and the index
records the order with side Ask. -/
theorem C27_other_side_token_is_ask (book : OrderBook) (line : List Char) (ts oid : Nat)
    (px qty : Int) (hk : (fields_of line).getD 0 [] = ['A', 'D', 'D'])
    (hlen : 6 ≤ (fields_of line).length)
    (h1 : stoull ((fields_of line).getD 1 []) = some ts)
    (h3 : stoull ((fields_of line).getD 3 []) = some oid)
    (h4 : stoll ((fields_of line).getD 4 []) = some px)
    (h5 : stoi ((fields_of line).getD 5 []) = some qty)
    (hside : (fields_of line).getD 2 [] ≠ ['B']) :
    (∃ stamp, handle_line book line
      = some { book := add_order book oid Side.Ask px qty,
               applied := some (mk_add ts Side.Ask oid px qty), send_wall_ns := stamp }) ∧
    (add_order book oid Side.Ask px qty).bids_ = book.bids_ ∧
    level_at (add_order book oid Side.Ask px qty).asks_ px = level_at book.asks_ px ++ [oid] ∧
    map_find (add_order book oid Side.Ask px qty).orders_ oid = some ⟨px, qty, Side.Ask⟩ := by
  obtain ⟨t, k, hp, hkl⟩ := parse_stamp_ok line
  have he := handle_line_eq book line t k hp hkl
  rw [← fields_of_eq line t k hp, decode_add_fields _ ts oid px qty hk hlen h1 h3 h4 h5,
    if_neg hside] at he
  refine ⟨⟨t, he⟩, rfl, ?_, ?_⟩
  · exact level_at_push_self px_less book.asks_ px oid
  · exact map_find_put_self id_less book.orders_ oid _

/-- C27 witness: the line `ADD,1,X,5,100,10` on the empty book rests order 5 on the ask
side. -/
theorem C27_other_side_token_is_ask_witness :
    (∃ stamp, handle_line OrderBook.empty "ADD,1,X,5,100,10".toList
      = some { book := add_order OrderBook.empty 5 Side.Ask 100 10,
               applied := some (mk_add 1 Side.Ask 5 100 10), send_wall_ns := stamp }) ∧
    (add_order OrderBook.empty 5 Side.Ask 100 10).asks_ = [(100, [5])] :=
  ⟨(C27_other_side_token_is_ask OrderBook.empty "ADD,1,X,5,100,10".toList 1 5 100 10
      (by decide) (by decide) (by decide) (by decide) (by decide) (by decide) (by decide)).1,
   by decide⟩

end engine
